import Mathlib

/-!
# One Billion Row Challenge (Go): a verification development

Shallow embedding of the scanning, parsing, aggregation, merge and format
pipeline found in `internal/r08` (with the sibling revisions `r06` and `r02`
where they share code).

Conventions of the embedding:

* a Go `[]byte` / `string` is a `List Nat`, one number per byte;
* Go `int`, `int32`, `int64` values are `Int`; where a fixed width can
  overflow the wrap-around is written out (`wrap32`, `wrap64`);
* an index expression that Go would reject at run time (index or slice out
  of range) makes the embedded function return `none`;
* a Go `panic` raised by the program itself is an explicit outcome;
* unbounded `for` loops take a fuel argument, one unit per round, and
  `running` is the outcome of a loop that has not been left when the fuel
  runs out.
-/

namespace OneBRC

/-! ## Bytes and fixed-width integers -/

/-- The bytes of an ASCII string literal. -/
def ascii (s : String) : List Nat := s.toList.map Char.toNat

/-- Go `uint8` subtraction `a - b` (wraps modulo 256). -/
def byteSub (a b : Nat) : Nat := (a % 256 + 256 - b % 256) % 256

/-- Wrap an integer into the range of Go `int32`. -/
def wrap32 (x : Int) : Int := (x + 2147483648) % 4294967296 - 2147483648

/-- Wrap an integer into the range of Go `int64`. -/
def wrap64 (x : Int) : Int :=
  (x + 9223372036854775808) % 18446744073709551616 - 9223372036854775808

/-- Checked read `row[i]` for a Go `int` index: `none` where Go panics. -/
def readAt (row : List Nat) (i : Int) : Option Nat :=
  if 0 ≤ i then row[i.toNat]? else none

/-- Checked slice `row[:n]` for a Go `int` bound: `none` where Go panics. -/
def sliceTo (row : List Nat) (n : Int) : Option (List Nat) :=
  if 0 ≤ n ∧ n ≤ row.length then some (row.take n.toNat) else none

/-! ## Row parser -/

namespace r08

/-- Embedding of `parseRow` (`internal/r08/calculate.go`): the row is
parsed backwards from its last byte. -/
def parseRow (row : List Nat) : Option (List Nat × Int) := do
  let nRow : Int := (row.length : Int) - 1
  let b0 ← readAt row nRow
  let temp : Int := (byteSub b0 48 : Nat)
  let nRow := nRow - 2
  let b1 ← readAt row nRow
  let temp := temp + (byteSub b1 48 : Nat) * 10
  let nRow := nRow - 1
  let b2 ← readAt row nRow
  let (temp, nRow) :=
    if 48 ≤ b2 ∧ b2 ≤ 57 then (temp + (byteSub b2 48 : Nat) * 100, nRow - 1)
    else (temp, nRow)
  let b3 ← readAt row nRow
  let (temp, nRow) := if b3 = 45 then (-temp, nRow - 1) else (temp, nRow)
  let nRow := nRow - 1
  let key ← sliceTo row (nRow + 1)
  pure (key, temp)

end r08

namespace r06

/-- Embedding of `parseRow` (`internal/r06/calculate.go`); the key is
returned as a Go string holding the same bytes. -/
def parseRow (row : List Nat) : Option (List Nat × Int) := do
  let nRow : Int := (row.length : Int) - 1
  let b0 ← readAt row nRow
  let temp : Int := (byteSub b0 48 : Nat)
  let nRow := nRow - 2
  let b1 ← readAt row nRow
  let temp := temp + (byteSub b1 48 : Nat) * 10
  let nRow := nRow - 1
  let b2 ← readAt row nRow
  let (temp, nRow) :=
    if 48 ≤ b2 ∧ b2 ≤ 57 then (temp + (byteSub b2 48 : Nat) * 100, nRow - 1)
    else (temp, nRow)
  let b3 ← readAt row nRow
  let (temp, nRow) := if b3 = 45 then (-temp, nRow - 1) else (temp, nRow)
  let nRow := nRow - 1
  let key ← sliceTo row (nRow + 1)
  pure (key, temp)

end r06

/-- The value text of the input grammar `-?\d{1,2}\.\d`: an optional minus
sign, an optional first integer digit, the second integer digit, a dot and
the fractional digit. -/
def valueText (neg : Bool) (hundreds : Option Nat) (tens frac : Nat) : List Nat :=
  (if neg then [45] else []) ++
    ((match hundreds with
      | some h => [48 + h]
      | none => []) ++ [48 + tens, 46, 48 + frac])

/-- The signed value, in tenths, that a value text denotes. -/
def valueTenths (neg : Bool) (hundreds : Option Nat) (tens frac : Nat) : Int :=
  let m : Int := ((hundreds.getD 0 * 100 + tens * 10 + frac : Nat) : Int)
  if neg then -m else m

/-! ## Line scanner -/

/-- Go `bytes.IndexByte(s, c)`: index of the first `c`, `none` for -1. -/
def indexByte : List Nat → Nat → Option Nat
  | [], _ => none
  | b :: bs, c => if b = c then some 0 else (indexByte bs c).map (· + 1)

/-- Go `bytes.LastIndexByte(s, c)`: index of the last `c`, `none` for -1. -/
def lastIndexByte : List Nat → Nat → Option Nat
  | [], _ => none
  | b :: bs, c =>
    match lastIndexByte bs c with
    | some i => some (i + 1)
    | none => if b = c then some 0 else none

/-- Go `(*bytes.Reader).Read(b)` with `len(b) = room`, the reader state being
its unread bytes: returns the bytes copied, whether the error is `io.EOF`,
and the new reader state.  An exhausted reader returns `(0, io.EOF)`;
otherwise as many bytes as fit are copied and the error is nil. -/
def readerRead (unread : List Nat) (room : Nat) : List Nat × Bool × List Nat :=
  match unread with
  | [] => ([], true, [])
  | _ :: _ => (unread.take room, false, unread.drop room)

/-- How a run of the scanner loop ended. -/
inductive ScanEnd where
  /-- The loop was left through `break`: the sequence is complete. -/
  | done
  /-- The loop raised `panic("line exceeds buffer size")`. -/
  | fatal
  /-- The loop was still running when the fuel ran out. -/
  | running
  deriving DecidableEq, Repr

/-- The lines yielded by a run of the scanner, and how the run ended. -/
structure ScanResult where
  lines : List (List Nat)
  ending : ScanEnd
  deriving DecidableEq, Repr

/-- Put the lines yielded so far in front of the rest of the run. -/
def ScanResult.prepend (ls : List (List Nat)) (r : ScanResult) : ScanResult :=
  ⟨ls ++ r.lines, r.ending⟩

/-- The size of the scanner's buffer, `1024*1024`. -/
def bufSize : Nat := 1024 * 1024

namespace r08

/-- Inner loop of `getMeasurements`: yield each newline-terminated line of
`chunk`.  Every round removes at least one byte, so `chunk.length` rounds
are enough; a consumer that ranges over the whole sequence is assumed
(`yield` returns true). -/
def yieldLines : Nat → List Nat → List (List Nat)
  | 0, _ => []
  | fuel + 1, chunk =>
    match indexByte chunk 10 with
    | none => []
    | some nextLine => chunk.take nextLine :: yieldLines fuel (chunk.drop (nextLine + 1))

/-- Outer loop of `getMeasurements` (`internal/r08/calculate.go`), for a
buffer of `cap` bytes.  `pending` is `buf[:next]`, `unread` the state of the
reader; each unit of fuel pays for one `inp.Read`. -/
def scanLoop (cap : Nat) : Nat → List Nat → List Nat → ScanResult
  | 0, _, _ => ⟨[], .running⟩
  | fuel + 1, unread, pending =>
    match readerRead unread (cap - pending.length) with
    | (got, eof, unread1) =>
      if got.length = 0 ∧ pending.length = 0 then ⟨[], .done⟩
      else
        let validBuf := pending ++ got
        match lastIndexByte validBuf 10 with
        | none =>
          if validBuf.length = cap then ⟨[], .fatal⟩
          else scanLoop cap fuel unread1 validBuf
        | some lastNewLineIdx =>
          let chunk := validBuf.take (lastNewLineIdx + 1)
          let remainder := validBuf.drop (lastNewLineIdx + 1)
          let ls := yieldLines chunk.length chunk
          if eof then ⟨ls, .done⟩
          else (scanLoop cap fuel unread1 remainder).prepend ls

/-- Embedding of `getMeasurements`: the scanner started on a reader over
`input`, with the 1 MiB buffer empty. -/
def getMeasurements (fuel : Nat) (input : List Nat) : ScanResult :=
  scanLoop bufSize fuel input []

end r08

namespace r06

/-- The `getMeasurements` of `internal/r06/calculate.go` has the same text
as the one of r08. -/
def getMeasurements (fuel : Nat) (input : List Nat) : ScanResult :=
  r08.scanLoop bufSize fuel input []

end r06

namespace r02

/-- The `getMeasurements` of `internal/r02/calculate.go` has the same loop
as the one of r08 and yields each line converted to a string, that is, the
same bytes. -/
def getMeasurements (fuel : Nat) (input : List Nat) : ScanResult :=
  r08.scanLoop bufSize fuel input []

end r02

/-- The text made of the given lines, each followed by a newline. -/
def joinLines (ls : List (List Nat)) : List Nat :=
  (ls.map (· ++ [10])).flatten

/-! ## Chunk partitioner -/

namespace r08

/-- The scan `for end < fileSize && data[end] != '\n' { end++ }` of
`Calculate`; `fileSize - end` rounds are enough. -/
def advanceToNewline (data : List Nat) : Nat → Nat → Nat
  | 0, e => e
  | fuel + 1, e =>
    if e < data.length ∧ data[e]? ≠ some 10 then advanceToNewline data fuel (e + 1) else e

/-- The partitioning loop `for i := 0; i < numCores; i++` of `Calculate`
(`internal/r08/calculate.go`): the first argument is the number of rounds
left, `start` the running offset; the result lists the `(start, end)` pairs
handed to the worker goroutines, in order. -/
def chunkLoop (data : List Nat) (chunkSize : Nat) : Nat → Nat → List (Nat × Nat)
  | 0, _ => []
  | n + 1, start =>
    let fileSize := data.length
    let end0 := start + chunkSize
    let end1 :=
      if end0 < fileSize then advanceToNewline data (fileSize - end0) end0 + 1 else end0
    (start, end1) :: (if end1 ≥ fileSize then [] else chunkLoop data chunkSize n end1)

/-- The chunks computed by `Calculate` for the mapped bytes `data` when
`runtime.GOMAXPROCS(0)` is `numCores`; `chunkSize := fileSize / 100`. -/
def chunks (data : List Nat) (numCores : Nat) : List (Nat × Nat) :=
  chunkLoop data (data.length / 100) numCores 0

/-- The slice expression `data[start:end]` of the worker goroutine: `none`
where Go panics (bounds out of range). -/
def sliceChunk (data : List Nat) (c : Nat × Nat) : Option (List Nat) :=
  if c.1 ≤ c.2 ∧ c.2 ≤ data.length then some ((data.drop c.1).take (c.2 - c.1)) else none

end r08

/-! ## Aggregation table (`internal/r08/hash.go`) -/

/-- The outcome of running a piece of Go code that may panic or loop. -/
inductive Run (α : Type) where
  /-- The code returned normally with this result. -/
  | ok (a : α)
  /-- The code raised `panic(msg)`. -/
  | fatal (msg : String)
  /-- The loop was still running when the fuel ran out. -/
  | running

namespace r08

/-- Number of hash buckets, `1 << 17`. -/
def numBuckets : Nat := 1 <<< 17

/-- The size threshold, `numBuckets / 2`. -/
def initialBucketSize : Nat := numBuckets / 2

/-- The FNV-1a offset basis. -/
def offset64 : Nat := 14695981039346656037

/-- The FNV-1a prime. -/
def prime64 : Nat := 1099511628211

/-- The record `stats`: `min`, `max`, `count` are `int32`, `sum` is `int64`. -/
structure stats where
  min : Int
  max : Int
  count : Int
  sum : Int
  deriving DecidableEq, Repr

/-- An occupied slot `item`: a non-nil key and the record it points to. -/
structure item where
  key : List Nat
  stat : stats
  deriving DecidableEq, Repr

/-- The table `hashTable`: `items i` is the slot of index `i`, `none` when
its key is nil, and `size` the field of the same name. -/
structure hashTable where
  items : Nat → Option item
  size : Nat

/-- Embedding of `newHashTable`: every slot has a nil key. -/
def newHashTable : hashTable := ⟨fun _ => none, 0⟩

/-- Embedding of `hashFnv1a`, in `uint64` arithmetic. -/
def hashFnv1a (key : List Nat) : Nat :=
  key.foldl (fun hash c => ((hash ^^^ c) * prime64) % 18446744073709551616) offset64

/-- The initial probe index `int(hash & uint64(numBuckets-1))`. -/
def hashIndexOf (station : List Nat) : Nat := hashFnv1a station &&& (numBuckets - 1)

/-- The probe step `hashIndex++; if hashIndex >= numBuckets { hashIndex = 0 }`. -/
def nextIndex (hashIndex : Nat) : Nat :=
  if hashIndex + 1 ≥ numBuckets then 0 else hashIndex + 1

/-- The probing loop of `get`, one unit of fuel per probe. -/
def getLoop (ht : hashTable) (station : List Nat) : Nat → Nat → Run (Option stats)
  | 0, _ => .running
  | fuel + 1, hashIndex =>
    match ht.items hashIndex with
    | none => .ok none
    | some it =>
      if it.key = station then .ok (some it.stat)
      else getLoop ht station fuel (nextIndex hashIndex)

/-- Embedding of `(*hashTable).get`; `none` is the nil pointer. -/
def get (ht : hashTable) (station : List Nat) (fuel : Nat) : Run (Option stats) :=
  getLoop ht station fuel (hashIndexOf station)

/-- The probing loop of `insertOrUpdate`, one unit of fuel per probe. -/
def insertLoop (ht : hashTable) (station : List Nat) (temp : Int) : Nat → Nat → Run hashTable
  | 0, _ => .running
  | fuel + 1, hashIndex =>
    match ht.items hashIndex with
    | none =>
      let items1 := fun i =>
        if i = hashIndex then some ⟨station, ⟨temp, temp, 1, temp⟩⟩ else ht.items i
      let size1 := ht.size + 1
      if size1 > initialBucketSize then .fatal "too many items in the hash table"
      else .ok ⟨items1, size1⟩
    | some it =>
      if it.key = station then
        let s : stats :=
          ⟨min it.stat.min temp, max it.stat.max temp, wrap32 (it.stat.count + 1),
            wrap64 (it.stat.sum + temp)⟩
        .ok ⟨fun i => if i = hashIndex then some ⟨it.key, s⟩ else ht.items i, ht.size⟩
      else insertLoop ht station temp fuel (nextIndex hashIndex)

/-- Embedding of `(*hashTable).insertOrUpdate`. -/
def insertOrUpdate (ht : hashTable) (station : List Nat) (temp : Int) (fuel : Nat) :
    Run hashTable :=
  insertLoop ht station temp fuel (hashIndexOf station)

/-- A sequence of `insertOrUpdate` calls, stopping at the first one that does
not return. -/
def insertAll (fuel : Nat) : List (List Nat × Int) → hashTable → Run hashTable
  | [], ht => .ok ht
  | (station, temp) :: rest, ht =>
    match insertOrUpdate ht station temp fuel with
    | .ok ht1 => insertAll fuel rest ht1
    | .fatal msg => .fatal msg
    | .running => .running

/-- Embedding of `(*hashTable).All` for a consumer that ranges over the
whole sequence: the occupied slots in index order. -/
def All (ht : hashTable) : List (List Nat × stats) :=
  (List.range numBuckets).filterMap (fun i => (ht.items i).map (fun it => (it.key, it.stat)))

/-- Embedding of `(*hashTable).Keys`. -/
def Keys (ht : hashTable) : List (List Nat) :=
  (List.range numBuckets).filterMap (fun i => (ht.items i).map (fun it => it.key))

/-- The slot at which the probing loops of `get` and `insertOrUpdate` stop
when started at `idx`: the first slot on the probe path that is empty or
holds `station`. -/
def probe (items : Nat → Option item) (station : List Nat) : Nat → Nat → Option Nat
  | 0, _ => none
  | fuel + 1, idx =>
    match items idx with
    | none => some idx
    | some it => if it.key = station then some idx else probe items station fuel (nextIndex idx)

/-- What `insertOrUpdate` does once probing has stopped at slot `j`. -/
def insertAt (ht : hashTable) (station : List Nat) (temp : Int) (j : Nat) : Run hashTable :=
  match ht.items j with
  | none =>
    if ht.size + 1 > initialBucketSize then .fatal "too many items in the hash table"
    else .ok ⟨fun i => if i = j then some ⟨station, ⟨temp, temp, 1, temp⟩⟩ else ht.items i,
      ht.size + 1⟩
  | some it =>
    .ok ⟨fun i => if i = j then
        some ⟨it.key, ⟨min it.stat.min temp, max it.stat.max temp, wrap32 (it.stat.count + 1),
          wrap64 (it.stat.sum + temp)⟩⟩
      else ht.items i, ht.size⟩

/-- The indices of the occupied slots. -/
def occupied (ht : hashTable) : Finset Nat :=
  (Finset.range numBuckets).filter (fun i => (ht.items i).isSome = true)

/-- The representation invariant of the table. -/
structure WF (ht : hashTable) : Prop where
  /-- Only slots below `numBuckets` are occupied. -/
  inRange : ∀ i it, ht.items i = some it → i < numBuckets
  /-- Probing for a stored key stops at the slot that stores it. -/
  found : ∀ i it, ht.items i = some it →
    probe ht.items it.key numBuckets (hashIndexOf it.key) = some i
  /-- The `size` field counts the occupied slots. -/
  card : (occupied ht).card = ht.size
  /-- The `size` field is at most the threshold. -/
  bound : ht.size ≤ initialBucketSize

/-- The tables that `insertOrUpdate` calls which return can build from
`newHashTable`. -/
inductive Reachable : hashTable → Prop where
  | new : Reachable newHashTable
  | insert (ht ht1 : hashTable) (station : List Nat) (temp : Int) (fuel : Nat) :
      Reachable ht → insertOrUpdate ht station temp fuel = .ok ht1 → Reachable ht1

/-- One fold step of a record, as `insertOrUpdate` performs it. -/
def foldStep : Option stats → Int → Option stats
  | none, v => some ⟨v, v, 1, v⟩
  | some s, v => some ⟨min s.min v, max s.max v, wrap32 (s.count + 1), wrap64 (s.sum + v)⟩

/-- The record obtained by folding the values in order; `none` for no value. -/
def foldStats (vs : List Int) : Option stats := vs.foldl foldStep none

end r08

/-- The values passed with key `k` in a sequence of calls, in call order. -/
def valuesOf (calls : List (List Nat × Int)) (k : List Nat) : List Int :=
  (calls.filter (fun c => c.1 = k)).map (fun c => c.2)

/-- The number of distinct keys used by a sequence of calls. -/
def distinctKeys (calls : List (List Nat × Int)) : Nat :=
  (calls.map (fun c => c.1)).toFinset.card

/-! ## Floating-point rendering

The formatter converts the integer fields to `float64`, divides, and prints
with `%.1f`.  A finite `float64` is kept as sign, mantissa and binary
exponent; conversion and division round to nearest, ties to even, on 53 bits.
The exponent range is not limited: the quotients of this program stay far
inside the range of `float64`. -/

/-- A `float64` value. -/
inductive F64 where
  /-- The value `(-1)^neg * mant * 2^exp`. -/
  | finite (neg : Bool) (mant : Nat) (exp : Int)
  /-- Plus or minus infinity. -/
  | inf (neg : Bool)
  /-- Not a number. -/
  | nan
  deriving DecidableEq, Repr

/-- The number of binary digits of `n`; `fuel` bounds the number of halvings. -/
def bitLength : Nat → Nat → Nat
  | 0, _ => 0
  | fuel + 1, n => if n = 0 then 0 else 1 + bitLength fuel (n / 2)

/-- Round a quotient: the nearest integer to `n / d`, ties to even. -/
def roundHalfEven (n d : Nat) : Nat :=
  let q := n / d
  let r := n % d
  if 2 * r > d ∨ (2 * r = d ∧ q % 2 = 1) then q + 1 else q

/-- The `float64` nearest to `n / d` for positive `n` and `d`, as a mantissa
of 53 bits and a binary exponent. -/
def roundRatio (n d : Nat) : Nat × Int :=
  let e0 : Int := (bitLength n n : Int) - (bitLength d d : Int) - 53
  let n1 := if e0 ≥ 0 then n else n * 2 ^ (-e0).toNat
  let d1 := if e0 ≥ 0 then d * 2 ^ e0.toNat else d
  if n1 / d1 ≥ 2 ^ 53 then (roundHalfEven n1 (2 * d1), e0 + 1)
  else (roundHalfEven n1 d1, e0)

/-- Go conversion `float64(x)` of an integer. -/
def F64.ofInt (x : Int) : F64 :=
  if x = 0 then .finite false 0 0
  else
    let r := roundRatio x.natAbs 1
    .finite (decide (x < 0)) r.1 r.2

/-- Go `float64` division. -/
def F64.div : F64 → F64 → F64
  | .finite s1 m1 e1, .finite s2 m2 e2 =>
    if m2 = 0 then (if m1 = 0 then .nan else .inf (s1 != s2))
    else if m1 = 0 then .finite (s1 != s2) 0 0
    else
      let r := roundRatio m1 m2
      .finite (s1 != s2) r.1 (r.2 + e1 - e2)
  | .finite s1 _ _, .inf s2 => .finite (s1 != s2) 0 0
  | .inf s1, .finite s2 _ _ => .inf (s1 != s2)
  | _, _ => .nan

/-- The decimal digits of a natural number, as bytes. -/
def decimal (n : Nat) : List Nat := (Nat.toDigits 10 n).map Char.toNat

/-- Go `fmt.Sprintf("%.1f", x)`: the exact value of `x` rounded to one
decimal, ties to even. -/
def fmt1 : F64 → List Nat
  | .nan => ascii "NaN"
  | .inf neg => if neg then ascii "-Inf" else ascii "+Inf"
  | .finite neg m e =>
    let t := if e ≥ 0 then m * 2 ^ e.toNat * 10 else roundHalfEven (m * 10) (2 ^ (-e).toNat)
    (if neg then [45] else []) ++ decimal (t / 10) ++ [46] ++ decimal (t % 10)

/-! ## Merge, sort and format -/

/-- Go string comparison `a < b`: bytewise lexicographic. -/
def bytesLess : List Nat → List Nat → Bool
  | [], [] => false
  | [], _ :: _ => true
  | _ :: _, [] => false
  | a :: as, b :: bs => if a < b then true else if b < a then false else bytesLess as bs

/-- Insert a key into an ascending list. -/
def insertKey (k : List Nat) : List (List Nat) → List (List Nat)
  | [] => [k]
  | x :: xs => if bytesLess x k then x :: insertKey k xs else k :: x :: xs

/-- Go `sort.Strings`: the keys in ascending order. -/
def sortStrings (keys : List (List Nat)) : List (List Nat) :=
  keys.foldr insertKey []

/-- One entry `%s=%.1f/%.1f/%.1f` of the output, from the fields of a record:
`float64(min/10)`, `float64(sum)/float64(count)/10`, `float64(max)/10`.  The
first argument is an integer division in Go, which truncates toward zero. -/
def formatEntry (station : List Nat) (min max count sum : Int) : List Nat :=
  station ++ [61] ++ fmt1 (F64.ofInt (Int.tdiv min 10)) ++ [47] ++
    fmt1 (F64.div (F64.div (F64.ofInt sum) (F64.ofInt count)) (F64.ofInt 10)) ++ [47] ++
    fmt1 (F64.div (F64.ofInt max) (F64.ofInt 10))

/-- The entries joined by `", "`. -/
def joinEntries : List (List Nat) → List Nat
  | [] => []
  | [e] => e
  | e :: es => e ++ [44, 32] ++ joinEntries es

namespace r08

/-- The body of the merge loop of `Calculate`: `measurements` is the Go map,
kept as an association list; a key that is absent gets the delivered record,
a key that is present has the delivered record folded into its own. -/
def mergeOne : List (List Nat × stats) → List Nat × stats → List (List Nat × stats)
  | [], res => [res]
  | (k, s) :: m, res =>
    if k = res.1 then
      (k, ⟨min s.min res.2.min, max s.max res.2.max, wrap32 (s.count + res.2.count),
        wrap64 (s.sum + res.2.sum)⟩) :: m
    else (k, s) :: mergeOne m res

/-- The merge loop of `Calculate` over the delivered results, in order. -/
def mergeAll (results : List (List Nat × stats)) : List (List Nat × stats) :=
  results.foldl mergeOne []

/-- The lookup `measurements[station]`. -/
def lookup (measurements : List (List Nat × stats)) (station : List Nat) : Option stats :=
  (measurements.find? (fun e => e.1 = station)).map (fun e => e.2)

/-- The sorting and formatting part of `Calculate`: the bytes written to
`output` for the merged map. -/
def formatOutput (measurements : List (List Nat × stats)) : List Nat :=
  let sortedKeys := sortStrings (measurements.map (fun e => e.1))
  [123] ++ joinEntries (sortedKeys.filterMap (fun station =>
    (lookup measurements station).map (fun s => formatEntry station s.min s.max s.count s.sum)))
    ++ [125, 10]

/-- The body of the `for line := range getMeasurements(inp)` loop of
`processChunk` over the yielded lines. -/
def aggregate (fuel : Nat) : List (List Nat) → hashTable → Run hashTable
  | [], ht => .ok ht
  | line :: rest, ht =>
    match parseRow line with
    | none => .fatal "index out of range"
    | some (station, value) =>
      match insertOrUpdate ht station value fuel with
      | .ok ht1 => aggregate fuel rest ht1
      | .fatal msg => .fatal msg
      | .running => .running

/-- Embedding of `processChunk`: the results sent on the channel once the
scan of the chunk is complete. -/
def processChunk (fuel : Nat) (inp : List Nat) : Run (List (List Nat × stats)) :=
  let scan := getMeasurements fuel inp
  match aggregate fuel scan.lines newHashTable with
  | .ok ht =>
    match scan.ending with
    | .done => .ok (All ht)
    | .fatal => .fatal "line exceeds buffer size"
    | .running => .running
  | .fatal msg => .fatal msg
  | .running => .running

/-- The worker goroutines of `Calculate`, one per chunk, taken in chunk
order: each slices its chunk and processes it; the results delivered are
concatenated, and the first worker that does not complete decides the
outcome. -/
def runWorkers (fuel : Nat) (data : List Nat) : List (Nat × Nat) →
    Run (List (List Nat × stats))
  | [] => .ok []
  | c :: cs =>
    match sliceChunk data c with
    | none => .fatal "slice bounds out of range"
    | some chunk =>
      match processChunk fuel chunk with
      | .ok rs =>
        match runWorkers fuel data cs with
        | .ok rest => .ok (rs ++ rest)
        | .fatal msg => .fatal msg
        | .running => .running
      | .fatal msg => .fatal msg
      | .running => .running

/-- The merged map `measurements` built by `Calculate` from the mapped bytes
`data` with `numCores` workers. -/
def mergedResult (fuel : Nat) (data : List Nat) (numCores : Nat) :
    Run (List (List Nat × stats)) :=
  match runWorkers fuel data (chunks data numCores) with
  | .ok results => .ok (mergeAll results)
  | .fatal msg => .fatal msg
  | .running => .running

/-- Embedding of `Calculate` (`internal/r08/calculate.go`) from the mapped
bytes on: the bytes written to `output`. -/
def Calculate (fuel : Nat) (data : List Nat) (numCores : Nat) : Run (List Nat) :=
  match mergedResult fuel data numCores with
  | .ok measurements => .ok (formatOutput measurements)
  | .fatal msg => .fatal msg
  | .running => .running

end r08

namespace r06

/-- The local record `stats` of r06 `Calculate`: `min`, `max`, `sum` are
`int32`, `count` is `int`. -/
structure stats where
  min : Int
  max : Int
  sum : Int
  count : Int
  deriving DecidableEq, Repr

/-- The body of the aggregation loop of r06 `Calculate` for one parsed row. -/
def addRow : List (List Nat × stats) → List Nat → Int → List (List Nat × stats)
  | [], station, value => [(station, ⟨value, value, value, 1⟩)]
  | (k, s) :: m, station, value =>
    if k = station then
      (k, ⟨if value < s.min then value else s.min, if value > s.max then value else s.max,
        wrap32 (s.sum + value), wrap64 (s.count + 1)⟩) :: m
    else (k, s) :: addRow m station value

/-- The aggregation loop of r06 `Calculate` over the yielded lines. -/
def aggregate : List (List Nat) → List (List Nat × stats) → Option (List (List Nat × stats))
  | [], m => some m
  | line :: rest, m =>
    match parseRow line with
    | none => none
    | some (station, value) => aggregate rest (addRow m station value)

/-- The lookup `measurements[station]`. -/
def lookup (measurements : List (List Nat × stats)) (station : List Nat) : Option stats :=
  (measurements.find? (fun e => e.1 = station)).map (fun e => e.2)

/-- The sorting and formatting part of r06 `Calculate`. -/
def formatOutput (measurements : List (List Nat × stats)) : List Nat :=
  let sortedKeys := sortStrings (measurements.map (fun e => e.1))
  [123] ++ joinEntries (sortedKeys.filterMap (fun station =>
    (lookup measurements station).map (fun s => formatEntry station s.min s.max s.count s.sum)))
    ++ [125, 10]

/-- Embedding of `Calculate` (`internal/r06/calculate.go`) from the opened
file on: the bytes written to `output` (the line `cnt ...` goes to standard
output and is left out). -/
def Calculate (fuel : Nat) (input : List Nat) : Run (List Nat) :=
  let scan := getMeasurements fuel input
  match aggregate scan.lines [] with
  | none => .fatal "index out of range"
  | some measurements =>
    match scan.ending with
    | .done => .ok (formatOutput measurements)
    | .fatal => .fatal "line exceeds buffer size"
    | .running => .running

end r06

/-- The three lines of the example of the specification. -/
def exampleInput : List Nat := ascii "Bamako;36.9\nBamako;34.1\nOslo;-1.3\n"

/-- What `Calculate` writes for `exampleInput`: the entries
`Bamako=34.0/35.5/36.9` and `Oslo=` followed by -1.0, -1.3 and -1.3, in
braces, and a newline. -/
def exampleOutput : List Nat := ascii "\x7bBamako=34.0/35.5/36.9, Oslo=-1.0/-1.3/-1.3\x7d\n"

/-- A short sequence of calls, used to instantiate the theorems. -/
def exampleCalls : List (List Nat × Int) := [(ascii "a", 10), (ascii "b", -5), (ascii "a", 7)]

/-- The table built by `exampleCalls`. -/
def exampleTable : r08.hashTable :=
  match r08.insertAll r08.numBuckets exampleCalls r08.newHashTable with
  | .ok ht => ht
  | _ => r08.newHashTable

/-- A sequence of 65536 calls with pairwise distinct keys (`i` zero bytes for
the call of index `i`), which fills the table up to its threshold. -/
def manyCalls : List (List Nat × Int) :=
  (List.range 65536).map (fun i => (List.replicate i 0, 0))

/-- The table holds exactly the records of the calls made so far. -/
structure r08.Agrees (ht : r08.hashTable) (calls : List (List Nat × Int)) : Prop where
  /-- Each stored record is the fold of the values passed with its key. -/
  stat : ∀ i it, ht.items i = some it → r08.foldStats (valuesOf calls it.key) = some it.stat
  /-- The stored keys are the keys of the calls. -/
  present : ∀ k, k ∈ calls.map (fun c => c.1) ↔ ∃ i it, ht.items i = some it ∧ it.key = k
  /-- The `size` field is the number of distinct keys. -/
  size : ht.size = distinctKeys calls

/-- What `Calculate` writes for the input `a;1.0\nb;2.0\n` with one worker. -/
def oneWorkerOutput : List Nat := ascii "\x7ba=1.0/1.0/1.0\x7d\n"

/-- What `Calculate` writes for the input `a;1.0\nb;2.0\n` with two workers. -/
def twoWorkersOutput : List Nat := ascii "\x7ba=1.0/1.0/1.0, b=2.0/2.0/2.0\x7d\n"

namespace r08

/-- One step of the merge loop on the entry of one key: an absent key takes
the delivered record, a present one has the delivered record folded in. -/
def mergeStep : Option stats → stats → Option stats
  | none, r => some r
  | some s, r =>
    some ⟨min s.min r.min, max s.max r.max, wrap32 (s.count + r.count), wrap64 (s.sum + r.sum)⟩

end r08

/-- The records delivered with key `k`, in delivery order. -/
def recordsOf (results : List (List Nat × r08.stats)) (k : List Nat) : List r08.stats :=
  (results.filter (fun r => r.1 = k)).map (fun r => r.2)

/-- Three delivered results, two of them for the same key. -/
def exampleResults : List (List Nat × r08.stats) :=
  [(ascii "Bamako", ⟨369, 369, 1, 369⟩), (ascii "Oslo", ⟨-13, -13, 1, -13⟩),
    (ascii "Bamako", ⟨341, 341, 1, 341⟩)]

namespace r08

/-- The slice `sortedKeys` of `Calculate`: the keys of the merged map after
`sort.Strings`. -/
def outputKeys (measurements : List (List Nat × stats)) : List (List Nat) :=
  sortStrings (measurements.map (fun e => e.1))

/-- The entries that `Calculate` writes, in the order of `sortedKeys`. -/
def outputEntries (measurements : List (List Nat × stats)) : List (List Nat) :=
  (outputKeys measurements).filterMap (fun station =>
    (lookup measurements station).map (fun s => formatEntry station s.min s.max s.count s.sum))

end r08

/-! ## The linear-probing table of `internal/lphash` -/

namespace lphash

/-- The record `Stats`: `Min`, `Max`, `Sum` are `int32`, `Count` is `int64`. -/
structure Stats where
  Min : Int
  Max : Int
  Sum : Int
  Count : Int
  deriving DecidableEq, Repr

/-- An occupied slot `hashItem`: a non-nil key and the record it points to. -/
structure hashItem where
  Key : List Nat
  Stats : Stats
  deriving DecidableEq, Repr

/-- The table `Table`: `items i` is the slot of index `i`, `none` when its key
is nil, and `size` the field of the same name. -/
structure Table where
  items : Nat → Option hashItem
  size : Nat

/-- Number of hash buckets, `1 << 17`. -/
def numBuckets : Nat := 1 <<< 17

/-- Embedding of `NewTable`: every slot has a nil key. -/
def NewTable : Table := ⟨fun _ => none, 0⟩

/-- Embedding of `hashFnv1a` (`internal/lphash/hashtable.go`), in `uint64`
arithmetic, with its local constants `offset64` and `prime64`. -/
def hashFnv1a (key : List Nat) : Nat :=
  key.foldl (fun hash c => ((hash ^^^ c) * 1099511628211) % 18446744073709551616)
    14695981039346656037

/-- The initial probe index `int(hash & uint64(numBuckets-1))`. -/
def hashIndexOf (station : List Nat) : Nat := hashFnv1a station &&& (numBuckets - 1)

/-- The probe step `hashIndex++; if hashIndex >= numBuckets { hashIndex = 0 }`. -/
def nextIndex (hashIndex : Nat) : Nat :=
  if hashIndex + 1 ≥ numBuckets then 0 else hashIndex + 1

/-- The probing loop of `InsertOrUpdate`, one unit of fuel per probe.  The
function has no `panic`: the outcome is `ok` or `running`. -/
def insertLoop (ht : Table) (station : List Nat) (temp : Int) : Nat → Nat → Run Table
  | 0, _ => .running
  | fuel + 1, hashIndex =>
    match ht.items hashIndex with
    | none =>
      .ok ⟨fun i => if i = hashIndex then some ⟨station, ⟨temp, temp, temp, 1⟩⟩ else ht.items i,
        ht.size + 1⟩
    | some it =>
      if it.Key = station then
        let s : Stats :=
          ⟨if temp < it.Stats.Min then temp else it.Stats.Min,
            if temp > it.Stats.Max then temp else it.Stats.Max,
            wrap32 (it.Stats.Sum + temp), wrap64 (it.Stats.Count + 1)⟩
        .ok ⟨fun i => if i = hashIndex then some ⟨it.Key, s⟩ else ht.items i, ht.size⟩
      else insertLoop ht station temp fuel (nextIndex hashIndex)

/-- Embedding of `(*Table).InsertOrUpdate`. -/
def InsertOrUpdate (ht : Table) (station : List Nat) (temp : Int) (fuel : Nat) : Run Table :=
  insertLoop ht station temp fuel (hashIndexOf station)

/-- A sequence of `InsertOrUpdate` calls, stopping at the first one that does
not return. -/
def insertAll (fuel : Nat) : List (List Nat × Int) → Table → Run Table
  | [], ht => .ok ht
  | (station, temp) :: rest, ht =>
    match InsertOrUpdate ht station temp fuel with
    | .ok ht1 => insertAll fuel rest ht1
    | .fatal msg => .fatal msg
    | .running => .running

/-- Embedding of `(*Table).Iterate`: the occupied slots in index order. -/
def Iterate (ht : Table) : List (List Nat × Stats) :=
  (List.range numBuckets).filterMap (fun i => (ht.items i).map (fun it => (it.Key, it.Stats)))

/-- The keys of the slots, as slots of the r08 table, on which `r08.probe`
is defined. -/
def keyView (items : Nat → Option hashItem) : Nat → Option r08.item :=
  fun i => (items i).map (fun it => ⟨it.Key, ⟨0, 0, 0, 0⟩⟩)

/-- What `InsertOrUpdate` does once probing has stopped at slot `j`. -/
def insertAt (ht : Table) (station : List Nat) (temp : Int) (j : Nat) : Table :=
  match ht.items j with
  | none =>
    ⟨fun i => if i = j then some ⟨station, ⟨temp, temp, temp, 1⟩⟩ else ht.items i, ht.size + 1⟩
  | some it =>
    ⟨fun i => if i = j then
        some ⟨it.Key, ⟨if temp < it.Stats.Min then temp else it.Stats.Min,
          if temp > it.Stats.Max then temp else it.Stats.Max,
          wrap32 (it.Stats.Sum + temp), wrap64 (it.Stats.Count + 1)⟩⟩
      else ht.items i, ht.size⟩

/-- The indices of the occupied slots. -/
def occupied (ht : Table) : Finset Nat :=
  (Finset.range numBuckets).filter (fun i => (ht.items i).isSome = true)

/-- The representation invariant of the table. -/
structure WF (ht : Table) : Prop where
  /-- Only slots below `numBuckets` are occupied. -/
  inRange : ∀ i it, ht.items i = some it → i < numBuckets
  /-- Probing for a stored key stops at the slot that stores it. -/
  found : ∀ i it, ht.items i = some it →
    r08.probe (keyView ht.items) it.Key numBuckets (hashIndexOf it.Key) = some i
  /-- The `size` field counts the occupied slots. -/
  card : (occupied ht).card = ht.size

/-- One fold step of a record, as `InsertOrUpdate` performs it. -/
def foldStep : Option Stats → Int → Option Stats
  | none, v => some ⟨v, v, v, 1⟩
  | some s, v =>
    some ⟨if v < s.Min then v else s.Min, if v > s.Max then v else s.Max, wrap32 (s.Sum + v),
      wrap64 (s.Count + 1)⟩

/-- The record obtained by folding the values in order; `none` for no value. -/
def foldStats (vs : List Int) : Option Stats := vs.foldl foldStep none

/-- The table holds exactly the records of the calls made so far. -/
structure Agrees (ht : Table) (calls : List (List Nat × Int)) : Prop where
  /-- Each stored record is the fold of the values passed with its key. -/
  stat : ∀ i it, ht.items i = some it → foldStats (valuesOf calls it.Key) = some it.Stats
  /-- The stored keys are the keys of the calls. -/
  present : ∀ k, k ∈ calls.map (fun c => c.1) ↔ ∃ i it, ht.items i = some it ∧ it.Key = k
  /-- The `size` field is the number of distinct keys. -/
  size : ht.size = distinctKeys calls

end lphash

/-- A sequence of 131072 calls with pairwise distinct keys (`i` zero bytes for
the call of index `i`), which fills every slot of a table. -/
def fullCalls : List (List Nat × Int) :=
  (List.range 131072).map (fun i => (List.replicate i 0, 0))

/-- The table after the single call `insertOrUpdate("a", 10)` on a fresh
table. -/
def firstTable : r08.hashTable :=
  ⟨fun i => if i = r08.hashIndexOf (ascii "a") then some ⟨ascii "a", ⟨10, 10, 1, 10⟩⟩ else none, 1⟩

/-- The table after the call `insertOrUpdate("a", 3)` on `exampleTable`,
where the key `a` already has a record. -/
def updatedTable : r08.hashTable :=
  match r08.insertOrUpdate exampleTable (ascii "a") 3 r08.numBuckets with
  | .ok ht => ht
  | _ => r08.newHashTable

/-- The table after the call `insertOrUpdate("c", 3)` on `exampleTable`,
where the key `c` has no record. -/
def grownTable : r08.hashTable :=
  match r08.insertOrUpdate exampleTable (ascii "c") 3 r08.numBuckets with
  | .ok ht => ht
  | _ => r08.newHashTable

/-- The 64-bit FNV-1a hash as the claim words it: the left fold, from the
offset basis, of `h ↦ ((h xor b) * prime) mod 2^64` over the bytes. -/
def fnv1a64Spec (bytes : List Nat) : Nat :=
  bytes.foldl (fun h b => ((h ^^^ b) * 1099511628211) % 2 ^ 64) 14695981039346656037

namespace lphash

/-- The loop `for i := idx + 1; i < len(line); i++` of `parseLine` over the
bytes after the `';'`, with the `int32` variables `value` and
`decimalFactor`. -/
def parseValue : List Nat → Int → Int → Int
  | [], value, _ => value
  | c :: rest, value, decimalFactor =>
    if c = 45 then parseValue rest (wrap32 (-value)) decimalFactor
    else if c = 46 then parseValue rest value 10
    else
      parseValue rest (wrap32 (wrap32 (value * 10) + (byteSub c 48 : Nat)))
        (if decimalFactor > 1 then wrap32 (decimalFactor * 10) else decimalFactor)

/-- Embedding of `parseLine` (`internal/lphash/hashtable.go`); the station is
returned as a Go string holding the same bytes. -/
def parseLine (line : List Nat) : List Nat × Int :=
  match indexByte line 59 with
  | none => ([], 0)
  | some idx => (line.take idx, parseValue (line.drop (idx + 1)) 0 1)

end lphash

/-- A well-formed input of 117 lines `a;1.0`, each ended by a newline (702
bytes). -/
def manyLines : List Nat := joinLines (List.replicate 117 (ascii "a;1.0"))

/-! ## The floating-point baseline (`internal/baseline/calculate.go`) -/

/-- The integer `(-1)^neg * mant * 2^(exp - e)` for `e ≤ exp`: the value of a
finite `float64` in units of `2^e`. -/
def F64.scaled (neg : Bool) (mant : Nat) (exp e : Int) : Int :=
  (if neg then -1 else 1) * ((mant * 2 ^ (exp - e).toNat : Nat) : Int)

/-- Go `float64` addition: the exact sum rounded to nearest, ties to even.  An
exact sum of zero is `+0`, except that `(-0) + (-0)` is `-0`. -/
def F64.add : F64 → F64 → F64
  | .finite s1 m1 e1, .finite s2 m2 e2 =>
    let e := min e1 e2
    let t := F64.scaled s1 m1 e1 e + F64.scaled s2 m2 e2 e
    if t = 0 then .finite (m1 = 0 && m2 = 0 && s1 && s2) 0 0
    else
      let r := roundRatio t.natAbs 1
      .finite (decide (t < 0)) r.1 (r.2 + e)
  | .nan, _ => .nan
  | _, .nan => .nan
  | .inf s1, .inf s2 => if s1 = s2 then .inf s1 else .nan
  | .inf s1, .finite _ _ _ => .inf s1
  | .finite _ _ _, .inf s2 => .inf s2

/-- Go `x < y` on `float64`: false when an operand is NaN; the two zeros are
equal. -/
def F64.lt : F64 → F64 → Bool
  | .finite s1 m1 e1, .finite s2 m2 e2 =>
    decide (F64.scaled s1 m1 e1 (min e1 e2) < F64.scaled s2 m2 e2 (min e1 e2))
  | .finite _ _ _, .inf s2 => !s2
  | .inf s1, .finite _ _ _ => s1
  | .inf s1, .inf s2 => s1 && !s2
  | _, _ => false

/-- The sign bit of a `float64`. -/
def F64.signBit : F64 → Bool
  | .finite s _ _ => s
  | .inf s => s
  | .nan => false

/-- Go builtin `min(x, y)` on `float64`: NaN if an operand is NaN; negative
zero is lower than positive zero. -/
def F64.minGo (x y : F64) : F64 :=
  if x = .nan ∨ y = .nan then .nan
  else if F64.lt x y then x
  else if F64.lt y x then y
  else if F64.signBit x then x else y

/-- Go builtin `max(x, y)` on `float64`. -/
def F64.maxGo (x y : F64) : F64 :=
  if x = .nan ∨ y = .nan then .nan
  else if F64.lt x y then y
  else if F64.lt y x then x
  else if F64.signBit x then y else x

/-- The digits of a plain decimal text: the integer made of all the digits
and the number of digits after the point; `none` for any other byte, a second
point, or no digit at all. -/
def parseDecimal : List Nat → Nat → Nat → Bool → Bool → Option (Nat × Nat)
  | [], mant, frac, _, any => if any then some (mant, frac) else none
  | c :: rest, mant, frac, dot, any =>
    if c = 46 then (if dot then none else parseDecimal rest mant frac true any)
    else if 48 ≤ c ∧ c ≤ 57 then
      parseDecimal rest (mant * 10 + (c - 48)) (if dot then frac + 1 else frac) dot true
    else none

/-- Go `strconv.ParseFloat(s, 64)` on plain decimal texts (an optional sign,
digits, an optional point): the `float64` nearest to the decimal value, ties
to even; `none` is the syntax error.  The other texts that `ParseFloat`
accepts (exponents, hexadecimal, infinities, NaN, underscores) do not occur
in well-formed input and are not embedded: they give `none` here. -/
def parseFloat (s : List Nat) : Option F64 :=
  let signed : Bool × List Nat :=
    match s with
    | [] => (false, [])
    | c :: r => if c = 45 then (true, r) else if c = 43 then (false, r) else (false, c :: r)
  match parseDecimal signed.2 0 0 false false with
  | none => none
  | some (mant, frac) =>
    if mant = 0 then some (.finite signed.1 0 0)
    else
      let r := roundRatio mant (10 ^ frac)
      some (.finite signed.1 r.1 r.2)

/-- The rendered average of an r08 record, the second number of its entry:
`float64(sum)/float64(count)/10` printed with `%.1f`. -/
def r08.averageText (s : r08.stats) : List Nat :=
  fmt1 (F64.div (F64.div (F64.ofInt s.sum) (F64.ofInt s.count)) (F64.ofInt 10))

namespace baseline

/-- The record `stats` of the baseline: `min`, `max`, `sum` are `float64`,
`count` is an `int`. -/
structure stats where
  min : F64
  max : F64
  sum : F64
  count : Int
  deriving DecidableEq, Repr

/-- The lines that `bufio.Scanner` yields with its default split function:
the input cut at each newline, a final unterminated line included when it is
not empty.  The second argument is the line being read. -/
def splitLines : List Nat → List Nat → List (List Nat)
  | [], cur => if cur = [] then [] else [cur]
  | c :: rest, cur => if c = 10 then cur :: splitLines rest [] else splitLines rest (cur ++ [c])

/-- The function `dropCR` of `bufio`: one trailing carriage return is
removed. -/
def dropCR (line : List Nat) : List Nat :=
  if line.getLast? = some 13 then line.dropLast else line

/-- The lines scanned from the input; `none` when a line does not fit the
scanner's buffer of 65536 bytes (`scanner.Err()` is then `ErrTooLong` and
`Calculate` returns an error). -/
def scanLines (input : List Nat) : Option (List (List Nat)) :=
  let raw := splitLines input []
  if raw.all (fun l => l.length < 65536) then some (raw.map dropCR) else none

/-- The test `len(strings.Split(line, ";")) != 2`: a line with exactly one
`';'` gives the station and the value text. -/
def splitLine (line : List Nat) : Option (List Nat × List Nat) :=
  match indexByte line 59 with
  | none => none
  | some idx =>
    if 59 ∈ line.drop (idx + 1) then none else some (line.take idx, line.drop (idx + 1))

/-- The body of the scan loop for one parsed line: `measurements` is the Go
map, kept as an association list. -/
def addLine : List (List Nat × stats) → List Nat → F64 → List (List Nat × stats)
  | [], station, value => [(station, ⟨value, value, value, 1⟩)]
  | (k, m) :: rest, station, value =>
    if k = station then
      (k, ⟨F64.minGo m.min value, F64.maxGo m.max value, F64.add m.sum value,
        wrap64 (m.count + 1)⟩) :: rest
    else (k, m) :: addLine rest station value

/-- The scan loop over the lines; `none` where the code panics (malformed
line, value that does not parse). -/
def aggregate : List (List Nat) → List (List Nat × stats) → Option (List (List Nat × stats))
  | [], measurements => some measurements
  | line :: rest, measurements =>
    match splitLine line with
    | none => none
    | some (station, text) =>
      match parseFloat text with
      | none => none
      | some value => aggregate rest (addLine measurements station value)

/-- The lookup `measurements[station]`. -/
def lookup (measurements : List (List Nat × stats)) (station : List Nat) : Option stats :=
  (measurements.find? (fun e => e.1 = station)).map (fun e => e.2)

/-- The rendered average of a baseline record, the second number of its
entry: `sum/float64(count)` printed with `%.1f`. -/
def averageText (s : stats) : List Nat := fmt1 (F64.div s.sum (F64.ofInt s.count))

/-- The sorting and formatting part of the baseline `Calculate`. -/
def formatOutput (measurements : List (List Nat × stats)) : List Nat :=
  let sortedKeys := sortStrings (measurements.map (fun e => e.1))
  [123] ++ joinEntries (sortedKeys.filterMap (fun station =>
    (lookup measurements station).map (fun s =>
      station ++ [61] ++ fmt1 s.min ++ [47] ++ fmt1 (F64.div s.sum (F64.ofInt s.count)) ++ [47]
        ++ fmt1 s.max))) ++ [125, 10]

/-- Embedding of the baseline `Calculate` from the bytes of the file on: the
bytes written to `output`, `none` when it panics or returns an error. -/
def Calculate (input : List Nat) : Option (List Nat) :=
  match scanLines input with
  | none => none
  | some lines =>
    match aggregate lines [] with
    | none => none
    | some measurements => some (formatOutput measurements)

end baseline

/-- The text `-?d.d` or `-?dd.d` of a magnitude below 1000 in tenths, in the
shortest form, which is also how `%.1f` prints it. -/
def tenthsText (neg : Bool) (m : Nat) : List Nat :=
  (if neg then [45] else []) ++ decimal (m / 10) ++ [46] ++ decimal (m % 10)

/-- Whether a `float64` is finite with a mantissa of exactly 53 bits. -/
def F64.isNorm : F64 → Bool
  | .finite _ m _ => decide (2 ^ 52 ≤ m) && decide (m < 2 ^ 53)
  | _ => false

/-- The function `roundRatio` on two mantissas of 53 bits, where the bit
lengths are known. -/
def roundRatioNorm (n d : Nat) : Nat × Int :=
  if n * 2 ^ 53 / d ≥ 2 ^ 53 then (roundHalfEven (n * 2 ^ 53) (2 * d), -52)
  else (roundHalfEven (n * 2 ^ 53) d, -53)

/-- The function `F64.div` on two finite operands with mantissas of 53 bits. -/
def F64.divNorm : F64 → F64 → F64
  | .finite s1 m1 e1, .finite s2 m2 e2 =>
    .finite (s1 != s2) (roundRatioNorm m1 m2).1 ((roundRatioNorm m1 m2).2 + e1 - e2)
  | _, _ => .nan

/-- The number of tenths that `%.1f` prints for the magnitude `m * 2^e`: the
exact value rounded to one decimal, ties to even. -/
def fmtTenths (m : Nat) (e : Int) : Nat :=
  if e ≥ 0 then m * 2 ^ e.toNat * 10 else roundHalfEven (m * 10) (2 ^ (-e).toNat)

/-- The number of tenths that `%.1f` prints for a finite `float64`. -/
def F64.tenths : F64 → Nat
  | .finite _ m e => fmtTenths m e
  | _ => 0

/-- Whether, for the magnitude `m` in tenths, the average that r08 renders for
a record of the single value `m` and the average that the baseline renders for
a record of the single parsed value both print as `m` tenths; the quotients
are computed with `F64.divNorm`, whose operands are checked to have mantissas
of 53 bits. -/
def singleValueCheck (m : Nat) : Bool :=
  let t : F64 := .finite false (roundRatio m 1).1 (roundRatio m 1).2
  let x : F64 := .finite false (roundRatio m 10).1 (roundRatio m 10).2
  F64.isNorm t && F64.isNorm x && F64.isNorm (F64.divNorm t (.finite false (2 ^ 52) (-52))) &&
    decide (F64.tenths (F64.divNorm (F64.divNorm t (.finite false (2 ^ 52) (-52)))
      (.finite false (10 * 2 ^ 49) (-49))) = m) &&
    decide (F64.tenths (F64.divNorm x (.finite false (2 ^ 52) (-52))) = m)

/-- The check `singleValueCheck` for all magnitudes from 1 to `n`. -/
def singleValueCheckUpTo : Nat → Bool
  | 0 => true
  | n + 1 => singleValueCheck (n + 1) && singleValueCheckUpTo n

/-- What r08 `Calculate` writes for the input `a;0.1\na;0.2\n` with two
workers. -/
def r08TwoValuesOutput : List Nat := ascii "\x7ba=0.0/0.1/0.2\x7d\n"

/-- What the baseline `Calculate` writes for the input `a;0.1\na;0.2\n`. -/
def baselineTwoValuesOutput : List Nat := ascii "\x7ba=0.1/0.2/0.2\x7d\n"

/-- What the baseline `Calculate` writes for the input `a;-0.0\n`. -/
def baselineNegativeZeroOutput : List Nat := ascii "\x7ba=-0.0/-0.0/-0.0\x7d\n"

/-- What r08 `Calculate` writes for the input `a;-0.0\n`. -/
def r08NegativeZeroOutput : List Nat := ascii "\x7ba=0.0/0.0/0.0\x7d\n"

/-! ## The goroutines of `Calculate`

The worker goroutines, the goroutine that waits for them and closes the
channel, and the merge loop of the main goroutine, as a transition system:
one action is one step of one goroutine, and a schedule is a list of
actions. -/

namespace r08

/-- Where a worker goroutine is in `processChunk`. -/
inductive Phase where
  /-- Inside the loop over `getMeasurements`: the lines not yet processed, how
  the scan ends after them, and the table built so far. -/
  | scanning (rest : List (List Nat)) (ending : ScanEnd) (ht : hashTable)
  /-- Inside the loop over `hashTable.All()`, after the scan: the pairs not
  yet sent. -/
  | draining (rest : List (List Nat × stats))
  /-- After `wg.Done()`. -/
  | finished
  /-- The goroutine panicked. -/
  | panicked (msg : String)

/-- Whether the worker has left the loop over `getMeasurements` normally. -/
def Phase.scanComplete : Phase → Bool
  | .draining _ => true
  | .finished => true
  | _ => false

/-- Whether the worker is inside the loop over `getMeasurements`. -/
def Phase.isScanning : Phase → Bool
  | .scanning _ _ _ => true
  | _ => false

/-- Whether the worker has called `wg.Done()`. -/
def Phase.isFinished : Phase → Bool
  | .finished => true
  | _ => false

/-- Whether the worker panicked. -/
def Phase.isPanicked : Phase → Bool
  | .panicked _ => true
  | _ => false

/-- The state of the goroutines of `Calculate` after the partitioning loop:
the workers in chunk order, the content of `resultChan`, whether it is
closed, the map `measurements`, and whether the merge loop has ended.  The
field `log` is a history variable: every pair sent so far with the index of
the worker that sent it, in the order of the sends. -/
structure State where
  workers : List Phase
  chan : List (List Nat × stats)
  closed : Bool
  measurements : List (List Nat × stats)
  reducerDone : Bool
  log : List (Nat × (List Nat × stats))

/-- One step of one goroutine. -/
inductive Action where
  /-- Worker `i` takes its next step: one line of its scan, the end of its
  scan, one send on the channel, or `wg.Done()`. -/
  | work (i : Nat)
  /-- The waiting goroutine returns from `wg.Wait()` and closes the channel. -/
  | close
  /-- The merge loop receives one result and merges it. -/
  | recv
  /-- The merge loop finds the channel closed and empty, and ends. -/
  | stop
  deriving DecidableEq, Repr

/-- The next step of a worker goroutine in `processChunk`: its new phase and
the pair it sends, if the step is a send; `none` when the worker cannot take
a step (`room` tells whether the channel has room for a send). -/
def Phase.next (fuel : Nat) (room : Bool) : Phase → Option (Phase × Option (List Nat × stats))
  | .scanning (line :: rest) ending ht =>
    match parseRow line with
    | none => some (.panicked "index out of range", none)
    | some (station, value) =>
      match insertOrUpdate ht station value fuel with
      | .ok ht1 => some (.scanning rest ending ht1, none)
      | .fatal msg => some (.panicked msg, none)
      | .running => none
  | .scanning [] .done ht => some (.draining (All ht), none)
  | .scanning [] .fatal _ => some (.panicked "line exceeds buffer size", none)
  | .scanning [] .running _ => none
  | .draining (p :: rest) => if room then some (.draining rest, some p) else none
  | .draining [] => some (.finished, none)
  | .finished => none
  | .panicked _ => none

/-- The step relation, as a function: `none` when the action is not enabled
(a send on a full channel, a receive on an empty one, `wg.Wait()` before all
workers are done, any step after a panic).  `cap` is the capacity of
`resultChan`. -/
def step (fuel cap : Nat) : Action → State → Option State
  | .work i, s =>
    if s.workers.any Phase.isPanicked then none
    else
      match s.workers[i]? with
      | none => none
      | some p =>
        match p.next fuel (decide (s.chan.length < cap)) with
        | none => none
        | some (q, none) => some { s with workers := s.workers.set i q }
        | some (q, some pair) =>
          some { s with
            workers := s.workers.set i q, chan := s.chan ++ [pair], log := s.log ++ [(i, pair)] }
  | .close, s =>
    if s.workers.any Phase.isPanicked then none
    else if s.workers.all Phase.isFinished ∧ s.closed = false then some { s with closed := true }
    else none
  | .recv, s =>
    if s.workers.any Phase.isPanicked ∨ s.reducerDone = true then none
    else
      match s.chan with
      | p :: rest => some { s with chan := rest, measurements := mergeOne s.measurements p }
      | [] => none
  | .stop, s =>
    if s.workers.any Phase.isPanicked ∨ s.reducerDone = true then none
    else if s.chan = [] ∧ s.closed = true then some { s with reducerDone := true }
    else none

/-- Run a schedule: `none` when one of its actions is not enabled. -/
def exec (fuel cap : Nat) : List Action → State → Option State
  | [], s => some s
  | a :: rest, s =>
    match step fuel cap a s with
    | none => none
    | some s1 => exec fuel cap rest s1

/-- The worker goroutines as `Calculate` starts them, one per chunk. -/
def initWorkers (fuel : Nat) (data : List Nat) : List (Nat × Nat) → List Phase
  | [] => []
  | c :: cs =>
    (match sliceChunk data c with
      | none => Phase.panicked "slice bounds out of range"
      | some chunk =>
        Phase.scanning (getMeasurements fuel chunk).lines (getMeasurements fuel chunk).ending
          newHashTable) :: initWorkers fuel data cs

/-- The state in which the merge loop starts, no worker having taken a step
yet. -/
def initState (fuel : Nat) (data : List Nat) (numCores : Nat) : State :=
  ⟨initWorkers fuel data (chunks data numCores), [], false, [], false, []⟩

/-- The pairs that worker `i` has sent, in order. -/
def sentBy (log : List (Nat × (List Nat × stats))) (i : Nat) : List (List Nat × stats) :=
  (log.filter (fun e => e.1 = i)).map (fun e => e.2)

/-- What holds of a worker that started as `p0`, is now `p`, and has sent
`sent`. -/
def WorkerInv (fuel : Nat) (p0 p : Phase) (sent : List (List Nat × stats)) : Prop :=
  match p with
  | .scanning rest ending ht =>
    sent = [] ∧ ∃ lines, p0 = .scanning lines ending newHashTable ∧
      aggregate fuel rest ht = aggregate fuel lines newHashTable
  | .draining rest =>
    ∃ lines ht, p0 = .scanning lines .done newHashTable ∧
      aggregate fuel lines newHashTable = .ok ht ∧ sent ++ rest = All ht
  | .finished =>
    ∃ lines ht, p0 = .scanning lines .done newHashTable ∧
      aggregate fuel lines newHashTable = .ok ht ∧ sent = All ht
  | .panicked _ => sent = []

/-- The invariant of the transition system started with the workers `w0`. -/
structure Inv (fuel : Nat) (w0 : List Phase) (s : State) : Prop where
  /-- The number of workers does not change. -/
  len : s.workers.length = w0.length
  /-- Every worker satisfies its invariant. -/
  worker : ∀ i p0 p, w0[i]? = some p0 → s.workers[i]? = some p →
    WorkerInv fuel p0 p (sentBy s.log i)
  /-- Every send is by a worker. -/
  logIdx : ∀ e ∈ s.log, e.1 < s.workers.length
  /-- What was sent has been merged or is in the channel. -/
  consumed : ∃ consumed, s.log.map (fun e => e.2) = consumed ++ s.chan ∧
    s.measurements = mergeAll consumed
  /-- The channel is closed only after every worker is done. -/
  closedInv : s.closed = true → ∀ p ∈ s.workers, Phase.isFinished p = true
  /-- The merge loop ends only on a closed and empty channel. -/
  doneInv : s.reducerDone = true → s.closed = true ∧ s.chan = []

end r08

/-- The schedule in which worker 0 scans its line, ends its scan and sends
its pair, and the merge loop receives it, worker 1 not having started. -/
def exampleSchedule : List r08.Action := [.work 0, .work 0, .work 0, .recv]

/-- The state that `exampleSchedule` reaches on the input `a;1.0\nb;2.0\n`
with two workers. -/
def exampleState : r08.State :=
  ⟨[.draining [], .scanning [ascii "b;2.0"] .done r08.newHashTable], [], false,
    [(ascii "a", ⟨10, 10, 1, 10⟩)], false, [(0, (ascii "a", ⟨10, 10, 1, 10⟩))]⟩

/-- The table after the single call `insertOrUpdate("b", 20)` on a fresh
table. -/
def secondTable : r08.hashTable :=
  ⟨fun i => if i = r08.hashIndexOf (ascii "b") then some ⟨ascii "b", ⟨20, 20, 1, 20⟩⟩ else none, 1⟩

/-- A complete schedule for two workers with one line each: each worker
scans, ends its scan, sends its pair and is done; the channel is closed; the
merge loop receives the two pairs and ends. -/
def fullSchedule : List r08.Action :=
  [.work 0, .work 0, .work 0, .work 0, .work 1, .work 1, .work 1, .work 1, .close, .recv, .recv,
    .stop]

/-- The state that `fullSchedule` reaches on the input `a;1.0\nb;2.0\n` with
two workers. -/
def finalState : r08.State :=
  ⟨[.finished, .finished], [], true,
    [(ascii "a", ⟨10, 10, 1, 10⟩), (ascii "b", ⟨20, 20, 1, 20⟩)], true,
    [(0, (ascii "a", ⟨10, 10, 1, 10⟩)), (1, (ascii "b", ⟨20, 20, 1, 20⟩))]⟩

/-! # Theorems -/

/-! ## Row parser -/

theorem readAt_append (key suf : List Nat) (i : Int) (j : Nat)
    (h : i = (key.length : Int) + j) : readAt (key ++ suf) i = suf[j]? := by
  subst h
  unfold readAt
  have h0 : 0 ≤ (key.length : Int) + j := by positivity
  have h1 : ((key.length : Int) + j).toNat = key.length + j := by omega
  rw [if_pos h0, h1, List.getElem?_append_right (by omega)]
  simp

theorem readAt_app (key suf : List Nat) (i : Int) (j b : Nat)
    (h : i = (key.length : Int) + j) (hb : suf[j]? = some b) :
    readAt (key ++ suf) i = some b := by
  rw [readAt_append key suf i j h, hb]

theorem sliceTo_append (key suf : List Nat) (n : Int) (h : n = (key.length : Int)) :
    sliceTo (key ++ suf) n = some key := by
  subst h
  unfold sliceTo
  have h0 : 0 ≤ (key.length : Int) ∧ (key.length : Int) ≤ ((key ++ suf).length : Nat) := by
    constructor
    · positivity
    · simp
  rw [if_pos h0]
  simp

theorem byteSub_digit (d : Nat) (h : d ≤ 9) : byteSub (48 + d) 48 = d := by
  unfold byteSub; omega

theorem r06_parseRow_eq_r08 : r06.parseRow = r08.parseRow := rfl

/-- Shape of `parseRow` when the byte before the tens digit is not a digit. -/
theorem parseRow_short (row : List Nat) (b0 b1 b2 : Nat)
    (h0 : readAt row ((row.length : Int) - 1) = some b0)
    (h1 : readAt row ((row.length : Int) - 1 - 2) = some b1)
    (h2 : readAt row ((row.length : Int) - 1 - 2 - 1) = some b2)
    (hnd : ¬ (48 ≤ b2 ∧ b2 ≤ 57)) :
    r08.parseRow row =
      if b2 = 45 then
        (sliceTo row ((row.length : Int) - 1 - 2 - 1 - 1 - 1 + 1)).map
          (fun k => (k, -(((byteSub b0 48 : Nat) : Int) + (byteSub b1 48 : Nat) * 10)))
      else
        (sliceTo row ((row.length : Int) - 1 - 2 - 1 - 1 + 1)).map
          (fun k => (k, ((byteSub b0 48 : Nat) : Int) + (byteSub b1 48 : Nat) * 10)) := by
  simp only [r08.parseRow, h0, h1, h2, Option.bind_eq_bind, Option.some_bind, if_neg hnd]
  by_cases hm : b2 = 45
  · simp only [if_pos hm]
    cases sliceTo row ((row.length : Int) - 1 - 2 - 1 - 1 - 1 + 1) <;> rfl
  · simp only [if_neg hm]
    cases sliceTo row ((row.length : Int) - 1 - 2 - 1 - 1 + 1) <;> rfl

/-- Shape of `parseRow` when the byte before the tens digit is a digit. -/
theorem parseRow_long (row : List Nat) (b0 b1 b2 b3 : Nat)
    (h0 : readAt row ((row.length : Int) - 1) = some b0)
    (h1 : readAt row ((row.length : Int) - 1 - 2) = some b1)
    (h2 : readAt row ((row.length : Int) - 1 - 2 - 1) = some b2)
    (h3 : readAt row ((row.length : Int) - 1 - 2 - 1 - 1) = some b3)
    (hd : 48 ≤ b2 ∧ b2 ≤ 57) :
    r08.parseRow row =
      if b3 = 45 then
        (sliceTo row ((row.length : Int) - 1 - 2 - 1 - 1 - 1 - 1 + 1)).map
          (fun k => (k, -(((byteSub b0 48 : Nat) : Int) + (byteSub b1 48 : Nat) * 10
            + (byteSub b2 48 : Nat) * 100)))
      else
        (sliceTo row ((row.length : Int) - 1 - 2 - 1 - 1 - 1 + 1)).map
          (fun k => (k, ((byteSub b0 48 : Nat) : Int) + (byteSub b1 48 : Nat) * 10
            + (byteSub b2 48 : Nat) * 100)) := by
  simp only [r08.parseRow, h0, h1, h2, h3, Option.bind_eq_bind, Option.some_bind, if_pos hd]
  by_cases hm : b3 = 45
  · simp only [if_pos hm]
    cases sliceTo row ((row.length : Int) - 1 - 2 - 1 - 1 - 1 - 1 + 1) <;> rfl
  · simp only [if_neg hm]
    cases sliceTo row ((row.length : Int) - 1 - 2 - 1 - 1 - 1 + 1) <;> rfl

theorem r08_parseRow_value (key : List Nat) (neg : Bool) (hundreds : Option Nat)
    (tens frac : Nat) (hh : hundreds.getD 0 ≤ 9) (ht : tens ≤ 9) (hf : frac ≤ 9) :
    r08.parseRow (key ++ 59 :: valueText neg hundreds tens frac)
      = some (key, valueTenths neg hundreds tens frac) := by
  have len : ∀ suf : List Nat, ((key ++ suf).length : Int) = key.length + suf.length := by
    intro suf; simp
  rcases neg with _ | _ <;> rcases hundreds with _ | h
  · -- `key;T.F`
    have e := parseRow_short (key ++ [59, 48 + tens, 46, 48 + frac]) (48 + frac) (48 + tens) 59
      (readAt_app key _ _ 3 _ (by rw [len]; simp only [List.length_cons, List.length_nil]; omega) rfl)
      (readAt_app key _ _ 1 _ (by rw [len]; simp only [List.length_cons, List.length_nil]; omega) rfl)
      (readAt_app key _ _ 0 _ (by rw [len]; simp only [List.length_cons, List.length_nil]; omega) rfl)
      (by omega)
    rw [if_neg (by omega),
      sliceTo_append key _ _ (by rw [len]; simp only [List.length_cons, List.length_nil]; omega),
      byteSub_digit _ hf, byteSub_digit _ ht] at e
    simp only [valueText, valueTenths, List.nil_append, List.cons_append, Bool.false_eq_true,
      if_false, Option.getD_none]
    rw [e]
    simp only [Option.map_some']
    congr 2
    push_cast
    ring
  · -- `key;HT.F`
    have hh9 : h ≤ 9 := hh
    have e := parseRow_long (key ++ [59, 48 + h, 48 + tens, 46, 48 + frac])
      (48 + frac) (48 + tens) (48 + h) 59
      (readAt_app key _ _ 4 _ (by rw [len]; simp only [List.length_cons, List.length_nil]; omega) rfl)
      (readAt_app key _ _ 2 _ (by rw [len]; simp only [List.length_cons, List.length_nil]; omega) rfl)
      (readAt_app key _ _ 1 _ (by rw [len]; simp only [List.length_cons, List.length_nil]; omega) rfl)
      (readAt_app key _ _ 0 _ (by rw [len]; simp only [List.length_cons, List.length_nil]; omega) rfl)
      (by omega)
    rw [if_neg (by omega),
      sliceTo_append key _ _ (by rw [len]; simp only [List.length_cons, List.length_nil]; omega),
      byteSub_digit _ hf, byteSub_digit _ ht, byteSub_digit _ hh9] at e
    simp only [valueText, valueTenths, List.nil_append, List.cons_append, Bool.false_eq_true,
      if_false, Option.getD_some]
    rw [e]
    simp only [Option.map_some']
    congr 2
    push_cast
    ring
  · -- `key;-T.F`
    have e := parseRow_short (key ++ [59, 45, 48 + tens, 46, 48 + frac]) (48 + frac) (48 + tens) 45
      (readAt_app key _ _ 4 _ (by rw [len]; simp only [List.length_cons, List.length_nil]; omega) rfl)
      (readAt_app key _ _ 2 _ (by rw [len]; simp only [List.length_cons, List.length_nil]; omega) rfl)
      (readAt_app key _ _ 1 _ (by rw [len]; simp only [List.length_cons, List.length_nil]; omega) rfl)
      (by omega)
    rw [if_pos rfl,
      sliceTo_append key _ _ (by rw [len]; simp only [List.length_cons, List.length_nil]; omega),
      byteSub_digit _ hf, byteSub_digit _ ht] at e
    simp only [valueText, valueTenths, List.nil_append, List.cons_append, List.singleton_append,
      if_true, Option.getD_none]
    rw [e]
    simp only [Option.map_some']
    congr 2
    push_cast
    ring
  · -- `key;-HT.F`
    have hh9 : h ≤ 9 := hh
    have e := parseRow_long (key ++ [59, 45, 48 + h, 48 + tens, 46, 48 + frac])
      (48 + frac) (48 + tens) (48 + h) 45
      (readAt_app key _ _ 5 _ (by rw [len]; simp only [List.length_cons, List.length_nil]; omega) rfl)
      (readAt_app key _ _ 3 _ (by rw [len]; simp only [List.length_cons, List.length_nil]; omega) rfl)
      (readAt_app key _ _ 2 _ (by rw [len]; simp only [List.length_cons, List.length_nil]; omega) rfl)
      (readAt_app key _ _ 1 _ (by rw [len]; simp only [List.length_cons, List.length_nil]; omega) rfl)
      (by omega)
    rw [if_pos rfl,
      sliceTo_append key _ _ (by rw [len]; simp only [List.length_cons, List.length_nil]; omega),
      byteSub_digit _ hf, byteSub_digit _ ht, byteSub_digit _ hh9] at e
    simp only [valueText, valueTenths, List.nil_append, List.cons_append, List.singleton_append,
      if_true, Option.getD_some]
    rw [e]
    simp only [Option.map_some']
    congr 2
    push_cast
    ring

theorem valueTenths_range (neg : Bool) (hundreds : Option Nat) (tens frac : Nat)
    (hh : hundreds.getD 0 ≤ 9) (ht : tens ≤ 9) (hf : frac ≤ 9) :
    -999 ≤ valueTenths neg hundreds tens frac ∧ valueTenths neg hundreds tens frac ≤ 999 := by
  unfold valueTenths
  cases neg <;> simp only [Bool.false_eq_true, if_false, if_true] <;> omega

/-- C3: on every row `key ++ ";" ++ value`, where the value text is an
optional minus sign, one or two integer digits, a dot and one fractional
digit, `parseRow` of r08 and of r06 both return exactly the key bytes and the
signed value in tenths, which lies in [-999, 999]; returning `some` means that
every index read and the final slice bound lie inside the row. -/
theorem C3_parseRow_correct (key : List Nat) (neg : Bool) (hundreds : Option Nat)
    (tens frac : Nat) (hh : hundreds.getD 0 ≤ 9) (ht : tens ≤ 9) (hf : frac ≤ 9) :
    r08.parseRow (key ++ 59 :: valueText neg hundreds tens frac)
        = some (key, valueTenths neg hundreds tens frac) ∧
      r06.parseRow (key ++ 59 :: valueText neg hundreds tens frac)
        = some (key, valueTenths neg hundreds tens frac) ∧
      -999 ≤ valueTenths neg hundreds tens frac ∧
      valueTenths neg hundreds tens frac ≤ 999 := by
  refine ⟨r08_parseRow_value key neg hundreds tens frac hh ht hf, ?_,
    valueTenths_range neg hundreds tens frac hh ht hf⟩
  rw [r06_parseRow_eq_r08]
  exact r08_parseRow_value key neg hundreds tens frac hh ht hf

/-- C3 at `Ulaanbaatar;-1.3`, one of the two rows of `Test_parseRow`. -/
theorem C3_parseRow_correct_witness :
    r08.parseRow (ascii "Ulaanbaatar" ++ 59 :: valueText true none 1 3)
        = some (ascii "Ulaanbaatar", valueTenths true none 1 3) ∧
      r06.parseRow (ascii "Ulaanbaatar" ++ 59 :: valueText true none 1 3)
        = some (ascii "Ulaanbaatar", valueTenths true none 1 3) ∧
      -999 ≤ valueTenths true none 1 3 ∧ valueTenths true none 1 3 ≤ 999 :=
  C3_parseRow_correct (ascii "Ulaanbaatar") true none 1 3 (by decide) (by decide) (by decide)

/-- The two rows of `Test_parseRow`, evaluated. -/
theorem parseRow_examples :
    r08.parseRow (ascii "Bamako;36.9") = some (ascii "Bamako", 369) ∧
      r08.parseRow (ascii "Ulaanbaatar;-1.3") = some (ascii "Ulaanbaatar", -13) := by
  constructor <;> rfl


/-! ## Line scanner -/

theorem indexByte_append_cons (a b : List Nat) (c : Nat) (h : c ∉ a) :
    indexByte (a ++ c :: b) c = some a.length := by
  induction a with
  | nil => simp [indexByte]
  | cons x xs ih =>
    have hx : x ≠ c := fun e => h (by simp [e])
    have hxs : c ∉ xs := fun e => h (by simp [e])
    simp [indexByte, hx, ih hxs]

theorem lastIndexByte_none (s : List Nat) (c : Nat) (h : lastIndexByte s c = none) : c ∉ s := by
  induction s with
  | nil => simp
  | cons x xs ih =>
    unfold lastIndexByte at h
    cases hl : lastIndexByte xs c with
    | some i => rw [hl] at h; simp at h
    | none =>
      rw [hl] at h
      by_cases hx : x = c
      · simp [hx] at h
      · intro hm
        rcases List.mem_cons.1 hm with e | e
        · exact hx e.symm
        · exact ih hl e

theorem lastIndexByte_some (s : List Nat) (c i : Nat) (h : lastIndexByte s c = some i) :
    ∃ a b, s = a ++ c :: b ∧ a.length = i ∧ c ∉ b := by
  induction s generalizing i with
  | nil => simp [lastIndexByte] at h
  | cons x xs ih =>
    unfold lastIndexByte at h
    cases hl : lastIndexByte xs c with
    | some j =>
      rw [hl] at h
      obtain ⟨a, b, hs, ha, hb⟩ := ih j hl
      refine ⟨x :: a, b, by simp [hs], ?_, hb⟩
      simp at h
      simp [ha, h]
    | none =>
      rw [hl] at h
      by_cases hx : x = c
      · simp [hx] at h
        exact ⟨[], xs, by simp [hx], by simp [h], lastIndexByte_none xs c hl⟩
      · simp [hx] at h

theorem joinLines_nil : joinLines [] = [] := rfl

theorem joinLines_cons (l : List Nat) (ls : List (List Nat)) :
    joinLines (l :: ls) = l ++ 10 :: joinLines ls := by
  simp [joinLines]

theorem joinLines_append (xs ys : List (List Nat)) :
    joinLines (xs ++ ys) = joinLines xs ++ joinLines ys := by
  simp [joinLines]

theorem yieldLines_joinLines (ls : List (List Nat)) (hno : ∀ l ∈ ls, 10 ∉ l) (fuel : Nat)
    (hf : (joinLines ls).length ≤ fuel) : r08.yieldLines fuel (joinLines ls) = ls := by
  induction ls generalizing fuel with
  | nil => cases fuel <;> simp [r08.yieldLines, joinLines_nil, indexByte]
  | cons l ls ih =>
    rw [joinLines_cons] at hf ⊢
    have hl : 10 ∉ l := hno l (by simp)
    cases fuel with
    | zero => simp at hf
    | succ f =>
      have hf2 : (joinLines ls).length ≤ f := by
        simp at hf; omega
      simp only [r08.yieldLines, indexByte_append_cons l _ 10 hl]
      rw [List.take_left' rfl]
      have : List.drop (l.length + 1) (l ++ 10 :: joinLines ls) = joinLines ls := by
        rw [show l ++ 10 :: joinLines ls = (l ++ [10]) ++ joinLines ls by simp]
        exact List.drop_left' (by simp)
      rw [this, ih (fun x hx => hno x (by simp [hx])) f hf2]

/-- A cut right after a newline falls between two lines. -/
theorem joinLines_split (ls : List (List Nat)) (hno : ∀ l ∈ ls, 10 ∉ l) (a b : List Nat)
    (h : a ++ 10 :: b = joinLines ls) :
    ∃ k, a ++ [10] = joinLines (ls.take k) ∧ b = joinLines (ls.drop k) := by
  induction ls generalizing a with
  | nil => simp [joinLines_nil] at h
  | cons l ls ih =>
    rw [joinLines_cons] at h
    have hl : 10 ∉ l := hno l (by simp)
    rcases List.append_eq_append_iff.1 h with ⟨a', h1, h2⟩ | ⟨c', h1, h2⟩
    · -- l = a ++ a', 10 :: b = a' ++ 10 :: rest
      cases a' with
      | nil =>
        simp at h1 h2
        refine ⟨1, ?_, ?_⟩
        · simp [joinLines_cons, joinLines_nil, h1]
        · simp [h2]
      | cons y ys =>
        simp at h2
        exfalso; apply hl; rw [h1, ← h2.1]; simp
    · -- a = l ++ c', 10 :: rest = c' ++ 10 :: b
      cases c' with
      | nil =>
        simp at h1 h2
        refine ⟨1, ?_, ?_⟩
        · simp [joinLines_cons, joinLines_nil, h1]
        · simp [h2]
      | cons y ys =>
        simp at h2
        obtain ⟨k, hk1, hk2⟩ := ih (fun x hx => hno x (by simp [hx])) ys h2.2.symm
        refine ⟨k + 1, ?_, ?_⟩
        · simp [joinLines_cons, h1, ← hk1, ← h2.1]
        · simpa using hk2

theorem prefix_of_line (p u l rest : List Nat) (hp : 10 ∉ p) (h : p ++ u = l ++ 10 :: rest) :
    p.length ≤ l.length := by
  rcases List.append_eq_append_iff.1 h with ⟨a', h1, _⟩ | ⟨c', h1, h2⟩
  · rw [h1]; simp
  · cases c' with
    | nil => simp [h1]
    | cons y ys =>
      simp at h2
      exfalso; apply hp; rw [h1, ← h2.1]; simp

theorem scanLoop_joinLines (cap : Nat) (fuel : Nat) : ∀ (u p : List Nat) (ls : List (List Nat)),
    (∀ l ∈ ls, 10 ∉ l) → (∀ l ∈ ls, l.length < cap) → 10 ∉ p → p ++ u = joinLines ls →
    u.length < fuel → r08.scanLoop cap fuel u p = ⟨ls, .done⟩ := by
  induction fuel with
  | zero => intro u p ls _ _ _ _ hf; simp at hf
  | succ f ih =>
    intro u p ls hno hlen hp htext hf
    cases u with
    | nil =>
      cases ls with
      | nil =>
        simp [joinLines_nil] at htext
        subst htext
        simp [r08.scanLoop, readerRead]
      | cons l ls =>
        exfalso; apply hp
        simp [joinLines_cons] at htext
        rw [htext]; simp
    | cons x u =>
      cases ls with
      | nil => simp [joinLines_nil] at htext
      | cons l ls =>
        rw [joinLines_cons] at htext
        have hpl : p.length ≤ l.length := prefix_of_line p _ l _ hp htext
        have hl : l.length < cap := hlen l (by simp)
        have hroom : 1 ≤ cap - p.length := by omega
        unfold r08.scanLoop
        simp only [readerRead]
        have hgl : (List.take (cap - p.length) (x :: u)).length
            = min (cap - p.length) (u.length + 1) := by simp
        have hdl : (List.drop (cap - p.length) (x :: u)).length
            = u.length + 1 - (cap - p.length) := by simp
        have hsplit : List.take (cap - p.length) (x :: u) ++ List.drop (cap - p.length) (x :: u)
            = x :: u := List.take_append_drop _ _
        generalize List.take (cap - p.length) (x :: u) = got at hgl hsplit ⊢
        generalize List.drop (cap - p.length) (x :: u) = rest at hdl hsplit ⊢
        have hg0 : ¬ (got.length = 0 ∧ p.length = 0) := by omega
        rw [if_neg hg0]
        have htext2 : (p ++ got) ++ rest = l ++ 10 :: joinLines ls := by
          rw [List.append_assoc, hsplit]; exact htext
        cases hli : lastIndexByte (p ++ got) 10 with
        | none =>
          exfalso
          have hnv := lastIndexByte_none _ _ hli
          have hvl := prefix_of_line (p ++ got) rest l _ hnv htext2
          by_cases hr : cap - p.length ≤ u.length + 1
          · simp at hvl; omega
          · have hr0 : rest = [] := List.length_eq_zero.1 (by omega)
            subst hr0
            apply hnv
            rw [List.append_nil] at htext2
            rw [htext2]; simp
        | some last =>
          simp only [Bool.false_eq_true, if_false]
          obtain ⟨a, b, hab, ha, hb⟩ := lastIndexByte_some _ _ _ hli
          rw [hab]
          have e1 : List.take (last + 1) (a ++ 10 :: b) = a ++ [10] := by
            rw [show a ++ 10 :: b = (a ++ [10]) ++ b by simp]
            exact List.take_left' (by simp [ha])
          have e2 : List.drop (last + 1) (a ++ 10 :: b) = b := by
            rw [show a ++ 10 :: b = (a ++ [10]) ++ b by simp]
            exact List.drop_left' (by simp [ha])
          rw [e1, e2]
          have htext3 : a ++ 10 :: (b ++ rest) = joinLines (l :: ls) := by
            rw [joinLines_cons, ← htext2, hab]; simp
          obtain ⟨k, hk1, hk2⟩ := joinLines_split (l :: ls) hno a (b ++ rest) htext3
          have hno1 : ∀ y ∈ (l :: ls).take k, 10 ∉ y := fun y hy => hno y (List.mem_of_mem_take hy)
          have hno2 : ∀ y ∈ (l :: ls).drop k, 10 ∉ y := fun y hy => hno y (List.mem_of_mem_drop hy)
          have hlen2 : ∀ y ∈ (l :: ls).drop k, y.length < cap :=
            fun y hy => hlen y (List.mem_of_mem_drop hy)
          rw [hk1, yieldLines_joinLines _ hno1 _ le_rfl,
            ih rest b ((l :: ls).drop k) hno2 hlen2 hb hk2 (by simp at hf; omega)]
          simp [ScanResult.prepend]

theorem lastIndexByte_of_not_mem (s : List Nat) (c : Nat) (h : c ∉ s) :
    lastIndexByte s c = none := by
  cases hl : lastIndexByte s c with
  | none => rfl
  | some i =>
    obtain ⟨a, b, hab, _, _⟩ := lastIndexByte_some s c i hl
    exact absurd (by rw [hab]; simp) h

/-- Every text is a sequence of newline-terminated lines followed by a rest
without newline. -/
theorem exists_joinLines (input : List Nat) :
    ∃ lines rest, (∀ l ∈ lines, 10 ∉ l) ∧ 10 ∉ rest ∧ input = joinLines lines ++ rest := by
  induction input with
  | nil => exact ⟨[], [], by simp, by simp, by simp [joinLines_nil]⟩
  | cons x xs ih =>
    obtain ⟨lines, rest, h1, h2, h3⟩ := ih
    by_cases hx : x = 10
    · refine ⟨[] :: lines, rest, ?_, h2, ?_⟩
      · intro l hl
        rcases List.mem_cons.1 hl with e | e
        · rw [e]; simp
        · exact h1 l e
      · rw [joinLines_cons, h3, hx]; simp
    · cases lines with
      | nil =>
        refine ⟨[], x :: rest, by simp, ?_, ?_⟩
        · intro hm
          rcases List.mem_cons.1 hm with e | e
          · exact hx e.symm
          · exact h2 e
        · rw [h3]; simp [joinLines_nil]
      | cons l ls =>
        refine ⟨(x :: l) :: ls, rest, ?_, h2, ?_⟩
        · intro y hy
          rcases List.mem_cons.1 hy with e | e
          · rw [e]
            intro hm
            rcases List.mem_cons.1 hm with e2 | e2
            · exact hx e2.symm
            · exact h1 l (by simp) e2
          · exact h1 y (by simp [e])
        · rw [h3, joinLines_cons, joinLines_cons]; simp

theorem exists_joinLines_of_newline_end (input : List Nat)
    (hend : ∀ h : input ≠ [], input.getLast h = 10) :
    ∃ lines, (∀ l ∈ lines, 10 ∉ l) ∧ input = joinLines lines := by
  obtain ⟨lines, rest, h1, h2, h3⟩ := exists_joinLines input
  cases rest with
  | nil => exact ⟨lines, h1, by simpa using h3⟩
  | cons r rs =>
    exfalso
    have hne : input ≠ [] := by rw [h3]; simp
    have hl := hend hne
    apply h2
    have : input.getLast hne = (r :: rs).getLast (by simp) := by
      subst h3
      exact List.getLast_append_of_ne_nil (List.cons_ne_nil r rs)
    rw [← hl, this]
    exact List.getLast_mem _

theorem infix_joinLines (ls : List (List Nat)) (l : List Nat) (h : l ∈ ls) :
    List.IsInfix l (joinLines ls) := by
  induction ls with
  | nil => simp at h
  | cons x xs ih =>
    rw [joinLines_cons]
    rcases List.mem_cons.1 h with e | e
    · rw [e]; exact (List.prefix_append _ _).isInfix
    · exact (ih e).trans ((List.suffix_cons 10 _).trans (List.suffix_append _ _)).isInfix

/-- C9: for every input that is empty or ends with a newline, and in which
every newline-free stretch is shorter than the 1 MiB buffer, read through a
reader behaving like `bytes.Reader`, `getMeasurements` (r08 and r06), given
more fuel than the input has bytes, leaves its loop normally having yielded
lines that contain no newline and that, each followed by a newline and
concatenated in order, give back the input. -/
theorem C9_getMeasurements_lines (input : List Nat)
    (hend : ∀ h : input ≠ [], input.getLast h = 10)
    (hshort : ∀ seg : List Nat, List.IsInfix seg input → 10 ∉ seg → seg.length < bufSize) :
    ∃ lines : List (List Nat),
      (∀ fuel, input.length < fuel →
        r08.getMeasurements fuel input = ⟨lines, .done⟩ ∧
        r06.getMeasurements fuel input = ⟨lines, .done⟩) ∧
      joinLines lines = input ∧ ∀ l ∈ lines, 10 ∉ l := by
  obtain ⟨lines, hno, hin⟩ := exists_joinLines_of_newline_end input hend
  have hlen : ∀ l ∈ lines, l.length < bufSize := by
    intro l hl
    exact hshort l (by rw [hin]; exact infix_joinLines lines l hl) (hno l hl)
  refine ⟨lines, ?_, hin.symm, hno⟩
  intro fuel hf
  have h := scanLoop_joinLines bufSize fuel input [] lines hno hlen (by simp) (by simpa using hin) hf
  exact ⟨h, h⟩

/-- C9 at the two-line input `a;1.0\nb;2.0\n`. -/
theorem C9_getMeasurements_lines_witness :
    ∃ lines : List (List Nat),
      (∀ fuel, (ascii "a;1.0\nb;2.0\n").length < fuel →
        r08.getMeasurements fuel (ascii "a;1.0\nb;2.0\n") = ⟨lines, .done⟩ ∧
        r06.getMeasurements fuel (ascii "a;1.0\nb;2.0\n") = ⟨lines, .done⟩) ∧
      joinLines lines = ascii "a;1.0\nb;2.0\n" ∧ ∀ l ∈ lines, 10 ∉ l :=
  C9_getMeasurements_lines (ascii "a;1.0\nb;2.0\n") (fun _ => rfl)
    (fun _ hs _ => lt_of_le_of_lt hs.length_le (by decide))

/-- Once the reader is exhausted while `buf[:next]` holds a non-empty piece
without newline, every further round leaves the state unchanged. -/
theorem scanLoop_stuck (cap fuel : Nat) (p : List Nat) (hp0 : p ≠ []) (hp : 10 ∉ p)
    (hc : p.length ≠ cap) : r08.scanLoop cap fuel [] p = ⟨[], .running⟩ := by
  induction fuel with
  | zero => rfl
  | succ f ih =>
    have hl : p.length ≠ 0 := fun e => hp0 (List.length_eq_zero.1 e)
    unfold r08.scanLoop
    simp only [readerRead, List.append_nil, List.length_nil, true_and, if_neg hl,
      lastIndexByte_of_not_mem p 10 hp, if_neg hc]
    exact ih

/-- On a non-empty input whose last byte is not a newline the scanner loop
never leaves normally, whatever the fuel. -/
theorem scanLoop_never_done (cap : Nat) (hcap : 0 < cap) (fuel : Nat) :
    ∀ (u p : List Nat), 10 ∉ p → p.length < cap → (hne : p ++ u ≠ []) →
      (p ++ u).getLast hne ≠ 10 → (r08.scanLoop cap fuel u p).ending ≠ .done := by
  induction fuel with
  | zero => intro u p _ _ _ _; simp [r08.scanLoop]
  | succ f ih =>
    intro u p hp hpc hne hlast
    cases u with
    | nil =>
      have hp0 : p ≠ [] := by simpa using hne
      rw [scanLoop_stuck cap (f + 1) p hp0 hp (by omega)]
      simp
    | cons x u =>
      unfold r08.scanLoop
      simp only [readerRead]
      have hgl : (List.take (cap - p.length) (x :: u)).length
          = min (cap - p.length) (u.length + 1) := by simp
      have hsplit : List.take (cap - p.length) (x :: u) ++ List.drop (cap - p.length) (x :: u)
          = x :: u := List.take_append_drop _ _
      generalize List.take (cap - p.length) (x :: u) = got at hgl hsplit ⊢
      generalize List.drop (cap - p.length) (x :: u) = rest at hsplit ⊢
      have hg0 : ¬ (got.length = 0 ∧ p.length = 0) := by omega
      rw [if_neg hg0]
      have htext : (p ++ got) ++ rest = p ++ x :: u := by rw [List.append_assoc, hsplit]
      cases hli : lastIndexByte (p ++ got) 10 with
      | none =>
        simp only
        by_cases hfull : (p ++ got).length = cap
        · rw [if_pos hfull]; simp
        · rw [if_neg hfull]
          have hne2 : (p ++ got) ++ rest ≠ [] := by rw [htext]; exact hne
          refine ih rest (p ++ got) (lastIndexByte_none _ _ hli) ?_ hne2 ?_
          · have : (p ++ got).length ≤ cap := by simp; omega
            omega
          · have : ((p ++ got) ++ rest).getLast hne2 = (p ++ x :: u).getLast hne := by
              congr 1
            rw [this]; exact hlast
      | some last =>
        simp only [Bool.false_eq_true, if_false, ScanResult.prepend]
        obtain ⟨a, b, hab, ha, hb⟩ := lastIndexByte_some _ _ _ hli
        have e2 : List.drop (last + 1) (p ++ got) = b := by
          rw [hab, show a ++ 10 :: b = (a ++ [10]) ++ b by simp]
          exact List.drop_left' (by simp [ha])
        rw [e2]
        have htext2 : p ++ x :: u = (a ++ [10]) ++ (b ++ rest) := by
          rw [← htext, hab]; simp
        have hne2 : b ++ rest ≠ [] := by
          intro e
          apply hlast
          have : (p ++ x :: u).getLast hne = (a ++ [10]).getLast (by simp) := by
            congr 1
            rw [htext2, e]; simp
          rw [this]; simp
        refine ih rest b hb ?_ hne2 ?_
        · have h1 : (p ++ got).length ≤ cap := by simp; omega
          have h2 : (p ++ got).length = a.length + 1 + b.length := by rw [hab]; simp; omega
          omega
        · have : (p ++ x :: u).getLast hne = (b ++ rest).getLast hne2 := by
            have h3 : ((a ++ [10]) ++ (b ++ rest)).getLast (by simp) = (b ++ rest).getLast hne2 :=
              List.getLast_append_of_ne_nil hne2
            rw [← h3]
            congr 1
          rw [← this]; exact hlast

/-- On every non-empty input whose last byte is not a newline,
`getMeasurements` never completes its sequence. -/
theorem getMeasurements_never_done (input : List Nat) (hne : input ≠ [])
    (hlast : input.getLast hne ≠ 10) (fuel : Nat) :
    (r08.getMeasurements fuel input).ending ≠ .done :=
  scanLoop_never_done bufSize (by decide) fuel input [] (by simp) (by decide)
    (by simpa using hne) (by simpa using hlast)

/-- C10 (the code departs from the claim): on the input `a;1.0\nb;2.0`,
whose final line has no trailing newline, `getMeasurements` (r08, r06 and
r02) yields `a;1.0` and then reads forever at end of input: whatever the
fuel, the final line `b;2.0` is not yielded and the loop is still running. -/
theorem C10_final_line_never_yielded (fuel : Nat) :
    r08.getMeasurements (fuel + 1) (ascii "a;1.0\nb;2.0") = ⟨[ascii "a;1.0"], .running⟩ ∧
      r06.getMeasurements (fuel + 1) (ascii "a;1.0\nb;2.0") = ⟨[ascii "a;1.0"], .running⟩ ∧
      r02.getMeasurements (fuel + 1) (ascii "a;1.0\nb;2.0") = ⟨[ascii "a;1.0"], .running⟩ := by
  have step : r08.scanLoop bufSize (fuel + 1) (ascii "a;1.0\nb;2.0") []
      = (r08.scanLoop bufSize fuel [] (ascii "b;2.0")).prepend [ascii "a;1.0"] := rfl
  have h : r08.scanLoop bufSize (fuel + 1) (ascii "a;1.0\nb;2.0") []
      = ⟨[ascii "a;1.0"], .running⟩ := by
    rw [step, scanLoop_stuck bufSize fuel (ascii "b;2.0") (by decide) (by decide) (by decide)]
    rfl
  exact ⟨h, h, h⟩


/-! ## Chunk partitioner -/

theorem advanceToNewline_spec (data : List Nat) (fuel : Nat) :
    ∀ e, data.length - e ≤ fuel →
      e ≤ r08.advanceToNewline data fuel e ∧
      (r08.advanceToNewline data fuel e < data.length →
        data[r08.advanceToNewline data fuel e]? = some 10) ∧
      (e ≤ data.length → r08.advanceToNewline data fuel e ≤ data.length) := by
  induction fuel with
  | zero =>
    intro e hf
    simp only [r08.advanceToNewline]
    exact ⟨le_rfl, fun h => by omega, fun h => h⟩
  | succ f ih =>
    intro e hf
    simp only [r08.advanceToNewline]
    by_cases hc : e < data.length ∧ data[e]? ≠ some 10
    · rw [if_pos hc]
      obtain ⟨h1, h2, h3⟩ := ih (e + 1) (by omega)
      exact ⟨by omega, h2, fun _ => h3 (by omega)⟩
    · rw [if_neg hc]
      refine ⟨le_rfl, fun h => ?_, fun h => h⟩
      by_contra hne
      exact hc ⟨h, hne⟩

theorem mem_dropLast_cons {α : Type} (x c : α) (t : List α) (h : c ∈ (x :: t).dropLast) :
    t ≠ [] ∧ (c = x ∨ c ∈ t.dropLast) := by
  cases t with
  | nil => simp at h
  | cons y ys =>
    simp only [List.dropLast_cons₂, List.mem_cons] at h
    exact ⟨by simp, h⟩

theorem chunkLoop_aligned (data : List Nat) (cs n : Nat) :
    ∀ start, (start = 0 ∨ (0 < start ∧ data[start - 1]? = some 10)) →
      (∀ c ∈ r08.chunkLoop data cs n start, c.1 = 0 ∨ (0 < c.1 ∧ data[c.1 - 1]? = some 10)) ∧
      (∀ c ∈ (r08.chunkLoop data cs n start).dropLast, 0 < c.2 ∧ data[c.2 - 1]? = some 10) := by
  induction n with
  | zero => intro start _; simp [r08.chunkLoop]
  | succ n ih =>
    intro start hstart
    simp only [r08.chunkLoop]
    generalize hend : (if start + cs < data.length then
      r08.advanceToNewline data (data.length - (start + cs)) (start + cs) + 1
      else start + cs) = end1
    by_cases hlast : end1 ≥ data.length
    · rw [if_pos hlast]
      constructor
      · intro c hc
        simp only [List.mem_singleton] at hc
        rw [hc]; exact hstart
      · intro c hc; simp at hc
    · rw [if_neg hlast]
      have hend1 : 0 < end1 ∧ data[end1 - 1]? = some 10 := by
        by_cases h0 : start + cs < data.length
        · rw [if_pos h0] at hend
          obtain ⟨_, h2, _⟩ := advanceToNewline_spec data (data.length - (start + cs))
            (start + cs) le_rfl
          subst hend
          refine ⟨by omega, ?_⟩
          simp only [Nat.add_sub_cancel]
          exact h2 (by omega)
        · rw [if_neg h0] at hend
          omega
      obtain ⟨ih1, ih2⟩ := ih end1 (Or.inr hend1)
      constructor
      · intro c hc
        rcases List.mem_cons.1 hc with e | e
        · rw [e]; exact hstart
        · exact ih1 c e
      · intro c hc
        obtain ⟨_, e | e⟩ := mem_dropLast_cons _ _ _ hc
        · rw [e]; exact hend1
        · exact ih2 c e

/-- C5: no chunk computed by `Calculate` splits a line: every chunk starts at
offset 0 or right after a newline byte, and every chunk other than the last
one produced ends right after a newline byte. -/
theorem C5_chunks_line_aligned (data : List Nat) (numCores : Nat) :
    (∀ c ∈ r08.chunks data numCores, c.1 = 0 ∨ (0 < c.1 ∧ data[c.1 - 1]? = some 10)) ∧
      (∀ c ∈ (r08.chunks data numCores).dropLast, 0 < c.2 ∧ data[c.2 - 1]? = some 10) :=
  chunkLoop_aligned data (data.length / 100) numCores 0 (Or.inl rfl)

/-- C5 at a three-line input with three workers, where the chunks are the
three lines. -/
theorem C5_chunks_line_aligned_witness :
    r08.chunks (ascii "a;1.0\nb;2.0\nc;3.0\n") 3 = [(0, 6), (6, 12), (12, 18)] ∧
      (∀ c ∈ r08.chunks (ascii "a;1.0\nb;2.0\nc;3.0\n") 3,
        c.1 = 0 ∨ (0 < c.1 ∧ (ascii "a;1.0\nb;2.0\nc;3.0\n")[c.1 - 1]? = some 10)) ∧
      (∀ c ∈ (r08.chunks (ascii "a;1.0\nb;2.0\nc;3.0\n") 3).dropLast,
        0 < c.2 ∧ (ascii "a;1.0\nb;2.0\nc;3.0\n")[c.2 - 1]? = some 10) :=
  ⟨by decide, C5_chunks_line_aligned (ascii "a;1.0\nb;2.0\nc;3.0\n") 3⟩

/-- C4 (the code departs from the claim): with one worker and the 12-byte
input `a;1.0\nb;2.0\n` the partitioning loop produces the single chunk
`[0, 6)`: the final chunk does not end at the input size 12, and the bytes of
all chunks are `a;1.0\n` only, not the input. -/
theorem C4_chunks_do_not_cover :
    r08.chunks (ascii "a;1.0\nb;2.0\n") 1 = [(0, 6)] ∧
      (ascii "a;1.0\nb;2.0\n").length = 12 ∧
      (r08.chunks (ascii "a;1.0\nb;2.0\n") 1).map (r08.sliceChunk (ascii "a;1.0\nb;2.0\n"))
        = [some (ascii "a;1.0\n")] := by
  decide


/-! ## Aggregation table -/

namespace r08

theorem numBuckets_eq : numBuckets = 131072 := by decide

theorem initialBucketSize_eq : initialBucketSize = 65536 := by decide

theorem hashIndexOf_lt (k : List Nat) : hashIndexOf k < numBuckets := by
  have h : hashIndexOf k ≤ numBuckets - 1 := Nat.and_le_right
  rw [numBuckets_eq] at h ⊢
  omega

theorem nextIndex_lt (i : Nat) : nextIndex i < numBuckets := by
  unfold nextIndex
  rw [numBuckets_eq]
  split_ifs <;> omega

theorem getLoop_eq_probe (ht : hashTable) (k : List Nat) (fuel : Nat) :
    ∀ idx, getLoop ht k fuel idx =
      match probe ht.items k fuel idx with
      | none => .running
      | some j => .ok ((ht.items j).map (fun it => it.stat)) := by
  induction fuel with
  | zero => intro idx; rfl
  | succ f ih =>
    intro idx
    simp only [getLoop, probe]
    cases hi : ht.items idx with
    | none => simp [hi]
    | some it =>
      simp only
      by_cases hk : it.key = k
      · simp [hk, hi]
      · simp only [if_neg hk]; exact ih _

theorem insertLoop_eq_probe (ht : hashTable) (k : List Nat) (v : Int) (fuel : Nat) :
    ∀ idx, insertLoop ht k v fuel idx =
      match probe ht.items k fuel idx with
      | none => .running
      | some j => insertAt ht k v j := by
  induction fuel with
  | zero => intro idx; rfl
  | succ f ih =>
    intro idx
    simp only [insertLoop, probe]
    cases hi : ht.items idx with
    | none => simp [insertAt, hi]
    | some it =>
      simp only
      by_cases hk : it.key = k
      · simp [hk, hi, insertAt]
      · simp only [if_neg hk]; exact ih _

theorem probe_stop (items : Nat → Option item) (k : List Nat) (fuel : Nat) :
    ∀ idx j, probe items k fuel idx = some j →
      items j = none ∨ ∃ it, items j = some it ∧ it.key = k := by
  induction fuel with
  | zero => intro idx j h; simp [probe] at h
  | succ f ih =>
    intro idx j h
    simp only [probe] at h
    cases hi : items idx with
    | none =>
      rw [hi] at h
      simp only [Option.some.injEq] at h
      subst h; exact Or.inl hi
    | some it =>
      rw [hi] at h
      simp only at h
      by_cases hk : it.key = k
      · rw [if_pos hk] at h
        simp only [Option.some.injEq] at h
        subst h; exact Or.inr ⟨it, hi, hk⟩
      · rw [if_neg hk] at h
        exact ih _ j h

theorem probe_lt (items : Nat → Option item) (k : List Nat) (fuel : Nat) :
    ∀ idx j, idx < numBuckets → probe items k fuel idx = some j → j < numBuckets := by
  induction fuel with
  | zero => intro idx j _ h; simp [probe] at h
  | succ f ih =>
    intro idx j hidx h
    simp only [probe] at h
    cases hi : items idx with
    | none =>
      rw [hi] at h
      simp only [Option.some.injEq] at h
      omega
    | some it =>
      rw [hi] at h
      simp only at h
      by_cases hk : it.key = k
      · rw [if_pos hk] at h
        simp only [Option.some.injEq] at h
        omega
      · rw [if_neg hk] at h
        exact ih _ j (nextIndex_lt idx) h

theorem probe_mono (items : Nat → Option item) (k : List Nat) (fuel : Nat) :
    ∀ idx j, probe items k fuel idx = some j →
      ∀ fuel1, fuel ≤ fuel1 → probe items k fuel1 idx = some j := by
  induction fuel with
  | zero => intro idx j h; simp [probe] at h
  | succ f ih =>
    intro idx j h fuel1 hle
    obtain ⟨g, rfl⟩ : ∃ g, fuel1 = g + 1 := ⟨fuel1 - 1, by omega⟩
    simp only [probe] at h ⊢
    cases hi : items idx with
    | none => rw [hi] at h; simpa using h
    | some it =>
      rw [hi] at h
      simp only at h ⊢
      by_cases hk : it.key = k
      · rw [if_pos hk] at h ⊢; exact h
      · rw [if_neg hk] at h ⊢
        exact ih _ j h g (by omega)

/-- With an empty slot in the table, probing stops within `numBuckets`
probes, wherever it starts. -/
theorem probe_total (items : Nat → Option item) (k : List Nat) (e : Nat)
    (he : e < numBuckets) (hempty : items e = none) (d : Nat) :
    ∀ idx fuel, idx < numBuckets → (e + numBuckets - idx) % numBuckets = d → d < fuel →
      ∃ j, probe items k fuel idx = some j := by
  induction d with
  | zero =>
    intro idx fuel hidx hd hf
    obtain ⟨g, rfl⟩ : ∃ g, fuel = g + 1 := ⟨fuel - 1, by omega⟩
    have : idx = e := by
      rw [numBuckets_eq] at *
      omega
    subst this
    exact ⟨idx, by simp [probe, hempty]⟩
  | succ d ih =>
    intro idx fuel hidx hd hf
    obtain ⟨g, rfl⟩ : ∃ g, fuel = g + 1 := ⟨fuel - 1, by omega⟩
    simp only [probe]
    cases hi : items idx with
    | none => exact ⟨idx, rfl⟩
    | some it =>
      simp only
      by_cases hk : it.key = k
      · exact ⟨idx, by rw [if_pos hk]⟩
      · rw [if_neg hk]
        refine ih (nextIndex idx) g (nextIndex_lt idx) ?_ (by omega)
        unfold nextIndex
        rw [numBuckets_eq] at *
        split_ifs <;> omega

theorem probe_update_other (items : Nat → Option item) (k : List Nat) (j i : Nat)
    (y : Option item) (hj : items j = none) (hij : i ≠ j) (fuel : Nat) :
    ∀ idx, probe items k fuel idx = some i →
      probe (fun x => if x = j then y else items x) k fuel idx = some i := by
  induction fuel with
  | zero => intro idx h; simp [probe] at h
  | succ f ih =>
    intro idx h
    simp only [probe] at h ⊢
    by_cases hx : idx = j
    · subst hx
      rw [hj] at h
      simp only [Option.some.injEq] at h
      exact absurd h.symm hij
    · simp only [if_neg hx]
      cases hi : items idx with
      | none => rw [hi] at h; exact h
      | some it =>
        rw [hi] at h
        simp only at h ⊢
        by_cases hk : it.key = k
        · rw [if_pos hk] at h ⊢; exact h
        · rw [if_neg hk] at h ⊢; exact ih _ h

theorem probe_update_self (items : Nat → Option item) (k : List Nat) (j : Nat) (s : stats)
    (fuel : Nat) :
    ∀ idx, probe items k fuel idx = some j →
      probe (fun x => if x = j then some ⟨k, s⟩ else items x) k fuel idx = some j := by
  induction fuel with
  | zero => intro idx h; simp [probe] at h
  | succ f ih =>
    intro idx h
    simp only [probe] at h ⊢
    by_cases hx : idx = j
    · subst hx
      simp
    · simp only [if_neg hx]
      cases hi : items idx with
      | none => rw [hi] at h; exact h
      | some it =>
        rw [hi] at h
        simp only at h ⊢
        by_cases hk : it.key = k
        · rw [if_pos hk] at h ⊢; exact h
        · rw [if_neg hk] at h ⊢; exact ih _ h

theorem probe_congr_keys (items items1 : Nat → Option item) (k : List Nat)
    (hkeys : ∀ i, (items1 i).map (fun it => it.key) = (items i).map (fun it => it.key))
    (fuel : Nat) : ∀ idx, probe items1 k fuel idx = probe items k fuel idx := by
  induction fuel with
  | zero => intro idx; rfl
  | succ f ih =>
    intro idx
    simp only [probe]
    have h := hkeys idx
    cases hi : items idx with
    | none =>
      rw [hi] at h
      cases hi1 : items1 idx with
      | none => rfl
      | some it1 => rw [hi1] at h; simp at h
    | some it =>
      rw [hi] at h
      cases hi1 : items1 idx with
      | none => rw [hi1] at h; simp at h
      | some it1 =>
        rw [hi1] at h
        simp only [Option.map_some', Option.some.injEq] at h
        simp only [h]
        by_cases hk : it.key = k
        · simp [hk]
        · simp only [if_neg hk]; exact ih _

theorem WF.exists_empty {ht : hashTable} (h : WF ht) : ∃ e, e < numBuckets ∧ ht.items e = none := by
  by_contra hne
  push_neg at hne
  have hall : occupied ht = Finset.range numBuckets := by
    unfold occupied
    apply Finset.filter_true_of_mem
    intro i hi
    have := hne i (Finset.mem_range.1 hi)
    cases hx : ht.items i with
    | none => exact absurd hx this
    | some it => rfl
  have hc := h.card
  rw [hall, Finset.card_range] at hc
  have hb := h.bound
  rw [← hc, numBuckets_eq, initialBucketSize_eq] at hb
  omega

theorem WF.probe_some {ht : hashTable} (h : WF ht) (k : List Nat) :
    ∃ j, probe ht.items k numBuckets (hashIndexOf k) = some j := by
  obtain ⟨e, he, hempty⟩ := h.exists_empty
  refine probe_total ht.items k e he hempty _ (hashIndexOf k) numBuckets (hashIndexOf_lt k) rfl ?_
  exact Nat.mod_lt _ (by rw [numBuckets_eq]; omega)

theorem WF.probe_fuel {ht : hashTable} (h : WF ht) (k : List Nat) (fuel j : Nat)
    (hp : probe ht.items k fuel (hashIndexOf k) = some j) :
    probe ht.items k numBuckets (hashIndexOf k) = some j := by
  obtain ⟨j1, hj1⟩ := h.probe_some k
  rcases Nat.le_total fuel numBuckets with hle | hle
  · exact probe_mono _ _ _ _ _ hp _ hle
  · have := probe_mono _ _ _ _ _ hj1 _ hle
    rw [hp] at this
    rw [hj1, ← this]

theorem WF_new : WF newHashTable := by
  refine ⟨?_, ?_, ?_, ?_⟩
  · intro i it h; simp [newHashTable] at h
  · intro i it h; simp [newHashTable] at h
  · simp [occupied, newHashTable]
  · simp [newHashTable]

theorem WF_insertAt (ht ht1 : hashTable) (k : List Nat) (v : Int) (j : Nat) (h : WF ht)
    (hp : probe ht.items k numBuckets (hashIndexOf k) = some j)
    (hins : insertAt ht k v j = .ok ht1) : WF ht1 := by
  have hjlt : j < numBuckets := probe_lt _ _ _ _ _ (hashIndexOf_lt k) hp
  unfold insertAt at hins
  cases hj : ht.items j with
  | none =>
    rw [hj] at hins
    simp only at hins
    by_cases hsz : ht.size + 1 > initialBucketSize
    · rw [if_pos hsz] at hins; cases hins
    · rw [if_neg hsz] at hins
      simp only [Run.ok.injEq] at hins
      subst hins
      refine ⟨?_, ?_, ?_, ?_⟩
      · intro i it hi
        simp only at hi
        by_cases hij : i = j
        · rw [hij]; exact hjlt
        · rw [if_neg hij] at hi; exact h.inRange i it hi
      · intro i it hi
        simp only at hi ⊢
        by_cases hij : i = j
        · rw [if_pos hij] at hi
          simp only [Option.some.injEq] at hi
          subst hi
          rw [hij]
          exact probe_update_self _ _ _ _ _ _ hp
        · rw [if_neg hij] at hi
          exact probe_update_other _ _ _ _ _ hj hij _ _ (h.found i it hi)
      · have hocc : occupied ⟨fun i => if i = j then some ⟨k, ⟨v, v, 1, v⟩⟩ else ht.items i,
            ht.size + 1⟩ = insert j (occupied ht) := by
          ext i
          simp only [occupied, Finset.mem_filter, Finset.mem_range, Finset.mem_insert]
          by_cases hij : i = j
          · subst hij; simp [hjlt]
          · simp [hij]
        have hnot : j ∉ occupied ht := by simp [occupied, hj]
        rw [hocc, Finset.card_insert_of_not_mem hnot, h.card]
      · simp only; omega
  | some it0 =>
    rw [hj] at hins
    simp only [Run.ok.injEq] at hins
    subst hins
    have hkeys : ∀ i, (if i = j then
        some (⟨it0.key, ⟨min it0.stat.min v, max it0.stat.max v, wrap32 (it0.stat.count + 1),
          wrap64 (it0.stat.sum + v)⟩⟩ : item)
        else ht.items i).map (fun it => it.key) = (ht.items i).map (fun it => it.key) := by
      intro i
      by_cases hij : i = j
      · subst hij; simp [hj]
      · simp [hij]
    refine ⟨?_, ?_, ?_, ?_⟩
    · intro i it hi
      simp only at hi
      by_cases hij : i = j
      · rw [hij]; exact hjlt
      · rw [if_neg hij] at hi; exact h.inRange i it hi
    · intro i it hi
      simp only at hi ⊢
      rw [probe_congr_keys ht.items _ it.key hkeys]
      have hk := hkeys i
      rw [hi] at hk
      cases hx : ht.items i with
      | none => rw [hx] at hk; simp at hk
      | some it2 =>
        rw [hx] at hk
        simp only [Option.map_some', Option.some.injEq] at hk
        rw [hk]
        exact h.found i it2 hx
    · have hocc : occupied ⟨fun i => if i = j then
          some (⟨it0.key, ⟨min it0.stat.min v, max it0.stat.max v, wrap32 (it0.stat.count + 1),
            wrap64 (it0.stat.sum + v)⟩⟩ : item)
          else ht.items i, ht.size⟩ = occupied ht := by
        ext i
        simp only [occupied, Finset.mem_filter, Finset.mem_range]
        by_cases hij : i = j
        · subst hij; simp [hj]
        · simp [hij]
      rw [hocc]; exact h.card
    · exact h.bound

theorem WF_insertOrUpdate (ht ht1 : hashTable) (k : List Nat) (v : Int) (fuel : Nat)
    (h : WF ht) (hins : insertOrUpdate ht k v fuel = .ok ht1) : WF ht1 := by
  unfold insertOrUpdate at hins
  rw [insertLoop_eq_probe] at hins
  cases hp : probe ht.items k fuel (hashIndexOf k) with
  | none => rw [hp] at hins; cases hins
  | some j =>
    rw [hp] at hins
    exact WF_insertAt ht ht1 k v j h (h.probe_fuel k fuel j hp) hins

theorem WF_of_reachable (ht : hashTable) (h : Reachable ht) : WF ht := by
  induction h with
  | new => exact WF_new
  | insert ht ht1 k v fuel _ hins ih => exact WF_insertOrUpdate ht ht1 k v fuel ih hins

theorem valuesOf_append_single (calls : List (List Nat × Int)) (k k1 : List Nat) (v : Int) :
    valuesOf (calls ++ [(k, v)]) k1 =
      if k = k1 then valuesOf calls k1 ++ [v] else valuesOf calls k1 := by
  unfold valuesOf
  by_cases h : k = k1
  · simp [List.filter_append, h, List.filter_cons]
  · simp [List.filter_append, h, List.filter_cons]

theorem valuesOf_eq_nil (calls : List (List Nat × Int)) (k : List Nat)
    (h : k ∉ calls.map (fun c => c.1)) : valuesOf calls k = [] := by
  unfold valuesOf
  rw [List.map_eq_nil_iff, List.filter_eq_nil_iff]
  intro c hc hck
  apply h
  simp only [decide_eq_true_eq] at hck
  rw [← hck]
  exact List.mem_map_of_mem _ hc

theorem foldStats_append_single (vs : List Int) (v : Int) :
    foldStats (vs ++ [v]) = foldStep (foldStats vs) v := by
  simp [foldStats, List.foldl_append]

theorem distinctKeys_append_single (calls : List (List Nat × Int)) (k : List Nat) (v : Int) :
    distinctKeys (calls ++ [(k, v)]) =
      if k ∈ calls.map (fun c => c.1) then distinctKeys calls else distinctKeys calls + 1 := by
  unfold distinctKeys
  have h : (List.map (fun c => c.1) (calls ++ [(k, v)])).toFinset
      = insert k (List.map (fun c => c.1) calls).toFinset := by
    ext x
    simp only [List.map_append, List.map_cons, List.map_nil, List.toFinset_append,
      List.toFinset_cons, List.toFinset_nil, Finset.mem_union, Finset.mem_insert,
      List.mem_toFinset, Finset.not_mem_empty, or_false]
    tauto
  rw [h]
  by_cases hk : k ∈ calls.map (fun c => c.1)
  · rw [if_pos hk, Finset.insert_eq_of_mem (List.mem_toFinset.2 hk)]
  · rw [if_neg hk, Finset.card_insert_of_not_mem (fun hh => hk (List.mem_toFinset.1 hh))]

theorem distinctKeys_mono (prev rest : List (List Nat × Int)) :
    distinctKeys prev ≤ distinctKeys (prev ++ rest) := by
  unfold distinctKeys
  apply Finset.card_le_card
  intro x hx
  simp only [List.map_append, List.toFinset_append, Finset.mem_union]
  exact Or.inl hx

theorem insertOrUpdate_eq_insertAt (ht : hashTable) (k : List Nat) (v : Int) (fuel j : Nat)
    (hfuel : numBuckets ≤ fuel)
    (hp : probe ht.items k numBuckets (hashIndexOf k) = some j) :
    insertOrUpdate ht k v fuel = insertAt ht k v j := by
  unfold insertOrUpdate
  rw [insertLoop_eq_probe, probe_mono _ _ _ _ _ hp fuel hfuel]

theorem get_eq_of_probe (ht : hashTable) (k : List Nat) (fuel j : Nat)
    (hfuel : numBuckets ≤ fuel)
    (hp : probe ht.items k numBuckets (hashIndexOf k) = some j) :
    get ht k fuel = .ok ((ht.items j).map (fun it => it.stat)) := by
  unfold get
  rw [getLoop_eq_probe, probe_mono _ _ _ _ _ hp fuel hfuel]

/-- In a well-formed table a key is stored in at most one slot. -/
theorem WF.unique {ht : hashTable} (h : WF ht) (i j : Nat) (it1 it2 : item)
    (h1 : ht.items i = some it1) (h2 : ht.items j = some it2) (hk : it1.key = it2.key) :
    i = j := by
  have e1 := h.found i it1 h1
  have e2 := h.found j it2 h2
  rw [hk, e2] at e1
  exact (Option.some.inj e1).symm

/-- One `insertOrUpdate` call on a well-formed table that agrees with the
calls made so far: it is fatal exactly when the key is new and the table
already holds `initialBucketSize` keys, and otherwise returns a table that
agrees with the calls including this one. -/
theorem insert_step (ht : hashTable) (prev : List (List Nat × Int)) (k : List Nat) (v : Int)
    (fuel : Nat) (hfuel : numBuckets ≤ fuel) (hwf : WF ht) (hag : Agrees ht prev) :
    (k ∉ prev.map (fun c => c.1) ∧ initialBucketSize < distinctKeys prev + 1 ∧
        insertOrUpdate ht k v fuel = .fatal "too many items in the hash table") ∨
      (¬ (k ∉ prev.map (fun c => c.1) ∧ initialBucketSize < distinctKeys prev + 1) ∧
        ∃ ht1, insertOrUpdate ht k v fuel = .ok ht1 ∧ Agrees ht1 (prev ++ [(k, v)])) := by
  obtain ⟨j, hp⟩ := hwf.probe_some k
  rw [insertOrUpdate_eq_insertAt ht k v fuel j hfuel hp]
  unfold insertAt
  cases hj : ht.items j with
  | none =>
    have hknot : k ∉ prev.map (fun c => c.1) := by
      intro hk
      obtain ⟨i, it, hi, hik⟩ := (hag.present k).1 hk
      have := hwf.found i it hi
      rw [hik, hp] at this
      rw [← Option.some.inj this, hj] at hi
      cases hi
    simp only
    by_cases hsz : ht.size + 1 > initialBucketSize
    · left
      rw [if_pos hsz]
      refine ⟨hknot, ?_, rfl⟩
      rw [← hag.size]; exact hsz
    · right
      rw [if_neg hsz]
      refine ⟨fun hh => hsz (by rw [hag.size]; exact hh.2), _, rfl, ?_, ?_, ?_⟩
      · intro i it hi
        simp only at hi
        rw [valuesOf_append_single]
        by_cases hij : i = j
        · rw [if_pos hij] at hi
          simp only [Option.some.injEq] at hi
          subst hi
          simp only [if_true]
          rw [foldStats_append_single, valuesOf_eq_nil prev k hknot]
          rfl
        · rw [if_neg hij] at hi
          have hne : k ≠ it.key := by
            intro e
            apply hknot
            rw [e]
            exact (hag.present it.key).2 ⟨i, it, hi, rfl⟩
          rw [if_neg hne]
          exact hag.stat i it hi
      · intro k1
        simp only [List.map_append, List.map_cons, List.map_nil, List.mem_append,
          List.mem_singleton]
        constructor
        · rintro (h1 | h1)
          · obtain ⟨i, it, hi, hik⟩ := (hag.present k1).1 h1
            have hij : i ≠ j := by
              intro e; rw [e, hj] at hi; cases hi
            exact ⟨i, it, by simp only [if_neg hij]; exact hi, hik⟩
          · exact ⟨j, ⟨k, ⟨v, v, 1, v⟩⟩, by simp, h1.symm⟩
        · rintro ⟨i, it, hi, hik⟩
          by_cases hij : i = j
          · rw [if_pos hij] at hi
            simp only [Option.some.injEq] at hi
            subst hi
            right; exact hik.symm
          · rw [if_neg hij] at hi
            left; exact (hag.present k1).2 ⟨i, it, hi, hik⟩
      · simp only
        rw [distinctKeys_append_single, if_neg hknot, hag.size]
  | some it0 =>
    have hk0 : it0.key = k := by
      rcases probe_stop _ _ _ _ _ hp with h0 | ⟨it, h0, h1⟩
      · rw [hj] at h0; cases h0
      · rw [hj] at h0
        simp only [Option.some.injEq] at h0
        rw [h0]; exact h1
    have hkin : k ∈ prev.map (fun c => c.1) := (hag.present k).2 ⟨j, it0, hj, hk0⟩
    right
    refine ⟨fun hh => hh.1 hkin, _, rfl, ?_, ?_, ?_⟩
    · intro i it hi
      simp only at hi
      rw [valuesOf_append_single]
      by_cases hij : i = j
      · rw [if_pos hij] at hi
        simp only [Option.some.injEq] at hi
        subst hi
        simp only
        rw [if_pos hk0.symm, foldStats_append_single]
        have := hag.stat j it0 hj
        rw [this]
        rfl
      · rw [if_neg hij] at hi
        have hne : k ≠ it.key := by
          intro e
          exact hij (hwf.unique i j it it0 hi hj (by rw [hk0, e]))
        rw [if_neg hne]
        exact hag.stat i it hi
    · intro k1
      simp only [List.map_append, List.map_cons, List.map_nil, List.mem_append,
        List.mem_singleton]
      constructor
      · rintro (h1 | h1)
        · obtain ⟨i, it, hi, hik⟩ := (hag.present k1).1 h1
          by_cases hij : i = j
          · subst hij
            rw [hj] at hi
            simp only [Option.some.injEq] at hi
            subst hi
            exact ⟨i, ⟨it0.key, ⟨min it0.stat.min v, max it0.stat.max v,
              wrap32 (it0.stat.count + 1), wrap64 (it0.stat.sum + v)⟩⟩, by simp, hik⟩
          · exact ⟨i, it, by simp only [if_neg hij]; exact hi, hik⟩
        · exact ⟨j, ⟨it0.key, ⟨min it0.stat.min v, max it0.stat.max v,
            wrap32 (it0.stat.count + 1), wrap64 (it0.stat.sum + v)⟩⟩, by simp,
            by rw [hk0, h1]⟩
      · rintro ⟨i, it, hi, hik⟩
        by_cases hij : i = j
        · rw [if_pos hij] at hi
          simp only [Option.some.injEq] at hi
          subst hi
          simp only at hik
          left; rw [← hik, hk0]; exact hkin
        · rw [if_neg hij] at hi
          left; exact (hag.present k1).2 ⟨i, it, hi, hik⟩
    · simp only
      rw [distinctKeys_append_single, if_pos hkin, hag.size]

theorem Agrees_new : Agrees newHashTable [] := by
  refine ⟨?_, ?_, ?_⟩
  · intro i it h; simp [newHashTable] at h
  · intro k; simp [newHashTable]
  · simp [newHashTable, distinctKeys]

theorem insertAll_spec (fuel : Nat) (hfuel : numBuckets ≤ fuel) :
    ∀ (rest prev : List (List Nat × Int)) (ht : hashTable), WF ht → Agrees ht prev →
      distinctKeys (prev ++ rest) ≤ initialBucketSize →
      ∃ ht1, insertAll fuel rest ht = .ok ht1 ∧ WF ht1 ∧ Agrees ht1 (prev ++ rest) := by
  intro rest
  induction rest with
  | nil =>
    intro prev ht hwf hag _
    exact ⟨ht, rfl, hwf, by simpa using hag⟩
  | cons c rest ih =>
    intro prev ht hwf hag hd
    obtain ⟨k, v⟩ := c
    have hd1 : distinctKeys (prev ++ [(k, v)]) ≤ initialBucketSize := by
      have := distinctKeys_mono (prev ++ [(k, v)]) rest
      simp only [List.append_assoc, List.singleton_append] at this
      omega
    rcases insert_step ht prev k v fuel hfuel hwf hag with ⟨h1, h2, _⟩ | ⟨_, ht1, h1, h2⟩
    · exfalso
      rw [distinctKeys_append_single, if_neg h1] at hd1
      omega
    · have hwf1 := WF_insertOrUpdate ht ht1 k v fuel hwf h1
      obtain ⟨ht2, e1, e2, e3⟩ := ih (prev ++ [(k, v)]) ht1 hwf1 h2 (by simpa using hd)
      refine ⟨ht2, ?_, e2, by simpa using e3⟩
      simp only [insertAll, h1]
      exact e1

theorem get_spec (ht : hashTable) (calls : List (List Nat × Int)) (k : List Nat) (fuel : Nat)
    (hfuel : numBuckets ≤ fuel) (hwf : WF ht) (hag : Agrees ht calls) :
    get ht k fuel = .ok (foldStats (valuesOf calls k)) := by
  obtain ⟨j, hp⟩ := hwf.probe_some k
  rw [get_eq_of_probe ht k fuel j hfuel hp]
  cases hj : ht.items j with
  | none =>
    have hknot : k ∉ calls.map (fun c => c.1) := by
      intro hk
      obtain ⟨i, it, hi, hik⟩ := (hag.present k).1 hk
      have := hwf.found i it hi
      rw [hik, hp] at this
      rw [← Option.some.inj this, hj] at hi
      cases hi
    rw [valuesOf_eq_nil calls k hknot]
    rfl
  | some it0 =>
    have hk0 : it0.key = k := by
      rcases probe_stop _ _ _ _ _ hp with h0 | ⟨it, h0, h1⟩
      · rw [hj] at h0; cases h0
      · rw [hj] at h0
        simp only [Option.some.injEq] at h0
        rw [h0]; exact h1
    have := hag.stat j it0 hj
    rw [hk0] at this
    rw [this]
    rfl

theorem wrap32_id (x : Int) (h1 : -2147483648 ≤ x) (h2 : x < 2147483648) : wrap32 x = x := by
  unfold wrap32; omega

theorem wrap64_id (x : Int) (h1 : -9223372036854775808 ≤ x) (h2 : x < 9223372036854775808) :
    wrap64 x = x := by
  unfold wrap64; omega

theorem foldl_foldStep_some (vs : List Int) :
    ∀ s : stats, 1 ≤ s.count → s.count + vs.length < 2147483648 →
      -(s.count * 2147483648) ≤ s.sum → s.sum ≤ s.count * 2147483648 →
      (∀ v ∈ vs, -2147483648 ≤ v ∧ v < 2147483648) →
      ∃ r, vs.foldl foldStep (some s) = some r ∧ r.count = s.count + vs.length ∧
        r.sum = s.sum + vs.sum ∧
        r.min ≤ s.min ∧ (∀ v ∈ vs, r.min ≤ v) ∧ (r.min = s.min ∨ r.min ∈ vs) ∧
        s.max ≤ r.max ∧ (∀ v ∈ vs, v ≤ r.max) ∧ (r.max = s.max ∨ r.max ∈ vs) := by
  induction vs with
  | nil =>
    intro s _ _ _ _ _
    exact ⟨s, rfl, by simp, by simp, le_rfl, by simp, Or.inl rfl, le_rfl, by simp, Or.inl rfl⟩
  | cons v vs ih =>
    intro s hc hcb hs1 hs2 hv
    obtain ⟨hv1, hv2⟩ := hv v (by simp)
    have hlen : ((v :: vs).length : Int) = (vs.length : Int) + 1 := by simp
    rw [hlen] at hcb
    have e32 : wrap32 (s.count + 1) = s.count + 1 := wrap32_id _ (by omega) (by omega)
    have e64 : wrap64 (s.sum + v) = s.sum + v := wrap64_id _ (by omega) (by omega)
    obtain ⟨r, hr, h1, h2, h3, h4, h5, h6, h7, h8⟩ :=
      ih ⟨min s.min v, max s.max v, s.count + 1, s.sum + v⟩ (by simp only; omega)
        (by simp only; omega) (by simp only; omega) (by simp only; omega)
        (fun x hx => hv x (by simp [hx]))
    simp only at h1 h2 h3 h5 h6 h8
    refine ⟨r, ?_, ?_, ?_, ?_, ?_, ?_, ?_, ?_, ?_⟩
    · simp only [List.foldl_cons, foldStep, e32, e64]
      exact hr
    · rw [h1, hlen]; ring
    · rw [h2, List.sum_cons]; ring
    · exact le_trans h3 (min_le_left _ _)
    · intro x hx
      rcases List.mem_cons.1 hx with e | e
      · rw [e]; exact le_trans h3 (min_le_right _ _)
      · exact h4 x e
    · rcases h5 with e | e
      · rcases min_choice s.min v with e2 | e2
        · left; rw [e, e2]
        · right; rw [e, e2]; simp
      · right; simp [e]
    · exact le_trans (le_max_left _ _) h6
    · intro x hx
      rcases List.mem_cons.1 hx with e | e
      · rw [e]; exact le_trans (le_max_right _ _) h6
      · exact h7 x e
    · rcases h8 with e | e
      · rcases max_choice s.max v with e2 | e2
        · left; rw [e, e2]
        · right; rw [e, e2]; simp
      · right; simp [e]

/-- Below the `int32` and `int64` limits the folded record holds the exact
minimum, maximum, sum and number of the values. -/
theorem foldStats_exact (vs : List Int) (hne : vs ≠ []) (hlen : vs.length < 2147483648)
    (hv : ∀ v ∈ vs, -2147483648 ≤ v ∧ v < 2147483648) :
    ∃ s, foldStats vs = some s ∧ s.min ∈ vs ∧ (∀ v ∈ vs, s.min ≤ v) ∧ s.max ∈ vs ∧
      (∀ v ∈ vs, v ≤ s.max) ∧ s.sum = vs.sum ∧ s.count = vs.length := by
  cases vs with
  | nil => exact absurd rfl hne
  | cons v vs =>
    obtain ⟨hv1, hv2⟩ := hv v (by simp)
    have hlen2 : ((v :: vs).length : Int) = (vs.length : Int) + 1 := by simp
    have hlen3 : (vs.length : Int) + 1 < 2147483648 := by
      have : (v :: vs).length = vs.length + 1 := by simp
      omega
    obtain ⟨r, hr, h1, h2, h3, h4, h5, h6, h7, h8⟩ :=
      foldl_foldStep_some vs ⟨v, v, 1, v⟩ (by simp) (by simp only; omega) (by simp only; omega)
        (by simp only; omega) (fun x hx => hv x (by simp [hx]))
    simp only at h1 h2 h3 h5 h6 h8
    refine ⟨r, ?_, ?_, ?_, ?_, ?_, ?_, ?_⟩
    · simp only [foldStats, List.foldl_cons, foldStep]; exact hr
    · rcases h5 with e | e
      · simp [e]
      · simp [e]
    · intro x hx
      rcases List.mem_cons.1 hx with e | e
      · rw [e]; exact h3
      · exact h4 x e
    · rcases h8 with e | e
      · simp [e]
      · simp [e]
    · intro x hx
      rcases List.mem_cons.1 hx with e | e
      · rw [e]; exact h6
      · exact h7 x e
    · rw [h2, List.sum_cons]
    · rw [h1, hlen2]; ring

theorem probe_path (items : Nat → Option item) (k : List Nat) (fuel : Nat) :
    ∀ idx j, idx < numBuckets → probe items k fuel idx = some j →
      ∀ d, d < (j + numBuckets - idx) % numBuckets →
        (items ((idx + d) % numBuckets)).isSome = true := by
  induction fuel with
  | zero => intro idx j _ h; simp [probe] at h
  | succ f ih =>
    intro idx j hidx h d hd
    have hjlt : j < numBuckets := probe_lt _ _ _ _ _ hidx h
    have hstop := probe_stop _ _ _ _ _ h
    simp only [probe] at h
    cases hi : items idx with
    | none =>
      rw [hi] at h
      simp only [Option.some.injEq] at h
      subst h
      rw [numBuckets_eq] at hd hidx
      omega
    | some it =>
      rw [hi] at h
      simp only at h
      by_cases hk : it.key = k
      · rw [if_pos hk] at h
        simp only [Option.some.injEq] at h
        subst h
        rw [numBuckets_eq] at hd hidx
        omega
      · rw [if_neg hk] at h
        have hne : j ≠ idx := by
          intro e
          subst e
          rcases hstop with h0 | ⟨it1, h0, h1⟩
          · rw [hi] at h0; cases h0
          · rw [hi] at h0
            simp only [Option.some.injEq] at h0
            subst h0
            exact hk h1
        cases d with
        | zero =>
          have : (idx + 0) % numBuckets = idx := Nat.mod_eq_of_lt hidx
          rw [this, hi]; rfl
        | succ d =>
          have h2 := ih (nextIndex idx) j (nextIndex_lt idx) h d (by
            unfold nextIndex
            rw [numBuckets_eq] at *
            split_ifs <;> omega)
          have e : (nextIndex idx + d) % numBuckets = (idx + (d + 1)) % numBuckets := by
            unfold nextIndex
            rw [numBuckets_eq] at *
            split_ifs <;> omega
          rw [← e]; exact h2

theorem reachable_of_insertAll (fuel : Nat) :
    ∀ (calls : List (List Nat × Int)) (ht ht1 : hashTable), Reachable ht →
      insertAll fuel calls ht = .ok ht1 → Reachable ht1 := by
  intro calls
  induction calls with
  | nil =>
    intro ht ht1 h e
    simp only [insertAll, Run.ok.injEq] at e
    rw [← e]; exact h
  | cons c rest ih =>
    intro ht ht1 h e
    obtain ⟨k, v⟩ := c
    simp only [insertAll] at e
    cases hi : insertOrUpdate ht k v fuel with
    | ok ht2 =>
      rw [hi] at e
      exact ih ht2 ht1 (Reachable.insert ht ht2 k v fuel h hi) e
    | fatal m => rw [hi] at e; cases e
    | running => rw [hi] at e; cases e

theorem exampleTable_eq :
    insertAll numBuckets exampleCalls newHashTable = .ok exampleTable := rfl

theorem exampleTable_reachable : Reachable exampleTable :=
  reachable_of_insertAll numBuckets exampleCalls newHashTable exampleTable Reachable.new
    exampleTable_eq

theorem valuesOf_ne_nil (calls : List (List Nat × Int)) (k : List Nat)
    (h : k ∈ calls.map (fun c => c.1)) : valuesOf calls k ≠ [] := by
  obtain ⟨c, hc, hck⟩ := List.mem_map.1 h
  intro e
  unfold valuesOf at e
  rw [List.map_eq_nil_iff, List.filter_eq_nil_iff] at e
  exact e c hc (by simp [hck])

theorem valuesOf_length_le (calls : List (List Nat × Int)) (k : List Nat) :
    (valuesOf calls k).length ≤ calls.length := by
  unfold valuesOf
  rw [List.length_map]
  exact List.length_filter_le _ _

theorem mem_valuesOf (calls : List (List Nat × Int)) (k : List Nat) (v : Int)
    (h : v ∈ valuesOf calls k) : (k, v) ∈ calls := by
  unfold valuesOf at h
  obtain ⟨c, hc, hcv⟩ := List.mem_map.1 h
  obtain ⟨hc1, hc2⟩ := List.mem_filter.1 hc
  simp only [decide_eq_true_eq] at hc2
  obtain ⟨c1, c2⟩ := c
  simp only at hc2 hcv
  rw [← hc2, ← hcv]; exact hc1

theorem keys_manyCalls :
    manyCalls.map (fun c => c.1) = (List.range 65536).map (fun i => List.replicate i 0) := by
  simp [manyCalls, List.map_map, Function.comp_def]

theorem distinctKeys_manyCalls : distinctKeys manyCalls = 65536 := by
  unfold distinctKeys
  rw [keys_manyCalls, List.toFinset_card_of_nodup, List.length_map, List.length_range]
  apply List.Nodup.map _ (List.nodup_range _)
  intro i j h
  have := congrArg List.length h
  simpa using this

theorem new_key_not_in_manyCalls :
    List.replicate 65536 0 ∉ manyCalls.map (fun c => c.1) := by
  rw [keys_manyCalls]
  intro h
  obtain ⟨i, hi, e⟩ := List.mem_map.1 h
  have := congrArg List.length e
  simp only [List.length_replicate] at this
  have hlt := List.mem_range.1 hi
  omega

/-- The fatal condition is reached: after the 65536 calls of `manyCalls`,
which all return, a call with one more key raises it. -/
theorem capacity_condition_reached :
    ∃ ht, insertAll numBuckets manyCalls newHashTable = .ok ht ∧
      insertOrUpdate ht (List.replicate 65536 0) 1 numBuckets
        = .fatal "too many items in the hash table" := by
  obtain ⟨ht, h1, hwf, hag⟩ := insertAll_spec numBuckets le_rfl manyCalls [] newHashTable
    WF_new Agrees_new (by
      rw [initialBucketSize_eq, List.nil_append]
      exact le_of_eq distinctKeys_manyCalls)
  simp only [List.nil_append] at hag
  refine ⟨ht, h1, ?_⟩
  rcases insert_step ht manyCalls (List.replicate 65536 0) 1 numBuckets le_rfl hwf hag with
    ⟨_, _, h4⟩ | ⟨h2, _⟩
  · exact h4
  · exfalso
    apply h2
    refine ⟨new_key_not_in_manyCalls, ?_⟩
    rw [initialBucketSize_eq, distinctKeys_manyCalls]
    omega

end r08

/-- C6: after fewer than 2^31 `insertOrUpdate` calls on a fresh table, with
`int32` values and at most 65536 distinct keys, every call has returned, and
`get k` returns nil for a key that does not occur and, for a key that occurs,
the record whose min is the smallest and max the largest value passed with
that key, whose sum is their exact sum and whose count is their number. -/
theorem C6_get_after_inserts (calls : List (List Nat × Int)) (fuel : Nat)
    (hfuel : r08.numBuckets ≤ fuel) (hlen : calls.length < 2147483648)
    (hkeys : distinctKeys calls ≤ 65536)
    (hvals : ∀ c ∈ calls, -2147483648 ≤ c.2 ∧ c.2 < 2147483648) :
    ∃ ht, r08.insertAll fuel calls r08.newHashTable = .ok ht ∧
      ∀ k : List Nat,
        (k ∉ calls.map (fun c => c.1) → r08.get ht k fuel = .ok none) ∧
        (k ∈ calls.map (fun c => c.1) →
          ∃ s, r08.get ht k fuel = .ok (some s) ∧
            s.min ∈ valuesOf calls k ∧ (∀ v ∈ valuesOf calls k, s.min ≤ v) ∧
            s.max ∈ valuesOf calls k ∧ (∀ v ∈ valuesOf calls k, v ≤ s.max) ∧
            s.sum = (valuesOf calls k).sum ∧ s.count = (valuesOf calls k).length) := by
  obtain ⟨ht, h1, hwf, hag⟩ := r08.insertAll_spec fuel hfuel calls [] r08.newHashTable
    r08.WF_new r08.Agrees_new (by rw [r08.initialBucketSize_eq]; simpa using hkeys)
  simp only [List.nil_append] at hag
  refine ⟨ht, h1, fun k => ⟨?_, ?_⟩⟩
  · intro hk
    rw [r08.get_spec ht calls k fuel hfuel hwf hag, r08.valuesOf_eq_nil calls k hk]
    rfl
  · intro hk
    have hl := r08.valuesOf_length_le calls k
    obtain ⟨s, hs, rest⟩ := r08.foldStats_exact (valuesOf calls k) (r08.valuesOf_ne_nil calls k hk)
      (by omega) (fun v hv => hvals (k, v) (r08.mem_valuesOf calls k v hv))
    exact ⟨s, by rw [r08.get_spec ht calls k fuel hfuel hwf hag, hs], rest⟩

/-- C6 at the calls `a:10, b:-5, a:7`. -/
theorem C6_get_after_inserts_witness :
    ∃ ht, r08.insertAll r08.numBuckets exampleCalls r08.newHashTable = .ok ht ∧
      ∀ k : List Nat,
        (k ∉ exampleCalls.map (fun c => c.1) → r08.get ht k r08.numBuckets = .ok none) ∧
        (k ∈ exampleCalls.map (fun c => c.1) →
          ∃ s, r08.get ht k r08.numBuckets = .ok (some s) ∧
            s.min ∈ valuesOf exampleCalls k ∧ (∀ v ∈ valuesOf exampleCalls k, s.min ≤ v) ∧
            s.max ∈ valuesOf exampleCalls k ∧ (∀ v ∈ valuesOf exampleCalls k, v ≤ s.max) ∧
            s.sum = (valuesOf exampleCalls k).sum ∧
            s.count = (valuesOf exampleCalls k).length) :=
  C6_get_after_inserts exampleCalls r08.numBuckets le_rfl (by decide) (by decide) (by decide)

/-- C7: after any sequence of calls that uses at most 65536 distinct keys,
all of which have returned and are recorded (`get` returns the fold of the
values passed with each key, a record for every key used), one more call
raises the fatal condition "too many items in the hash table" if and only if
it brings the number of distinct keys above 65536; otherwise it returns and
its key has a record. -/
theorem C7_capacity_condition (calls : List (List Nat × Int)) (k : List Nat) (v : Int)
    (fuel : Nat) (hfuel : r08.numBuckets ≤ fuel) (hkeys : distinctKeys calls ≤ 65536) :
    ∃ ht, r08.insertAll fuel calls r08.newHashTable = .ok ht ∧
      (∀ k0, r08.get ht k0 fuel = .ok (r08.foldStats (valuesOf calls k0))) ∧
      (∀ k0 ∈ calls.map (fun c => c.1), r08.foldStats (valuesOf calls k0) ≠ none) ∧
      (r08.insertOrUpdate ht k v fuel = .fatal "too many items in the hash table" ↔
        65536 < distinctKeys (calls ++ [(k, v)])) ∧
      (distinctKeys (calls ++ [(k, v)]) ≤ 65536 →
        ∃ ht1 s, r08.insertOrUpdate ht k v fuel = .ok ht1 ∧
          r08.get ht1 k fuel = .ok (some s)) := by
  obtain ⟨ht, h1, hwf, hag⟩ := r08.insertAll_spec fuel hfuel calls [] r08.newHashTable
    r08.WF_new r08.Agrees_new (by rw [r08.initialBucketSize_eq]; simpa using hkeys)
  simp only [List.nil_append] at hag
  have hd := r08.distinctKeys_append_single calls k v
  refine ⟨ht, h1, fun k0 => r08.get_spec ht calls k0 fuel hfuel hwf hag, ?_, ?_, ?_⟩
  · intro k0 hk0 e
    obtain ⟨i, it, hi, hik⟩ := (hag.present k0).1 hk0
    have := hag.stat i it hi
    rw [hik, e] at this
    cases this
  · rcases r08.insert_step ht calls k v fuel hfuel hwf hag with ⟨h2, h3, h4⟩ | ⟨h2, ht1, h3, _⟩
    · rw [r08.initialBucketSize_eq] at h3
      rw [hd, if_neg h2]
      exact ⟨fun _ => h3, fun _ => h4⟩
    · rw [r08.initialBucketSize_eq] at h2
      rw [h3]
      constructor
      · intro e; cases e
      · intro hh
        exfalso
        apply h2
        by_cases hk : k ∈ calls.map (fun c => c.1)
        · rw [hd, if_pos hk] at hh; omega
        · rw [hd, if_neg hk] at hh; exact ⟨hk, hh⟩
  · intro hle
    rcases r08.insert_step ht calls k v fuel hfuel hwf hag with ⟨h2, h3, _⟩ | ⟨_, ht1, h3, h4⟩
    · exfalso
      rw [r08.initialBucketSize_eq] at h3
      rw [hd, if_neg h2] at hle
      omega
    · have hwf1 := r08.WF_insertOrUpdate ht ht1 k v fuel hwf h3
      have hg := r08.get_spec ht1 (calls ++ [(k, v)]) k fuel hfuel hwf1 h4
      obtain ⟨i, it, hi, hik⟩ := (h4.present k).1 (by simp)
      have hs := h4.stat i it hi
      rw [hik] at hs
      exact ⟨ht1, it.stat, h3, by rw [hg, hs]⟩

/-- C7 at the 65536 calls of `manyCalls` followed by a call with one more
key. -/
theorem C7_capacity_condition_witness :
    ∃ ht, r08.insertAll r08.numBuckets manyCalls r08.newHashTable = .ok ht ∧
      (∀ k0, r08.get ht k0 r08.numBuckets = .ok (r08.foldStats (valuesOf manyCalls k0))) ∧
      (∀ k0 ∈ manyCalls.map (fun c => c.1), r08.foldStats (valuesOf manyCalls k0) ≠ none) ∧
      (r08.insertOrUpdate ht (List.replicate 65536 0) 1 r08.numBuckets
          = .fatal "too many items in the hash table" ↔
        65536 < distinctKeys (manyCalls ++ [(List.replicate 65536 0, 1)])) ∧
      (distinctKeys (manyCalls ++ [(List.replicate 65536 0, 1)]) ≤ 65536 →
        ∃ ht1 s, r08.insertOrUpdate ht (List.replicate 65536 0) 1 r08.numBuckets = .ok ht1 ∧
          r08.get ht1 (List.replicate 65536 0) r08.numBuckets = .ok (some s)) :=
  C7_capacity_condition manyCalls (List.replicate 65536 0) 1 r08.numBuckets le_rfl
    (le_of_eq r08.distinctKeys_manyCalls)

/-- C8: in every table reachable from `newHashTable` through `insertOrUpdate`
calls that returned, no two occupied slots hold equal keys, every occupied
slot lies below `numBuckets`, and all slots on the cyclic probe path from the
initial index of its key up to that slot are occupied. -/
theorem C8_reachable_invariant (ht : r08.hashTable) (h : r08.Reachable ht) :
    (∀ i j it1 it2, ht.items i = some it1 → ht.items j = some it2 →
        it1.key = it2.key → i = j) ∧
      (∀ i it, ht.items i = some it → i < r08.numBuckets ∧
        ∀ d, d ≤ (i + r08.numBuckets - r08.hashIndexOf it.key) % r08.numBuckets →
          (ht.items ((r08.hashIndexOf it.key + d) % r08.numBuckets)).isSome = true) := by
  have hwf := r08.WF_of_reachable ht h
  refine ⟨fun i j it1 it2 h1 h2 hk => hwf.unique i j it1 it2 h1 h2 hk, ?_⟩
  intro i it hi
  have hlt := hwf.inRange i it hi
  refine ⟨hlt, fun d hd => ?_⟩
  rcases Nat.lt_or_eq_of_le hd with hd1 | hd1
  · exact r08.probe_path ht.items it.key r08.numBuckets (r08.hashIndexOf it.key) i
      (r08.hashIndexOf_lt it.key) (hwf.found i it hi) d hd1
  · have hh := r08.hashIndexOf_lt it.key
    have e : (r08.hashIndexOf it.key + d) % r08.numBuckets = i := by
      rw [r08.numBuckets_eq] at *
      omega
    rw [e, hi]; rfl

/-- C8 at the table built by the calls `a:10, b:-5, a:7`. -/
theorem C8_reachable_invariant_witness :
    (∀ i j it1 it2, exampleTable.items i = some it1 → exampleTable.items j = some it2 →
        it1.key = it2.key → i = j) ∧
      (∀ i it, exampleTable.items i = some it → i < r08.numBuckets ∧
        ∀ d, d ≤ (i + r08.numBuckets - r08.hashIndexOf it.key) % r08.numBuckets →
          (exampleTable.items ((r08.hashIndexOf it.key + d) % r08.numBuckets)).isSome = true) :=
  C8_reachable_invariant exampleTable r08.exampleTable_reachable


/-! ## The pipeline at concrete inputs -/

namespace r08

theorem filterMap_range_none {β : Type} (f : Nat → Option β) (n : Nat)
    (h : ∀ i, i < n → f i = none) : (List.range n).filterMap f = [] := by
  rw [List.filterMap_eq_nil_iff]
  intro i hi
  exact h i (List.mem_range.1 hi)

theorem filterMap_range_single {β : Type} (f : Nat → Option β) (b : β) (j : Nat) (n : Nat) :
    j < n → f j = some b → (∀ i, i ≠ j → f i = none) → (List.range n).filterMap f = [b] := by
  induction n with
  | zero => intro h; omega
  | succ n ih =>
    intro hj hf hother
    rw [List.range_succ, List.filterMap_append]
    by_cases hjn : j = n
    · subst hjn
      rw [filterMap_range_none f j (fun i hi => hother i (by omega))]
      simp [List.filterMap_cons, hf]
    · rw [ih (by omega) hf hother]
      simp [List.filterMap_cons, hother n (fun e => hjn e.symm)]

/-- The sequence `All` of a table with one occupied slot. -/
theorem All_single (it : item) (j size : Nat) (hj : j < numBuckets) :
    All ⟨fun i => if i = j then some it else none, size⟩ = [(it.key, it.stat)] := by
  unfold All
  apply filterMap_range_single _ _ j numBuckets hj
  · simp
  · intro i hi; simp [hi]

theorem processChunk_a (n : Nat) :
    processChunk (n + 2) (ascii "a;1.0\n") = .ok [(ascii "a", ⟨10, 10, 1, 10⟩)] := by
  have h : processChunk (n + 2) (ascii "a;1.0\n") =
      .ok (All ⟨fun i => if i = hashIndexOf (ascii "a") then
        some ⟨ascii "a", ⟨10, 10, 1, 10⟩⟩ else none, 1⟩) := rfl
  rw [h, All_single _ _ _ (hashIndexOf_lt _)]

theorem runWorkers_nil (fuel : Nat) (data : List Nat) : runWorkers fuel data [] = .ok [] := rfl

theorem runWorkers_cons_ok (fuel : Nat) (data chunk : List Nat) (c : Nat × Nat)
    (cs : List (Nat × Nat)) (rs rest : List (List Nat × stats))
    (h1 : sliceChunk data c = some chunk) (h2 : processChunk fuel chunk = .ok rs)
    (h3 : runWorkers fuel data cs = .ok rest) :
    runWorkers fuel data (c :: cs) = .ok (rs ++ rest) := by
  rw [runWorkers, h1]
  simp only
  rw [h2]
  simp only
  rw [h3]

theorem mergedResult_ok (fuel : Nat) (data : List Nat) (numCores : Nat)
    (results : List (List Nat × stats))
    (h : runWorkers fuel data (chunks data numCores) = .ok results) :
    mergedResult fuel data numCores = .ok (mergeAll results) := by
  rw [mergedResult, h]

theorem Calculate_ok (fuel : Nat) (data : List Nat) (numCores : Nat)
    (measurements : List (List Nat × stats))
    (h : mergedResult fuel data numCores = .ok measurements) :
    Calculate fuel data numCores = .ok (formatOutput measurements) := by
  rw [Calculate, h]

end r08

/-- C1 (the code departs from the claim): with one worker and the input
`a;1.0\nb;2.0\n` the merged map built by `Calculate` is the single record of
key `a`; key `b`, which occurs in the input, has no record. -/
theorem C1_one_worker_drops_lines (n : Nat) :
    r08.mergedResult (n + 2) (ascii "a;1.0\nb;2.0\n") 1
        = .ok [(ascii "a", ⟨10, 10, 1, 10⟩)] ∧
      r08.lookup [(ascii "a", ⟨10, 10, 1, 10⟩)] (ascii "b") = none := by
  refine ⟨?_, by decide⟩
  have hc : r08.chunks (ascii "a;1.0\nb;2.0\n") 1 = [(0, 6)] := by decide
  have hs : r08.sliceChunk (ascii "a;1.0\nb;2.0\n") (0, 6) = some (ascii "a;1.0\n") := by decide
  have hr := r08.runWorkers_cons_ok (n + 2) (ascii "a;1.0\nb;2.0\n") (ascii "a;1.0\n") (0, 6) []
    _ _ hs (r08.processChunk_a n) (r08.runWorkers_nil _ _)
  rw [← hc] at hr
  rw [r08.mergedResult_ok _ _ _ _ hr]
  rfl

namespace r08

theorem processChunk_single (n : Nat) (chunk k : List Nat) (v : Int)
    (h : processChunk (n + 2) chunk =
      .ok (All ⟨fun i => if i = hashIndexOf k then some ⟨k, ⟨v, v, 1, v⟩⟩ else none, 1⟩)) :
    processChunk (n + 2) chunk = .ok [(k, ⟨v, v, 1, v⟩)] := by
  rw [h, All_single _ _ _ (hashIndexOf_lt _)]

theorem Calculate_example (n : Nat) :
    Calculate (n + 2) (ascii "Bamako;36.9\nBamako;34.1\nOslo;-1.3\n") 3
      = .ok (exampleOutput) := by
  have hc : chunks (ascii "Bamako;36.9\nBamako;34.1\nOslo;-1.3\n") 3
      = [(0, 12), (12, 24), (24, 34)] := by decide
  have hs1 : sliceChunk (ascii "Bamako;36.9\nBamako;34.1\nOslo;-1.3\n") (0, 12)
      = some (ascii "Bamako;36.9\n") := by decide
  have hs2 : sliceChunk (ascii "Bamako;36.9\nBamako;34.1\nOslo;-1.3\n") (12, 24)
      = some (ascii "Bamako;34.1\n") := by decide
  have hs3 : sliceChunk (ascii "Bamako;36.9\nBamako;34.1\nOslo;-1.3\n") (24, 34)
      = some (ascii "Oslo;-1.3\n") := by decide
  have hp1 := processChunk_single n (ascii "Bamako;36.9\n")
    (ascii "Bamako") 369 rfl
  have hp2 := processChunk_single n (ascii "Bamako;34.1\n")
    (ascii "Bamako") 341 rfl
  have hp3 := processChunk_single n (ascii "Oslo;-1.3\n")
    (ascii "Oslo") (-13) rfl
  have hr := runWorkers_cons_ok _ _ _ _ _ _ _ hs1 hp1
    (runWorkers_cons_ok _ _ _ _ _ _ _ hs2 hp2
      (runWorkers_cons_ok _ _ _ _ _ _ _ hs3 hp3 (runWorkers_nil _ _)))
  rw [← hc] at hr
  rw [Calculate_ok _ _ _ _ (mergedResult_ok _ _ _ _ hr)]
  have hm : mergeAll ([(ascii "Bamako", (⟨369, 369, 1, 369⟩ : stats))] ++
      ([(ascii "Bamako", ⟨341, 341, 1, 341⟩)] ++ ([(ascii "Oslo", ⟨-13, -13, 1, -13⟩)] ++ [])))
      = [(ascii "Bamako", ⟨341, 369, 2, 710⟩), (ascii "Oslo", ⟨-13, -13, 1, -13⟩)] := by
    decide
  rw [hm]
  have hf : formatOutput [(ascii "Bamako", ⟨341, 369, 2, 710⟩), (ascii "Oslo", ⟨-13, -13, 1, -13⟩)]
      = exampleOutput := rfl
  rw [hf]

end r08

/-- C2 (the code departs from the claim): the formatter of r08 and of r06
renders the minimum as `float64(min/10)`, an integer division: a stored min of
341 is rendered 34.0 and a stored min of -13 is rendered -1.0, while the
maximum is rendered exactly (`float64(max)/10`).  Aggregating the lines
`Bamako;36.9`, `Bamako;34.1`, `Oslo;-1.3` writes the entries
`Bamako=34.0/35.5/36.9` and `Oslo=` with the numbers -1.0, -1.3, -1.3, in r06
and, with three workers, in r08. -/
theorem C2_min_rendered_by_integer_division :
    r08.formatOutput [(ascii "Bamako", ⟨341, 369, 2, 710⟩), (ascii "Oslo", ⟨-13, -13, 1, -13⟩)]
        = exampleOutput ∧
      (∀ n, r08.Calculate (n + 2) (ascii "Bamako;36.9\nBamako;34.1\nOslo;-1.3\n") 3
        = .ok (exampleOutput)) ∧
      (∀ n, r06.Calculate (n + 2) (ascii "Bamako;36.9\nBamako;34.1\nOslo;-1.3\n")
        = .ok (exampleOutput)) ∧
      formatEntry (ascii "k") 341 369 1 341 = ascii "k=34.0/34.1/36.9" :=
  ⟨rfl, r08.Calculate_example, fun _ => rfl, rfl⟩

/-! ## Termination of the scanner, and the long-line failure -/

/-- C11 (the code departs from the claim): on the finite input `a;1.0`, which
has no trailing newline, read through a reader that returns `(0, io.EOF)`
once exhausted, the read loop of `getMeasurements` does not stop: whatever
the number of reads allowed, the loop is still running, having yielded
nothing. -/
theorem C11_read_loop_never_stops (fuel : Nat) :
    r08.getMeasurements fuel (ascii "a;1.0") = ⟨[], .running⟩ := by
  cases fuel with
  | zero => rfl
  | succ n =>
    have step : r08.scanLoop bufSize (n + 1) (ascii "a;1.0") []
        = r08.scanLoop bufSize n [] (ascii "a;1.0") := rfl
    unfold r08.getMeasurements
    rw [step]
    exact scanLoop_stuck bufSize n (ascii "a;1.0") (by decide) (by decide) (by decide)

namespace r08

theorem processChunk_b (n : Nat) :
    processChunk (n + 2) (ascii "b;2.0\n") = .ok [(ascii "b", ⟨20, 20, 1, 20⟩)] :=
  processChunk_single n (ascii "b;2.0\n") (ascii "b") 20 rfl

end r08

/-- C15 (the code departs from the claim): on the well-formed input
`a;1.0\nb;2.0\n`, `Calculate` with one worker writes only the entry of key
`a`, and with two workers the entries of `a` and `b`: the two outputs
differ. -/
theorem C15_worker_count_changes_output (n : Nat) :
    r08.Calculate (n + 2) (ascii "a;1.0\nb;2.0\n") 1 = .ok oneWorkerOutput ∧
      r08.Calculate (n + 2) (ascii "a;1.0\nb;2.0\n") 2 = .ok twoWorkersOutput ∧
      oneWorkerOutput ≠ twoWorkersOutput := by
  have hs1 : r08.sliceChunk (ascii "a;1.0\nb;2.0\n") (0, 6) = some (ascii "a;1.0\n") := by decide
  have hs2 : r08.sliceChunk (ascii "a;1.0\nb;2.0\n") (6, 12) = some (ascii "b;2.0\n") := by
    decide
  refine ⟨?_, ?_, by decide⟩
  · have hc : r08.chunks (ascii "a;1.0\nb;2.0\n") 1 = [(0, 6)] := by decide
    have hr := r08.runWorkers_cons_ok (n + 2) (ascii "a;1.0\nb;2.0\n") (ascii "a;1.0\n") (0, 6) []
      _ _ hs1 (r08.processChunk_a n) (r08.runWorkers_nil _ _)
    rw [← hc] at hr
    rw [r08.Calculate_ok _ _ _ _ (r08.mergedResult_ok _ _ _ _ hr)]
    rfl
  · have hc : r08.chunks (ascii "a;1.0\nb;2.0\n") 2 = [(0, 6), (6, 12)] := by decide
    have hr := r08.runWorkers_cons_ok (n + 2) (ascii "a;1.0\nb;2.0\n") (ascii "a;1.0\n") (0, 6) _
      _ _ hs1 (r08.processChunk_a n)
      (r08.runWorkers_cons_ok (n + 2) (ascii "a;1.0\nb;2.0\n") (ascii "b;2.0\n") (6, 12) []
        _ _ hs2 (r08.processChunk_b n) (r08.runWorkers_nil _ _))
    rw [← hc] at hr
    rw [r08.Calculate_ok _ _ _ _ (r08.mergedResult_ok _ _ _ _ hr)]
    rfl

theorem scanLoop_succ_of_stopped (cap : Nat) (fuel : Nat) :
    ∀ u p, (r08.scanLoop cap fuel u p).ending ≠ .running →
      r08.scanLoop cap (fuel + 1) u p = r08.scanLoop cap fuel u p := by
  induction fuel with
  | zero => intro u p h; simp [r08.scanLoop] at h
  | succ f ih =>
    intro u p h
    rw [r08.scanLoop] at h ⊢
    conv_rhs => rw [r08.scanLoop]
    generalize readerRead u (cap - p.length) = rd at h ⊢
    obtain ⟨got, eof, unread1⟩ := rd
    simp only at h ⊢
    by_cases h0 : got.length = 0 ∧ p.length = 0
    · simp only [if_pos h0]
    · simp only [if_neg h0] at h ⊢
      cases hli : lastIndexByte (p ++ got) 10 with
      | none =>
        simp only [hli] at h ⊢
        by_cases hfull : (p ++ got).length = cap
        · simp only [if_pos hfull]
        · simp only [if_neg hfull] at h ⊢
          exact ih _ _ h
      | some last =>
        simp only [hli] at h ⊢
        cases eof with
        | true => simp
        | false =>
          simp only [Bool.false_eq_true, if_false] at h ⊢
          rw [ih _ _ (by simpa [ScanResult.prepend] using h)]

theorem scanLoop_of_stopped (cap : Nat) (fuel : Nat) (u p : List Nat)
    (h : (r08.scanLoop cap fuel u p).ending ≠ .running) (fuel1 : Nat) (hle : fuel ≤ fuel1) :
    r08.scanLoop cap fuel1 u p = r08.scanLoop cap fuel u p := by
  induction fuel1 with
  | zero =>
    have : fuel = 0 := by omega
    rw [this]
  | succ g ih =>
    rcases Nat.lt_or_ge g fuel with hlt | hge
    · have : fuel = g + 1 := by omega
      rw [this]
    · have e := ih hge
      rw [← e] at h
      rw [scanLoop_succ_of_stopped cap g u p h, e]

theorem joinLines_ne_nil (l : List Nat) (ls : List (List Nat)) : joinLines (l :: ls) ≠ [] := by
  rw [joinLines_cons]; simp

/-- A line of `cap` or more bytes makes the scanner loop fail, after it has
yielded the complete lines before it. -/
theorem scanLoop_long_line (cap : Nat) (L rest : List Nat) (hL : 10 ∉ L)
    (hLlen : cap ≤ L.length) (fuel : Nat) :
    ∀ (u p : List Nat) (ls : List (List Nat)), (∀ l ∈ ls, 10 ∉ l) →
      (∀ l ∈ ls, l.length < cap) → 10 ∉ p → p.length < cap →
      p ++ u = joinLines ls ++ (L ++ rest) → ls.length < fuel →
      r08.scanLoop cap fuel u p = ⟨ls, .fatal⟩ := by
  induction fuel with
  | zero => intro u p ls _ _ _ _ _ hf; simp at hf
  | succ f ih =>
    intro u p ls hno hlen hp hpc htext hf
    have htl : cap ≤ p.length + u.length := by
      have := congrArg List.length htext
      simp only [List.length_append] at this
      omega
    cases u with
    | nil => simp at htl; omega
    | cons x u =>
      unfold r08.scanLoop
      simp only [readerRead]
      have hgl : (List.take (cap - p.length) (x :: u)).length = cap - p.length := by
        simp only [List.length_take, List.length_cons] at htl ⊢
        omega
      have hsplit : List.take (cap - p.length) (x :: u) ++ List.drop (cap - p.length) (x :: u)
          = x :: u := List.take_append_drop _ _
      generalize List.take (cap - p.length) (x :: u) = got at hgl hsplit ⊢
      generalize List.drop (cap - p.length) (x :: u) = restu at hsplit ⊢
      have hg0 : ¬ (got.length = 0 ∧ p.length = 0) := by omega
      rw [if_neg hg0]
      have hvl : (p ++ got).length = cap := by simp only [List.length_append]; omega
      have htext2 : (p ++ got) ++ restu = joinLines ls ++ (L ++ rest) := by
        rw [List.append_assoc, hsplit]; exact htext
      cases ls with
      | nil =>
        rw [joinLines_nil, List.nil_append] at htext2
        have hpre : p ++ got <+: L :=
          List.prefix_of_prefix_length_le ⟨restu, htext2⟩ (List.prefix_append L rest)
            (by omega)
        have hnv : 10 ∉ p ++ got := fun hm => hL (hpre.subset hm)
        simp only [lastIndexByte_of_not_mem _ _ hnv, if_pos hvl]
      | cons l ls =>
        have hl : l.length < cap := hlen l (by simp)
        have hin : 10 ∈ p ++ got := by
          have hp1 : l ++ [10] <+: (p ++ got) ++ restu := by
            rw [htext2, joinLines_cons]
            exact ⟨joinLines ls ++ (L ++ rest), by simp⟩
          have hp2 : p ++ got <+: (p ++ got) ++ restu := List.prefix_append _ _
          have hpre : l ++ [10] <+: p ++ got :=
            List.prefix_of_prefix_length_le hp1 hp2 (by simp; omega)
          exact hpre.subset (by simp)
        cases hli : lastIndexByte (p ++ got) 10 with
        | none => exact absurd hin (lastIndexByte_none _ _ hli)
        | some last =>
          simp only [Bool.false_eq_true, if_false]
          obtain ⟨a, b, hab, ha, hb⟩ := lastIndexByte_some _ _ _ hli
          rw [hab]
          have e1 : List.take (last + 1) (a ++ 10 :: b) = a ++ [10] := by
            rw [show a ++ 10 :: b = (a ++ [10]) ++ b by simp]
            exact List.take_left' (by simp [ha])
          have e2 : List.drop (last + 1) (a ++ 10 :: b) = b := by
            rw [show a ++ 10 :: b = (a ++ [10]) ++ b by simp]
            exact List.drop_left' (by simp [ha])
          rw [e1, e2]
          have hablen : a.length + 1 + b.length = cap := by
            rw [← hvl, hab]; simp; omega
          have htext3 : (a ++ [10]) ++ (b ++ restu) = joinLines (l :: ls) ++ (L ++ rest) := by
            rw [← htext2, hab]; simp
          have hcut : ∃ c, joinLines (l :: ls) = (a ++ [10]) ++ c ∧
              b ++ restu = c ++ (L ++ rest) := by
            rcases List.append_eq_append_iff.1 htext3 with ⟨c, h1, h2⟩ | ⟨c, h1, h2⟩
            · exact ⟨c, h1, h2⟩
            · cases c with
              | nil => exact ⟨[], by simpa using h1.symm, by simpa using h2.symm⟩
              | cons y ys =>
                exfalso
                have hclen : (y :: ys).length ≤ L.length := by
                  have := congrArg List.length h1
                  simp only [List.length_append, List.length_cons, List.length_nil] at this
                  simp only [List.length_cons]
                  omega
                have hcpre : (y :: ys) <+: L :=
                  List.prefix_of_prefix_length_le ⟨b ++ restu, h2.symm⟩
                    (List.prefix_append L rest) hclen
                have hlast : (y :: ys).getLast (by simp) = 10 := by
                  have h3 : (joinLines (l :: ls) ++ (y :: ys)).getLast (by simp)
                      = (y :: ys).getLast (by simp) :=
                    List.getLast_append_of_ne_nil (List.cons_ne_nil y ys)
                  rw [← h3]
                  have h4 : (a ++ [10]).getLast (by simp) = 10 := by simp
                  rw [← h4]
                  congr 1
                  exact h1.symm
                apply hL
                apply hcpre.subset
                rw [← hlast]
                exact List.getLast_mem _
          obtain ⟨c, hc1, hc2⟩ := hcut
          obtain ⟨k, hk1, hk2⟩ := joinLines_split (l :: ls) hno a c (by rw [hc1]; simp)
          have hkpos : 1 ≤ k := by
            rcases Nat.eq_zero_or_pos k with h0 | h0
            · rw [h0] at hk1; simp [joinLines_nil] at hk1
            · exact h0
          have hno1 : ∀ y ∈ (l :: ls).take k, 10 ∉ y := fun y hy => hno y (List.mem_of_mem_take hy)
          have hno2 : ∀ y ∈ (l :: ls).drop k, 10 ∉ y := fun y hy => hno y (List.mem_of_mem_drop hy)
          have hlen2 : ∀ y ∈ (l :: ls).drop k, y.length < cap :=
            fun y hy => hlen y (List.mem_of_mem_drop hy)
          have hdl : ((l :: ls).drop k).length < f := by
            simp only [List.length_drop, List.length_cons] at hf ⊢
            omega
          rw [hk1, yieldLines_joinLines _ hno1 _ le_rfl,
            ih restu b ((l :: ls).drop k) hno2 hlen2 hb (by omega) (by rw [hc2, hk2]) hdl]
          simp [ScanResult.prepend]


/-- C12: when the input consists of complete lines shorter than the 1 MiB
buffer followed by a newline-free stretch `L` of 1048576 or more bytes (the
start of an over-long line) and anything after it, `getMeasurements` (r08 and
r02), given more fuel than there are lines before `L`, yields exactly the
lines before `L` and then fails with "line exceeds buffer size"; and on an
input that is empty or ends with a newline and whose newline-free stretches
are all shorter than the buffer it does not end with that failure, whatever
the fuel. -/
theorem C12_line_exceeds_buffer (pre : List (List Nat)) (L rest input : List Nat)
    (hpre : ∀ l ∈ pre, 10 ∉ l ∧ l.length < bufSize) (hL : 10 ∉ L)
    (hLlen : bufSize ≤ L.length)
    (hend : ∀ h : input ≠ [], input.getLast h = 10)
    (hshort : ∀ seg : List Nat, List.IsInfix seg input → 10 ∉ seg → seg.length < bufSize) :
    (∀ fuel, pre.length < fuel →
        r08.getMeasurements fuel (joinLines pre ++ (L ++ rest)) = ⟨pre, .fatal⟩ ∧
        r02.getMeasurements fuel (joinLines pre ++ (L ++ rest)) = ⟨pre, .fatal⟩) ∧
      (∀ fuel, (r08.getMeasurements fuel input).ending ≠ .fatal ∧
        (r02.getMeasurements fuel input).ending ≠ .fatal) := by
  constructor
  · intro fuel hf
    have h := scanLoop_long_line bufSize L rest hL hLlen fuel (joinLines pre ++ (L ++ rest)) []
      pre (fun l hl => (hpre l hl).1) (fun l hl => (hpre l hl).2) (by simp) (by decide)
      (by simp) hf
    exact ⟨h, h⟩
  · intro fuel
    obtain ⟨lines, hno, hin⟩ := exists_joinLines_of_newline_end input hend
    have hlen : ∀ l ∈ lines, l.length < bufSize := by
      intro l hl
      exact hshort l (by rw [hin]; exact infix_joinLines lines l hl) (hno l hl)
    have hdone := scanLoop_joinLines bufSize (input.length + 1) input [] lines hno hlen
      (by simp) (by simpa using hin) (by omega)
    have key : (r08.scanLoop bufSize fuel input []).ending ≠ .fatal := by
      intro hfatal
      rcases Nat.lt_or_ge input.length fuel with hlt | hge
      · rw [scanLoop_joinLines bufSize fuel input [] lines hno hlen (by simp)
          (by simpa using hin) hlt] at hfatal
        cases hfatal
      · have e := scanLoop_of_stopped bufSize fuel input [] (by rw [hfatal]; simp)
          (input.length + 1) (by omega)
        rw [hdone] at e
        rw [← e] at hfatal
        cases hfatal
    exact ⟨key, key⟩

/-- C12 at one short line followed by a line of 1048576 letters, and at the
two-line input `a;1.0\nb;2.0\n`. -/
theorem C12_line_exceeds_buffer_witness :
    (∀ fuel, [ascii "a;1.0"].length < fuel →
        r08.getMeasurements fuel
            (joinLines [ascii "a;1.0"] ++ (List.replicate 1048576 65 ++ [10]))
          = ⟨[ascii "a;1.0"], .fatal⟩ ∧
        r02.getMeasurements fuel
            (joinLines [ascii "a;1.0"] ++ (List.replicate 1048576 65 ++ [10]))
          = ⟨[ascii "a;1.0"], .fatal⟩) ∧
      (∀ fuel, (r08.getMeasurements fuel (ascii "a;1.0\nb;2.0\n")).ending ≠ .fatal ∧
        (r02.getMeasurements fuel (ascii "a;1.0\nb;2.0\n")).ending ≠ .fatal) :=
  C12_line_exceeds_buffer [ascii "a;1.0"] (List.replicate 1048576 65) [10]
    (ascii "a;1.0\nb;2.0\n") (by decide)
    (fun h => absurd (List.eq_of_mem_replicate h) (by decide))
    (le_of_eq (List.length_replicate 1048576 65).symm)
    (fun _ => rfl) (fun _ hs _ => lt_of_le_of_lt hs.length_le (by decide))

/-! ## Merge reducer -/

namespace r08

theorem lookup_nil (k : List Nat) : lookup [] k = none := rfl

theorem lookup_cons (k0 k : List Nat) (s : stats) (m : List (List Nat × stats)) :
    lookup ((k0, s) :: m) k = if k0 = k then some s else lookup m k := by
  unfold lookup
  by_cases h : k0 = k
  · simp [List.find?_cons, h]
  · simp [List.find?_cons, h]

theorem lookup_mergeOne (m : List (List Nat × stats)) (res : List Nat × stats) (k : List Nat) :
    lookup (mergeOne m res) k =
      if res.1 = k then mergeStep (lookup m k) res.2 else lookup m k := by
  induction m with
  | nil =>
    obtain ⟨k1, r⟩ := res
    simp only [mergeOne, lookup_cons, lookup_nil, mergeStep]
  | cons e m ih =>
    obtain ⟨k0, s⟩ := e
    simp only [mergeOne]
    by_cases h0 : k0 = res.1
    · rw [if_pos h0, lookup_cons, lookup_cons]
      by_cases hk : k0 = k
      · rw [if_pos hk, if_pos (by rw [← h0]; exact hk), if_pos hk]
        rfl
      · rw [if_neg hk, if_neg hk, if_neg (by rw [← h0]; exact hk)]
    · rw [if_neg h0, lookup_cons, lookup_cons, ih]
      by_cases hk : k0 = k
      · rw [if_pos hk, if_pos hk, if_neg (by rw [← hk]; exact fun e => h0 e.symm)]
      · rw [if_neg hk, if_neg hk]

theorem recordsOf_cons (res : List Nat × stats) (results : List (List Nat × stats))
    (k : List Nat) :
    recordsOf (res :: results) k =
      if res.1 = k then res.2 :: recordsOf results k else recordsOf results k := by
  unfold recordsOf
  by_cases h : res.1 = k
  · simp [List.filter_cons, h]
  · simp [List.filter_cons, h]

theorem lookup_foldl_mergeOne (results : List (List Nat × stats)) :
    ∀ (m : List (List Nat × stats)) (k : List Nat),
      lookup (results.foldl mergeOne m) k = (recordsOf results k).foldl mergeStep (lookup m k) := by
  induction results with
  | nil => intro m k; rfl
  | cons res results ih =>
    intro m k
    rw [List.foldl_cons, ih, lookup_mergeOne, recordsOf_cons]
    by_cases h : res.1 = k
    · rw [if_pos h, if_pos h, List.foldl_cons]
    · rw [if_neg h, if_neg h]

/-- The merged record of a key is the fold of the records delivered with it. -/
theorem lookup_mergeAll (results : List (List Nat × stats)) (k : List Nat) :
    lookup (mergeAll results) k = (recordsOf results k).foldl mergeStep none := by
  unfold mergeAll
  rw [lookup_foldl_mergeOne, lookup_nil]

theorem wrap32_add_wrap32 (a b : Int) : wrap32 (wrap32 a + b) = wrap32 (a + b) := by
  unfold wrap32; omega

theorem wrap64_add_wrap64 (a b : Int) : wrap64 (wrap64 a + b) = wrap64 (a + b) := by
  unfold wrap64; omega

theorem mergeStep_comm (z : Option stats) (x y : stats) :
    mergeStep (mergeStep z x) y = mergeStep (mergeStep z y) x := by
  cases z with
  | none =>
    simp only [mergeStep, Option.some.injEq, stats.mk.injEq]
    refine ⟨min_comm _ _, max_comm _ _, by rw [add_comm], by rw [add_comm]⟩
  | some s =>
    simp only [mergeStep, Option.some.injEq, stats.mk.injEq]
    refine ⟨?_, ?_, ?_, ?_⟩
    · rw [min_assoc, min_assoc, min_comm x.min]
    · rw [max_assoc, max_assoc, max_comm x.max]
    · rw [wrap32_add_wrap32, wrap32_add_wrap32]; congr 1; ring
    · rw [wrap64_add_wrap64, wrap64_add_wrap64]; congr 1; ring

end r08

/-- C14: merging a permutation of the delivered results gives, for every key,
the same record (or the same absence of a record) as merging the results in
their original order. -/
theorem C14_merge_order_independent (results permuted : List (List Nat × r08.stats))
    (hperm : List.Perm permuted results) (k : List Nat) :
    r08.lookup (r08.mergeAll permuted) k = r08.lookup (r08.mergeAll results) k := by
  rw [r08.lookup_mergeAll, r08.lookup_mergeAll]
  have hp : List.Perm (recordsOf permuted k) (recordsOf results k) :=
    (hperm.filter _).map _
  exact List.Perm.foldl_eq' hp (fun x _ y _ z => r08.mergeStep_comm z x y) none

/-- C14 at three delivered results and the same three in reverse order. -/
theorem C14_merge_order_independent_witness :
    r08.lookup (r08.mergeAll exampleResults.reverse) (ascii "Bamako")
      = r08.lookup (r08.mergeAll exampleResults) (ascii "Bamako") :=
  C14_merge_order_independent exampleResults exampleResults.reverse
    (List.reverse_perm exampleResults) (ascii "Bamako")

namespace r08

theorem foldl_mergeStep_isSome (rs : List stats) :
    ∀ s : stats, ∃ t, rs.foldl mergeStep (some s) = some t := by
  induction rs with
  | nil => intro s; exact ⟨s, rfl⟩
  | cons r rs ih => intro s; exact ih _

theorem foldl_mergeStep_exact (rs : List stats) :
    ∀ s : stats, 0 ≤ s.count →
      (∀ r ∈ rs, 0 ≤ r.count ∧ -(r.count * 2147483648) ≤ r.sum ∧
        r.sum ≤ r.count * 2147483648) →
      s.count + (rs.map (fun r => r.count)).sum < 2147483648 →
      -(s.count * 2147483648) ≤ s.sum → s.sum ≤ s.count * 2147483648 →
      ∃ t, rs.foldl mergeStep (some s) = some t ∧
        t.count = s.count + (rs.map (fun r => r.count)).sum ∧
        t.sum = s.sum + (rs.map (fun r => r.sum)).sum ∧
        t.min ≤ s.min ∧ (∀ r ∈ rs, t.min ≤ r.min) ∧ (t.min = s.min ∨ ∃ r ∈ rs, t.min = r.min) ∧
        s.max ≤ t.max ∧ (∀ r ∈ rs, r.max ≤ t.max) ∧
        (t.max = s.max ∨ ∃ r ∈ rs, t.max = r.max) := by
  induction rs with
  | nil =>
    intro s _ _ _ _ _
    exact ⟨s, rfl, by simp, by simp, le_rfl, by simp, Or.inl rfl, le_rfl, by simp, Or.inl rfl⟩
  | cons r rs ih =>
    intro s hc hv htot hs1 hs2
    obtain ⟨hr0, hr1, hr2⟩ := hv r (by simp)
    have hrest : 0 ≤ (rs.map (fun r => r.count)).sum := by
      apply List.sum_nonneg
      intro x hx
      obtain ⟨y, hy, rfl⟩ := List.mem_map.1 hx
      exact (hv y (by simp [hy])).1
    simp only [List.map_cons, List.sum_cons] at htot
    have e32 : wrap32 (s.count + r.count) = s.count + r.count :=
      wrap32_id _ (by omega) (by omega)
    have e64 : wrap64 (s.sum + r.sum) = s.sum + r.sum := wrap64_id _ (by omega) (by omega)
    obtain ⟨t, ht, h1, h2, h3, h4, h5, h6, h7, h8⟩ :=
      ih ⟨min s.min r.min, max s.max r.max, s.count + r.count, s.sum + r.sum⟩
        (by simp only; omega) (fun x hx => hv x (by simp [hx])) (by simp only; omega)
        (by simp only; omega) (by simp only; omega)
    simp only at h1 h2 h3 h5 h6 h8
    refine ⟨t, ?_, ?_, ?_, ?_, ?_, ?_, ?_, ?_, ?_⟩
    · simp only [List.foldl_cons, mergeStep, e32, e64]
      exact ht
    · rw [h1, List.map_cons, List.sum_cons]; ring
    · rw [h2, List.map_cons, List.sum_cons]; ring
    · exact le_trans h3 (min_le_left _ _)
    · intro x hx
      rcases List.mem_cons.1 hx with e | e
      · rw [e]; exact le_trans h3 (min_le_right _ _)
      · exact h4 x e
    · rcases h5 with e | ⟨x, hx, e⟩
      · rcases min_choice s.min r.min with e2 | e2
        · left; rw [e, e2]
        · right; exact ⟨r, by simp, by rw [e, e2]⟩
      · right; exact ⟨x, by simp [hx], e⟩
    · exact le_trans (le_max_left _ _) h6
    · intro x hx
      rcases List.mem_cons.1 hx with e | e
      · rw [e]; exact le_trans (le_max_right _ _) h6
      · exact h7 x e
    · rcases h8 with e | ⟨x, hx, e⟩
      · rcases max_choice s.max r.max with e2 | e2
        · left; rw [e, e2]
        · right; exact ⟨r, by simp, by rw [e, e2]⟩
      · right; exact ⟨x, by simp [hx], e⟩

theorem recordsOf_eq_nil (results : List (List Nat × stats)) (k : List Nat)
    (h : k ∉ results.map (fun r => r.1)) : recordsOf results k = [] := by
  unfold recordsOf
  rw [List.map_eq_nil_iff, List.filter_eq_nil_iff]
  intro c hc hck
  apply h
  simp only [decide_eq_true_eq] at hck
  rw [← hck]
  exact List.mem_map_of_mem _ hc

theorem recordsOf_ne_nil (results : List (List Nat × stats)) (k : List Nat)
    (h : k ∈ results.map (fun r => r.1)) : recordsOf results k ≠ [] := by
  obtain ⟨c, hc, hck⟩ := List.mem_map.1 h
  intro e
  unfold recordsOf at e
  rw [List.map_eq_nil_iff, List.filter_eq_nil_iff] at e
  exact e c hc (by simp [hck])

theorem mem_recordsOf (results : List (List Nat × stats)) (k : List Nat) (r : stats)
    (h : r ∈ recordsOf results k) : (k, r) ∈ results := by
  unfold recordsOf at h
  obtain ⟨c, hc, hcv⟩ := List.mem_map.1 h
  obtain ⟨hc1, hc2⟩ := List.mem_filter.1 hc
  simp only [decide_eq_true_eq] at hc2
  obtain ⟨c1, c2⟩ := c
  simp only at hc2 hcv
  rw [← hc2, ← hcv]; exact hc1

theorem recordsOf_count_le (results : List (List Nat × stats)) (k : List Nat)
    (h : ∀ r ∈ results, 0 ≤ r.2.count) :
    ((recordsOf results k).map (fun r => r.count)).sum
      ≤ (results.map (fun r => r.2.count)).sum := by
  have hsub : List.Sublist ((recordsOf results k).map (fun r => r.count))
      (results.map (fun r => r.2.count)) := by
    unfold recordsOf
    rw [List.map_map]
    exact (List.filter_sublist results).map _
  apply hsub.sum_le_sum
  intro a ha
  obtain ⟨r, hr, rfl⟩ := List.mem_map.1 ha
  exact h r hr

end r08

/-- C13: for every list of delivered results whose records have a count of
at least 0 and a sum of at most `count` values of 32 bits, and whose counts
total less than 2^31, a key has a merged record exactly when some delivered
record carries it, and the merged record of such a key has the least of the
delivered mins, the greatest of the delivered maxes, the sum of the delivered
sums and the sum of the delivered counts of that key. -/
theorem C13_merged_records (results : List (List Nat × r08.stats))
    (hvalid : ∀ r ∈ results, 0 ≤ r.2.count ∧ -(r.2.count * 2147483648) ≤ r.2.sum ∧
      r.2.sum ≤ r.2.count * 2147483648)
    (htotal : (results.map (fun r => r.2.count)).sum < 2147483648) (k : List Nat) :
    ((r08.lookup (r08.mergeAll results) k).isSome = true ↔ k ∈ results.map (fun r => r.1)) ∧
      (k ∈ results.map (fun r => r.1) →
        ∃ s, r08.lookup (r08.mergeAll results) k = some s ∧
          (∃ r ∈ recordsOf results k, s.min = r.min) ∧
          (∀ r ∈ recordsOf results k, s.min ≤ r.min) ∧
          (∃ r ∈ recordsOf results k, s.max = r.max) ∧
          (∀ r ∈ recordsOf results k, r.max ≤ s.max) ∧
          s.sum = ((recordsOf results k).map (fun r => r.sum)).sum ∧
          s.count = ((recordsOf results k).map (fun r => r.count)).sum) := by
  rw [r08.lookup_mergeAll]
  have hle := r08.recordsOf_count_le results k (fun r hr => (hvalid r hr).1)
  have hmain : k ∈ results.map (fun r => r.1) →
      ∃ s, (recordsOf results k).foldl r08.mergeStep none = some s ∧
        (∃ r ∈ recordsOf results k, s.min = r.min) ∧
        (∀ r ∈ recordsOf results k, s.min ≤ r.min) ∧
        (∃ r ∈ recordsOf results k, s.max = r.max) ∧
        (∀ r ∈ recordsOf results k, r.max ≤ s.max) ∧
        s.sum = ((recordsOf results k).map (fun r => r.sum)).sum ∧
        s.count = ((recordsOf results k).map (fun r => r.count)).sum := by
    intro hk
    have hne := r08.recordsOf_ne_nil results k hk
    have hv : ∀ r ∈ recordsOf results k, 0 ≤ r.count ∧ -(r.count * 2147483648) ≤ r.sum ∧
        r.sum ≤ r.count * 2147483648 :=
      fun r hr => hvalid (k, r) (r08.mem_recordsOf results k r hr)
    revert hne hv hle
    generalize recordsOf results k = recs
    intro hle hne hv
    cases recs with
    | nil => exact absurd rfl hne
    | cons r rs =>
      obtain ⟨hr0, hr1, hr2⟩ := hv r (by simp)
      simp only [List.map_cons, List.sum_cons] at hle
      obtain ⟨t, ht, h1, h2, h3, h4, h5, h6, h7, h8⟩ :=
        r08.foldl_mergeStep_exact rs r hr0 (fun x hx => hv x (by simp [hx])) (by omega) hr1 hr2
      refine ⟨t, ?_, ?_, ?_, ?_, ?_, ?_, ?_⟩
      · simp only [List.foldl_cons, r08.mergeStep]; exact ht
      · rcases h5 with e | ⟨x, hx, e⟩
        · exact ⟨r, by simp, e⟩
        · exact ⟨x, by simp [hx], e⟩
      · intro x hx
        rcases List.mem_cons.1 hx with e | e
        · rw [e]; exact h3
        · exact h4 x e
      · rcases h8 with e | ⟨x, hx, e⟩
        · exact ⟨r, by simp, e⟩
        · exact ⟨x, by simp [hx], e⟩
      · intro x hx
        rcases List.mem_cons.1 hx with e | e
        · rw [e]; exact h6
        · exact h7 x e
      · rw [h2, List.map_cons, List.sum_cons]
      · rw [h1, List.map_cons, List.sum_cons]
  refine ⟨⟨?_, ?_⟩, hmain⟩
  · intro hs
    by_contra hk
    rw [r08.recordsOf_eq_nil results k hk] at hs
    simp at hs
  · intro hk
    obtain ⟨s, hs, _⟩ := hmain hk
    rw [hs]; rfl

/-- C13 at three delivered results, two of them for the key `Bamako`. -/
theorem C13_merged_records_witness :
    ((r08.lookup (r08.mergeAll exampleResults) (ascii "Bamako")).isSome = true ↔
        ascii "Bamako" ∈ exampleResults.map (fun r => r.1)) ∧
      (ascii "Bamako" ∈ exampleResults.map (fun r => r.1) →
        ∃ s, r08.lookup (r08.mergeAll exampleResults) (ascii "Bamako") = some s ∧
          (∃ r ∈ recordsOf exampleResults (ascii "Bamako"), s.min = r.min) ∧
          (∀ r ∈ recordsOf exampleResults (ascii "Bamako"), s.min ≤ r.min) ∧
          (∃ r ∈ recordsOf exampleResults (ascii "Bamako"), s.max = r.max) ∧
          (∀ r ∈ recordsOf exampleResults (ascii "Bamako"), r.max ≤ s.max) ∧
          s.sum = ((recordsOf exampleResults (ascii "Bamako")).map (fun r => r.sum)).sum ∧
          s.count = ((recordsOf exampleResults (ascii "Bamako")).map (fun r => r.count)).sum) :=
  C13_merged_records exampleResults (by decide) (by decide) (ascii "Bamako")

/-! ## Sorting and formatting -/

theorem bytesLess_irrefl (a : List Nat) : bytesLess a a = false := by
  induction a with
  | nil => rfl
  | cons x xs ih => simp [bytesLess, ih]

theorem bytesLess_trans (a : List Nat) :
    ∀ b c, bytesLess a b = true → bytesLess b c = true → bytesLess a c = true := by
  induction a with
  | nil =>
    intro b c h1 h2
    cases b with
    | nil => simp [bytesLess] at h1
    | cons y ys =>
      cases c with
      | nil => simp [bytesLess] at h2
      | cons z zs => rfl
  | cons x xs ih =>
    intro b c h1 h2
    cases b with
    | nil => simp [bytesLess] at h1
    | cons y ys =>
      cases c with
      | nil => simp [bytesLess] at h2
      | cons z zs =>
        simp only [bytesLess] at h1 h2 ⊢
        by_cases hxy : x < y
        · by_cases hyz : y < z
          · rw [if_pos (by omega)]
          · rw [if_neg hyz] at h2
            by_cases hzy : z < y
            · rw [if_pos hzy] at h2; cases h2
            · rw [if_pos (by omega)]
        · rw [if_neg hxy] at h1
          by_cases hyx : y < x
          · rw [if_pos hyx] at h1; cases h1
          · rw [if_neg hyx] at h1
            have hxy2 : x = y := by omega
            subst hxy2
            by_cases hyz : x < z
            · rw [if_pos hyz]
            · rw [if_neg hyz] at h2 ⊢
              by_cases hzy : z < x
              · rw [if_pos hzy] at h2; cases h2
              · rw [if_neg hzy] at h2 ⊢
                exact ih ys zs h1 h2

theorem bytesLess_eq_of_not (a : List Nat) :
    ∀ b, bytesLess a b = false → bytesLess b a = false → a = b := by
  induction a with
  | nil =>
    intro b h1 _
    cases b with
    | nil => rfl
    | cons y ys => simp [bytesLess] at h1
  | cons x xs ih =>
    intro b h1 h2
    cases b with
    | nil => simp [bytesLess] at h2
    | cons y ys =>
      simp only [bytesLess] at h1 h2
      by_cases hxy : x < y
      · rw [if_pos hxy] at h1; cases h1
      · rw [if_neg hxy] at h1
        by_cases hyx : y < x
        · rw [if_pos hyx] at h2; cases h2
        · rw [if_neg hyx] at h1 h2
          rw [if_neg hxy] at h2
          have hxy2 : x = y := by omega
          rw [hxy2, ih ys h1 h2]

theorem bytesLess_asymm (a b : List Nat) (h : bytesLess a b = true) : bytesLess b a = false := by
  cases hba : bytesLess b a with
  | false => rfl
  | true =>
    have := bytesLess_trans a b a h hba
    rw [bytesLess_irrefl] at this
    cases this

/-- The order `a ≤ b` of Go strings is transitive. -/
theorem bytesLess_le_trans (a b c : List Nat) (h1 : bytesLess b a = false)
    (h2 : bytesLess c b = false) : bytesLess c a = false := by
  cases hca : bytesLess c a with
  | false => rfl
  | true =>
    exfalso
    cases hbc : bytesLess b c with
    | true =>
      have := bytesLess_trans b c a hbc hca
      rw [h1] at this; cases this
    | false =>
      have e := bytesLess_eq_of_not b c hbc h2
      rw [← e, h1] at hca
      cases hca

theorem insertKey_perm (k : List Nat) (xs : List (List Nat)) :
    List.Perm (insertKey k xs) (k :: xs) := by
  induction xs with
  | nil => exact List.Perm.refl _
  | cons x xs ih =>
    simp only [insertKey]
    by_cases h : bytesLess x k = true
    · rw [if_pos h]
      exact (List.Perm.cons x ih).trans (List.Perm.swap k x xs)
    · rw [if_neg h]

theorem insertKey_sorted (k : List Nat) (xs : List (List Nat))
    (h : List.Pairwise (fun a b => bytesLess b a = false) xs) :
    List.Pairwise (fun a b => bytesLess b a = false) (insertKey k xs) := by
  induction xs with
  | nil => simp [insertKey]
  | cons x xs ih =>
    rw [List.pairwise_cons] at h
    simp only [insertKey]
    by_cases hx : bytesLess x k = true
    · rw [if_pos hx, List.pairwise_cons]
      refine ⟨?_, ih h.2⟩
      intro y hy
      rcases List.mem_cons.1 ((insertKey_perm k xs).subset hy) with e | e
      · rw [e]; exact bytesLess_asymm x k hx
      · exact h.1 y e
    · rw [if_neg hx]
      have hx2 : bytesLess x k = false := by simpa using hx
      rw [List.pairwise_cons]
      refine ⟨?_, List.pairwise_cons.2 h⟩
      intro y hy
      rcases List.mem_cons.1 hy with e | e
      · rw [e]; exact hx2
      · exact bytesLess_le_trans k x y hx2 (h.1 y e)

theorem sortStrings_perm (keys : List (List Nat)) : List.Perm (sortStrings keys) keys := by
  induction keys with
  | nil => exact List.Perm.refl _
  | cons k ks ih =>
    simp only [sortStrings, List.foldr_cons]
    exact (insertKey_perm k _).trans (List.Perm.cons k ih)

theorem sortStrings_sorted (keys : List (List Nat)) :
    List.Pairwise (fun a b => bytesLess b a = false) (sortStrings keys) := by
  induction keys with
  | nil => simp [sortStrings]
  | cons k ks ih =>
    simp only [sortStrings, List.foldr_cons]
    exact insertKey_sorted k _ ih

/-- Sorting distinct keys gives a strictly ascending list. -/
theorem sortStrings_strict (keys : List (List Nat)) (hnd : keys.Nodup) :
    List.Pairwise (fun a b => bytesLess a b = true) (sortStrings keys) := by
  have hs := sortStrings_sorted keys
  have hn : (sortStrings keys).Nodup := (sortStrings_perm keys).nodup_iff.2 hnd
  have hboth := hs.and hn
  refine hboth.imp ?_
  intro a b hab
  cases h : bytesLess a b with
  | true => rfl
  | false => exact absurd (bytesLess_eq_of_not a b h hab.1) hab.2

namespace r08

theorem keys_mergeOne (m : List (List Nat × stats)) (res : List Nat × stats) :
    (mergeOne m res).map (fun e => e.1) =
      if res.1 ∈ m.map (fun e => e.1) then m.map (fun e => e.1)
      else m.map (fun e => e.1) ++ [res.1] := by
  induction m with
  | nil => simp [mergeOne]
  | cons e m ih =>
    obtain ⟨k0, s⟩ := e
    simp only [mergeOne]
    by_cases h0 : k0 = res.1
    · rw [if_pos h0, if_pos (by simp [h0])]
      simp
    · rw [if_neg h0, List.map_cons, ih]
      by_cases hm : res.1 ∈ m.map (fun e => e.1)
      · rw [if_pos hm, if_pos (by simp [hm])]
        simp
      · rw [if_neg hm, if_neg (by
          simp only [List.map_cons, List.mem_cons, not_or]
          exact ⟨fun e => h0 e.symm, hm⟩)]
        simp

theorem keys_foldl_mergeOne (results : List (List Nat × stats)) :
    ∀ m : List (List Nat × stats), (m.map (fun e => e.1)).Nodup →
      ((results.foldl mergeOne m).map (fun e => e.1)).Nodup ∧
      ∀ k, k ∈ (results.foldl mergeOne m).map (fun e => e.1) ↔
        k ∈ m.map (fun e => e.1) ∨ k ∈ results.map (fun e => e.1) := by
  induction results with
  | nil => intro m h; exact ⟨h, fun k => by simp⟩
  | cons res results ih =>
    intro m h
    have hnd : ((mergeOne m res).map (fun e => e.1)).Nodup := by
      rw [keys_mergeOne]
      by_cases hm : res.1 ∈ m.map (fun e => e.1)
      · rw [if_pos hm]; exact h
      · rw [if_neg hm]
        exact List.Nodup.append h (List.nodup_singleton _) (by
          intro a ha hb
          rw [List.mem_singleton] at hb
          rw [hb] at ha
          exact hm ha)
    obtain ⟨h1, h2⟩ := ih (mergeOne m res) hnd
    refine ⟨h1, fun k => ?_⟩
    rw [List.foldl_cons, h2 k, keys_mergeOne]
    by_cases hm : res.1 ∈ m.map (fun e => e.1)
    · rw [if_pos hm]
      simp only [List.map_cons, List.mem_cons]
      constructor
      · rintro (h3 | h3)
        · exact Or.inl h3
        · exact Or.inr (Or.inr h3)
      · rintro (h3 | h3 | h3)
        · exact Or.inl h3
        · left; rw [h3]; exact hm
        · exact Or.inr h3
    · rw [if_neg hm]
      simp only [List.map_cons, List.mem_cons, List.mem_append, List.mem_singleton]
      tauto

/-- The merged map has each key once, and its keys are the keys delivered. -/
theorem keys_mergeAll (results : List (List Nat × stats)) :
    ((mergeAll results).map (fun e => e.1)).Nodup ∧
      ∀ k, k ∈ (mergeAll results).map (fun e => e.1) ↔ k ∈ results.map (fun e => e.1) := by
  obtain ⟨h1, h2⟩ := keys_foldl_mergeOne results [] (by simp)
  exact ⟨h1, fun k => by rw [mergeAll, h2 k]; simp⟩

theorem lookup_isSome_of_mem (m : List (List Nat × stats)) (k : List Nat)
    (h : k ∈ m.map (fun e => e.1)) : ∃ s, lookup m k = some s := by
  induction m with
  | nil => simp at h
  | cons e m ih =>
    obtain ⟨k0, s⟩ := e
    rw [lookup_cons]
    by_cases hk : k0 = k
    · exact ⟨s, by rw [if_pos hk]⟩
    · rw [if_neg hk]
      apply ih
      simp only [List.map_cons, List.mem_cons] at h
      rcases h with e | e
      · exact absurd e.symm hk
      · exact e

theorem formatOutput_eq (m : List (List Nat × stats)) :
    formatOutput m = [123] ++ joinEntries (outputEntries m) ++ [125, 10] := rfl

/-- Every key of `sortedKeys` gives one entry, in the same order. -/
theorem outputEntries_forall2 (m : List (List Nat × stats)) :
    List.Forall₂ (fun k e => ∃ s, lookup m k = some s ∧
      e = formatEntry k s.min s.max s.count s.sum) (outputKeys m) (outputEntries m) := by
  have hsub : ∀ k ∈ outputKeys m, k ∈ m.map (fun e => e.1) :=
    fun k hk => (sortStrings_perm _).subset hk
  unfold outputEntries
  revert hsub
  generalize outputKeys m = ks
  intro hsub
  induction ks with
  | nil => exact List.Forall₂.nil
  | cons k ks ih =>
    obtain ⟨s, hs⟩ := lookup_isSome_of_mem m k (hsub k (by simp))
    rw [List.filterMap_cons, hs]
    simp only [Option.map_some']
    exact List.Forall₂.cons ⟨s, hs, rfl⟩ (ih (fun x hx => hsub x (by simp [hx])))

end r08

/-- C16: for the merged map of any delivered results, the keys that
`Calculate` writes, each as the start of its entry `key=...` and in the order
of the entries, are strictly ascending by byte value, contain no key twice,
and are exactly the merged keys, that is, the keys delivered. -/
theorem C16_output_keys_ascending (results : List (List Nat × r08.stats)) :
    r08.formatOutput (r08.mergeAll results)
        = [123] ++ joinEntries (r08.outputEntries (r08.mergeAll results)) ++ [125, 10] ∧
      List.Forall₂ (fun k e => ∃ s, r08.lookup (r08.mergeAll results) k = some s ∧
          e = k ++ [61] ++ fmt1 (F64.ofInt (Int.tdiv s.min 10)) ++ [47] ++
            fmt1 (F64.div (F64.div (F64.ofInt s.sum) (F64.ofInt s.count)) (F64.ofInt 10)) ++
            [47] ++ fmt1 (F64.div (F64.ofInt s.max) (F64.ofInt 10)))
        (r08.outputKeys (r08.mergeAll results)) (r08.outputEntries (r08.mergeAll results)) ∧
      List.Pairwise (fun a b => bytesLess a b = true) (r08.outputKeys (r08.mergeAll results)) ∧
      (r08.outputKeys (r08.mergeAll results)).Nodup ∧
      (∀ k, k ∈ r08.outputKeys (r08.mergeAll results) ↔
        k ∈ (r08.mergeAll results).map (fun e => e.1)) ∧
      (∀ k, k ∈ r08.outputKeys (r08.mergeAll results) ↔ k ∈ results.map (fun e => e.1)) := by
  obtain ⟨hnd, hkeys⟩ := r08.keys_mergeAll results
  have hperm := sortStrings_perm ((r08.mergeAll results).map (fun e => e.1))
  refine ⟨rfl, r08.outputEntries_forall2 _, sortStrings_strict _ hnd,
    hperm.nodup_iff.2 hnd, fun k => hperm.mem_iff, fun k => ?_⟩
  rw [← hkeys k]
  exact hperm.mem_iff

/-- C16 at three delivered results, two of them for the key `Bamako`. -/
theorem C16_output_keys_ascending_witness :
    r08.outputKeys (r08.mergeAll exampleResults) = [ascii "Bamako", ascii "Oslo"] ∧
      List.Pairwise (fun a b => bytesLess a b = true)
        (r08.outputKeys (r08.mergeAll exampleResults)) ∧
      (r08.outputKeys (r08.mergeAll exampleResults)).Nodup :=
  ⟨by decide, (C16_output_keys_ascending exampleResults).2.2.1,
    (C16_output_keys_ascending exampleResults).2.2.2.1⟩

theorem joinEntries_cons_cons (e e1 : List Nat) (es : List (List Nat)) :
    joinEntries (e :: e1 :: es) = e ++ [44, 32] ++ joinEntries (e1 :: es) := rfl

theorem joinEntries_eq_intercalate (es : List (List Nat)) :
    joinEntries es = List.intercalate [44, 32] es := by
  induction es with
  | nil => rfl
  | cons e es ih =>
    cases es with
    | nil => simp [joinEntries, List.intercalate]
    | cons e1 es =>
      rw [joinEntries_cons_cons, ih]
      simp [List.intercalate, List.intersperse]

theorem joinEntries_length (es : List (List Nat)) :
    (joinEntries es).length = (es.map List.length).sum + 2 * (es.length - 1) := by
  induction es with
  | nil => rfl
  | cons e es ih =>
    cases es with
    | nil => simp [joinEntries]
    | cons e1 es =>
      rw [joinEntries_cons_cons]
      simp only [List.length_append, ih, List.map_cons, List.sum_cons, List.length_cons,
        List.length_nil]
      omega

theorem digitChar_toNat (d : Nat) (h : d < 10) : (Nat.digitChar d).toNat = 48 + d := by
  interval_cases d <;> rfl

theorem toDigitsCore_chars (fuel : Nat) :
    ∀ (n : Nat) (ds : List Char) (c : Char), c ∈ Nat.toDigitsCore 10 fuel n ds →
      c ∈ ds ∨ ∃ d, d < 10 ∧ c = Nat.digitChar d := by
  induction fuel with
  | zero => intro n ds c h; simp only [Nat.toDigitsCore] at h; exact Or.inl h
  | succ f ih =>
    intro n ds c h
    simp only [Nat.toDigitsCore] at h
    by_cases h0 : n / 10 = 0
    · rw [if_pos h0] at h
      rcases List.mem_cons.1 h with e | e
      · exact Or.inr ⟨n % 10, Nat.mod_lt _ (by decide), e⟩
      · exact Or.inl e
    · rw [if_neg h0] at h
      rcases ih _ _ c h with e | e
      · rcases List.mem_cons.1 e with e1 | e1
        · exact Or.inr ⟨n % 10, Nat.mod_lt _ (by decide), e1⟩
        · exact Or.inl e1
      · exact Or.inr e

/-- The bytes of a decimal numeral are digits. -/
theorem decimal_digits (n b : Nat) (h : b ∈ decimal n) : 48 ≤ b ∧ b ≤ 57 := by
  unfold decimal at h
  obtain ⟨c, hc, rfl⟩ := List.mem_map.1 h
  unfold Nat.toDigits at hc
  rcases toDigitsCore_chars _ _ _ c hc with e | ⟨d, hd, e⟩
  · simp at e
  · rw [e, digitChar_toNat d hd]
    omega

theorem fmt1_no_newline (x : F64) : 10 ∉ fmt1 x := by
  cases x with
  | nan => decide
  | inf neg => cases neg <;> decide
  | finite neg m e =>
    simp only [fmt1]
    intro h
    simp only [List.mem_append, List.mem_singleton] at h
    rcases h with ((h | h) | h) | h
    · cases neg
      · simp at h
      · simp at h
    · have := decimal_digits _ _ h; omega
    · omega
    · have := decimal_digits _ _ h; omega

theorem formatEntry_no_newline (station : List Nat) (a b c d : Int) (h : 10 ∉ station) :
    10 ∉ formatEntry station a b c d := by
  unfold formatEntry
  intro hm
  simp only [List.mem_append, List.mem_singleton] at hm
  have f1 := fmt1_no_newline (F64.ofInt (Int.tdiv a 10))
  have f2 := fmt1_no_newline (F64.div (F64.div (F64.ofInt d) (F64.ofInt c)) (F64.ofInt 10))
  have f3 := fmt1_no_newline (F64.div (F64.ofInt b) (F64.ofInt 10))
  have e1 : (10 : Nat) ≠ 61 := by decide
  have e2 : (10 : Nat) ≠ 47 := by decide
  tauto

theorem joinEntries_no_newline (es : List (List Nat)) (h : ∀ e ∈ es, 10 ∉ e) :
    10 ∉ joinEntries es := by
  induction es with
  | nil => simp [joinEntries]
  | cons e es ih =>
    cases es with
    | nil => simpa [joinEntries] using h e (by simp)
    | cons e1 es =>
      rw [joinEntries_cons_cons]
      intro hm
      simp only [List.mem_append, List.mem_cons, List.mem_singleton] at hm
      rcases hm with (hm | hm) | hm
      · exact h e (by simp) hm
      · simp at hm
      · exact ih (fun x hx => h x (by simp [hx])) hm

namespace r08

theorem outputEntries_length (m : List (List Nat × stats)) :
    (outputEntries m).length = m.length := by
  rw [← (outputEntries_forall2 m).length_eq]
  unfold outputKeys
  rw [(sortStrings_perm _).length_eq, List.length_map]

theorem outputEntries_no_newline (m : List (List Nat × stats)) (h : ∀ e ∈ m, 10 ∉ e.1) :
    ∀ e ∈ outputEntries m, 10 ∉ e := by
  have hf := outputEntries_forall2 m
  have hk : ∀ k ∈ outputKeys m, 10 ∉ k := by
    intro k hk
    obtain ⟨e, he, rfl⟩ := List.mem_map.1 ((sortStrings_perm _).subset hk)
    exact h e he
  revert hf hk
  generalize outputKeys m = ks
  generalize outputEntries m = es
  intro hf
  induction hf with
  | nil => intro _ e he; simp at he
  | cons hhead _ ih =>
    intro hk e he
    obtain ⟨s, _, hs⟩ := hhead
    rcases List.mem_cons.1 he with e1 | e1
    · rw [e1, hs]
      exact formatEntry_no_newline _ _ _ _ _ (hk _ (by simp))
    · exact ih (fun k hk1 => hk k (by simp [hk1])) e e1

end r08

/-- C17: the text that `Calculate` writes for a merged map of n keys is an
opening brace, the n entries `key=min/avg/max` in the order of the sorted keys
with the separator `", "` between consecutive entries only (n - 1 separators,
none for n at most 1), a closing brace and one newline; for n = 0 it is the
two braces and a newline; and when no key contains a newline the newline at
the end is the only one. -/
theorem C17_output_shape (measurements : List (List Nat × r08.stats)) :
    r08.formatOutput measurements
        = [123] ++ List.intercalate [44, 32] (r08.outputEntries measurements) ++ [125, 10] ∧
      (r08.outputEntries measurements).length = measurements.length ∧
      (List.intercalate [44, 32] (r08.outputEntries measurements)).length
        = ((r08.outputEntries measurements).map List.length).sum
          + 2 * (measurements.length - 1) ∧
      List.Forall₂ (fun k e => ∃ s, r08.lookup measurements k = some s ∧
          e = k ++ [61] ++ fmt1 (F64.ofInt (Int.tdiv s.min 10)) ++ [47] ++
            fmt1 (F64.div (F64.div (F64.ofInt s.sum) (F64.ofInt s.count)) (F64.ofInt 10)) ++
            [47] ++ fmt1 (F64.div (F64.ofInt s.max) (F64.ofInt 10)))
        (r08.outputKeys measurements) (r08.outputEntries measurements) ∧
      (measurements = [] → r08.formatOutput measurements = [123, 125, 10]) ∧
      ((∀ e ∈ measurements, 10 ∉ e.1) →
        10 ∉ [123] ++ List.intercalate [44, 32] (r08.outputEntries measurements) ++ [125]) := by
  refine ⟨?_, r08.outputEntries_length _, ?_, r08.outputEntries_forall2 _, ?_, ?_⟩
  · rw [r08.formatOutput_eq, joinEntries_eq_intercalate]
  · rw [← joinEntries_eq_intercalate, joinEntries_length, r08.outputEntries_length]
  · intro h; rw [h]; rfl
  · intro h hm
    rw [← joinEntries_eq_intercalate] at hm
    simp only [List.mem_append, List.mem_singleton] at hm
    rcases hm with (hm | hm) | hm
    · omega
    · exact joinEntries_no_newline _ (r08.outputEntries_no_newline _ h) hm
    · omega

/-- C17 at the merged map of the example of the specification. -/
theorem C17_output_shape_witness :
    r08.formatOutput (r08.mergeAll exampleResults) = exampleOutput ∧
      (r08.outputEntries (r08.mergeAll exampleResults)).length
        = (r08.mergeAll exampleResults).length ∧
      r08.formatOutput (r08.mergeAll exampleResults)
        = [123] ++ List.intercalate [44, 32] (r08.outputEntries (r08.mergeAll exampleResults))
          ++ [125, 10] :=
  ⟨rfl, (C17_output_shape (r08.mergeAll exampleResults)).2.1,
    (C17_output_shape (r08.mergeAll exampleResults)).1⟩

/-! ## The table of `internal/lphash` -/

namespace lphash

theorem numBuckets_val : numBuckets = 131072 := by decide

theorem numBuckets_eq_r08 : numBuckets = r08.numBuckets := rfl

theorem nextIndex_eq_r08 (i : Nat) : nextIndex i = r08.nextIndex i := rfl

theorem hashIndexOf_lt_numBuckets (k : List Nat) : hashIndexOf k < r08.numBuckets := by
  have h : hashIndexOf k ≤ numBuckets - 1 := Nat.and_le_right
  rw [numBuckets_val] at h
  rw [r08.numBuckets_eq]
  omega

theorem keyView_none (items : Nat → Option hashItem) (i : Nat) :
    keyView items i = none ↔ items i = none := by
  unfold keyView
  cases items i <;> simp

theorem keyView_some (items : Nat → Option hashItem) (i : Nat) (it : hashItem)
    (h : items i = some it) : keyView items i = some ⟨it.Key, ⟨0, 0, 0, 0⟩⟩ := by
  unfold keyView
  rw [h]; rfl

theorem keyView_update (items : Nat → Option hashItem) (j : Nat) (it : hashItem) :
    keyView (fun i => if i = j then some it else items i) =
      fun i => if i = j then some ⟨it.Key, ⟨0, 0, 0, 0⟩⟩ else keyView items i := by
  funext i
  unfold keyView
  by_cases h : i = j
  · simp [h]
  · simp [h]

theorem keyView_update_same (items : Nat → Option hashItem) (j : Nat) (it0 : hashItem)
    (s : Stats) (h : items j = some it0) :
    keyView (fun i => if i = j then some ⟨it0.Key, s⟩ else items i) = keyView items := by
  funext i
  unfold keyView
  by_cases hi : i = j
  · subst hi; simp [h]
  · simp [hi]

theorem insertLoop_probe (ht : Table) (k : List Nat) (v : Int) (fuel : Nat) :
    ∀ idx, insertLoop ht k v fuel idx =
      match r08.probe (keyView ht.items) k fuel idx with
      | none => .running
      | some j => .ok (insertAt ht k v j) := by
  induction fuel with
  | zero => intro idx; rfl
  | succ f ih =>
    intro idx
    simp only [insertLoop, r08.probe]
    cases hi : ht.items idx with
    | none =>
      have hv : keyView ht.items idx = none := (keyView_none _ _).2 hi
      simp [hv, insertAt, hi]
    | some it =>
      rw [keyView_some _ _ _ hi]
      simp only
      by_cases hk : it.Key = k
      · simp [hk, hi, insertAt]
      · simp only [if_neg hk]
        rw [nextIndex_eq_r08]
        exact ih _

/-- A call of `InsertOrUpdate` never raises a failure. -/
theorem InsertOrUpdate_ne_fatal (ht : Table) (k : List Nat) (v : Int) (fuel : Nat)
    (msg : String) : InsertOrUpdate ht k v fuel ≠ .fatal msg := by
  unfold InsertOrUpdate
  rw [insertLoop_probe]
  cases r08.probe (keyView ht.items) k fuel (hashIndexOf k) <;> simp

theorem probe_stop_slot (items : Nat → Option hashItem) (k : List Nat) (fuel idx j : Nat)
    (h : r08.probe (keyView items) k fuel idx = some j) :
    items j = none ∨ ∃ it, items j = some it ∧ it.Key = k := by
  rcases r08.probe_stop _ _ _ _ _ h with h0 | ⟨it1, h0, h1⟩
  · exact Or.inl ((keyView_none _ _).1 h0)
  · right
    cases hj : items j with
    | none => rw [(keyView_none _ _).2 hj] at h0; cases h0
    | some it =>
      rw [keyView_some _ _ _ hj] at h0
      simp only [Option.some.injEq] at h0
      refine ⟨it, rfl, ?_⟩
      rw [← h1, ← h0]

theorem WF_NewTable : WF NewTable := by
  refine ⟨?_, ?_, ?_⟩
  · intro i it h; simp [NewTable] at h
  · intro i it h; simp [NewTable] at h
  · simp [occupied, NewTable]

theorem WF.unique_slot {ht : Table} (h : WF ht) (i j : Nat) (it1 it2 : hashItem)
    (h1 : ht.items i = some it1) (h2 : ht.items j = some it2) (hk : it1.Key = it2.Key) :
    i = j := by
  have e1 := h.found i it1 h1
  have e2 := h.found j it2 h2
  rw [hk, e2] at e1
  exact (Option.some.inj e1).symm

theorem WF.exists_free_slot {ht : Table} (h : WF ht) (hsz : ht.size < numBuckets) :
    ∃ e, e < numBuckets ∧ ht.items e = none := by
  by_contra hne
  push_neg at hne
  have hall : occupied ht = Finset.range numBuckets := by
    unfold occupied
    apply Finset.filter_true_of_mem
    intro i hi
    have := hne i (Finset.mem_range.1 hi)
    cases hx : ht.items i with
    | none => exact absurd hx this
    | some it => rfl
  have hc := h.card
  rw [hall, Finset.card_range] at hc
  omega

theorem insertAt_WF (ht : Table) (k : List Nat) (v : Int) (j : Nat) (h : WF ht)
    (hp : r08.probe (keyView ht.items) k numBuckets (hashIndexOf k) = some j) :
    WF (insertAt ht k v j) := by
  have hjlt : j < numBuckets := r08.probe_lt _ _ _ _ _ (hashIndexOf_lt_numBuckets k) hp
  unfold insertAt
  cases hj : ht.items j with
  | none =>
    simp only
    refine ⟨?_, ?_, ?_⟩
    · intro i it hi
      simp only at hi
      by_cases hij : i = j
      · rw [hij]; exact hjlt
      · rw [if_neg hij] at hi; exact h.inRange i it hi
    · intro i it hi
      simp only at hi ⊢
      rw [keyView_update]
      by_cases hij : i = j
      · rw [if_pos hij] at hi
        simp only [Option.some.injEq] at hi
        subst hi
        rw [hij]
        exact r08.probe_update_self _ _ _ _ _ _ hp
      · rw [if_neg hij] at hi
        exact r08.probe_update_other _ _ _ _ _ ((keyView_none _ _).2 hj) hij _ _
          (h.found i it hi)
    · have hocc : occupied ⟨fun i => if i = j then some ⟨k, ⟨v, v, v, 1⟩⟩ else ht.items i,
          ht.size + 1⟩ = insert j (occupied ht) := by
        ext i
        simp only [occupied, Finset.mem_filter, Finset.mem_range, Finset.mem_insert]
        by_cases hij : i = j
        · subst hij; simp [hjlt]
        · simp [hij]
      have hnot : j ∉ occupied ht := by simp [occupied, hj]
      rw [hocc, Finset.card_insert_of_not_mem hnot, h.card]
  | some it0 =>
    simp only
    refine ⟨?_, ?_, ?_⟩
    · intro i it hi
      simp only at hi
      by_cases hij : i = j
      · rw [hij]; exact hjlt
      · rw [if_neg hij] at hi; exact h.inRange i it hi
    · intro i it hi
      simp only at hi ⊢
      rw [keyView_update_same _ _ _ _ hj]
      by_cases hij : i = j
      · rw [if_pos hij] at hi
        simp only [Option.some.injEq] at hi
        subst hi
        rw [hij]
        exact h.found j it0 hj
      · rw [if_neg hij] at hi
        exact h.found i it hi
    · have hocc : occupied ⟨fun i => if i = j then
          some (⟨it0.Key, ⟨if v < it0.Stats.Min then v else it0.Stats.Min,
            if v > it0.Stats.Max then v else it0.Stats.Max,
            wrap32 (it0.Stats.Sum + v), wrap64 (it0.Stats.Count + 1)⟩⟩ : hashItem)
          else ht.items i, ht.size⟩ = occupied ht := by
        ext i
        simp only [occupied, Finset.mem_filter, Finset.mem_range]
        by_cases hij : i = j
        · subst hij; simp [hj]
        · simp [hij]
      rw [hocc]; exact h.card

end lphash

namespace lphash

theorem foldStats_snoc (vs : List Int) (v : Int) :
    foldStats (vs ++ [v]) = foldStep (foldStats vs) v := by
  simp [foldStats, List.foldl_append]

theorem InsertOrUpdate_eq_insertAt (ht : Table) (k : List Nat) (v : Int) (fuel j : Nat)
    (hfuel : numBuckets ≤ fuel)
    (hp : r08.probe (keyView ht.items) k numBuckets (hashIndexOf k) = some j) :
    InsertOrUpdate ht k v fuel = .ok (insertAt ht k v j) := by
  unfold InsertOrUpdate
  rw [insertLoop_probe, r08.probe_mono _ _ _ _ _ hp fuel hfuel]

/-- Probing for a key stops when the key is stored or a slot is empty. -/
theorem WF.probe_stops {ht : Table} (hwf : WF ht) (prev : List (List Nat × Int))
    (hag : Agrees ht prev) (k : List Nat)
    (h : k ∈ prev.map (fun c => c.1) ∨ distinctKeys prev < numBuckets) :
    ∃ j, r08.probe (keyView ht.items) k numBuckets (hashIndexOf k) = some j := by
  by_cases hk : k ∈ prev.map (fun c => c.1)
  · obtain ⟨i, it, hi, hik⟩ := (hag.present k).1 hk
    have := hwf.found i it hi
    rw [hik] at this
    exact ⟨i, this⟩
  · have hlt : distinctKeys prev < numBuckets := h.resolve_left hk
    obtain ⟨e, he, hnone⟩ := hwf.exists_free_slot (by rw [hag.size]; exact hlt)
    refine r08.probe_total (keyView ht.items) k e he ((keyView_none _ _).2 hnone) _
      (hashIndexOf k) numBuckets (hashIndexOf_lt_numBuckets k) rfl ?_
    exact Nat.mod_lt _ (by rw [r08.numBuckets_eq]; omega)

/-- One `InsertOrUpdate` call on a well-formed table that agrees with the
calls made so far, when the key is stored or a slot is empty: it returns a
table that agrees with the calls including this one. -/
theorem InsertOrUpdate_step (ht : Table) (prev : List (List Nat × Int)) (k : List Nat) (v : Int)
    (fuel : Nat) (hfuel : numBuckets ≤ fuel) (hwf : WF ht) (hag : Agrees ht prev)
    (h : k ∈ prev.map (fun c => c.1) ∨ distinctKeys prev < numBuckets) :
    ∃ ht1, InsertOrUpdate ht k v fuel = .ok ht1 ∧ WF ht1 ∧ Agrees ht1 (prev ++ [(k, v)]) := by
  obtain ⟨j, hp⟩ := hwf.probe_stops prev hag k h
  rw [InsertOrUpdate_eq_insertAt ht k v fuel j hfuel hp]
  refine ⟨_, rfl, insertAt_WF ht k v j hwf hp, ?_⟩
  unfold insertAt
  cases hj : ht.items j with
  | none =>
    have hknot : k ∉ prev.map (fun c => c.1) := by
      intro hk
      obtain ⟨i, it, hi, hik⟩ := (hag.present k).1 hk
      have := hwf.found i it hi
      rw [hik, hp] at this
      rw [← Option.some.inj this, hj] at hi
      cases hi
    simp only
    refine ⟨?_, ?_, ?_⟩
    · intro i it hi
      simp only at hi
      rw [r08.valuesOf_append_single]
      by_cases hij : i = j
      · rw [if_pos hij] at hi
        simp only [Option.some.injEq] at hi
        subst hi
        simp only [if_true]
        rw [foldStats_snoc, r08.valuesOf_eq_nil prev k hknot]
        rfl
      · rw [if_neg hij] at hi
        have hne : k ≠ it.Key := by
          intro e
          apply hknot
          rw [e]
          exact (hag.present it.Key).2 ⟨i, it, hi, rfl⟩
        rw [if_neg hne]
        exact hag.stat i it hi
    · intro k1
      simp only [List.map_append, List.map_cons, List.map_nil, List.mem_append,
        List.mem_singleton]
      constructor
      · rintro (h1 | h1)
        · obtain ⟨i, it, hi, hik⟩ := (hag.present k1).1 h1
          have hij : i ≠ j := by
            intro e; rw [e, hj] at hi; cases hi
          exact ⟨i, it, by simp only [if_neg hij]; exact hi, hik⟩
        · exact ⟨j, ⟨k, ⟨v, v, v, 1⟩⟩, by simp, h1.symm⟩
      · rintro ⟨i, it, hi, hik⟩
        by_cases hij : i = j
        · rw [if_pos hij] at hi
          simp only [Option.some.injEq] at hi
          subst hi
          right; exact hik.symm
        · rw [if_neg hij] at hi
          left; exact (hag.present k1).2 ⟨i, it, hi, hik⟩
    · simp only
      rw [r08.distinctKeys_append_single, if_neg hknot, hag.size]
  | some it0 =>
    have hk0 : it0.Key = k := by
      rcases probe_stop_slot _ _ _ _ _ hp with h0 | ⟨it, h0, h1⟩
      · rw [hj] at h0; cases h0
      · rw [hj] at h0
        simp only [Option.some.injEq] at h0
        rw [h0]; exact h1
    have hkin : k ∈ prev.map (fun c => c.1) := (hag.present k).2 ⟨j, it0, hj, hk0⟩
    refine ⟨?_, ?_, ?_⟩
    · intro i it hi
      simp only at hi
      rw [r08.valuesOf_append_single]
      by_cases hij : i = j
      · rw [if_pos hij] at hi
        simp only [Option.some.injEq] at hi
        subst hi
        simp only
        rw [if_pos hk0.symm, foldStats_snoc]
        have := hag.stat j it0 hj
        rw [this]
        rfl
      · rw [if_neg hij] at hi
        have hne : k ≠ it.Key := by
          intro e
          exact hij (hwf.unique_slot i j it it0 hi hj (by rw [hk0, e]))
        rw [if_neg hne]
        exact hag.stat i it hi
    · intro k1
      simp only [List.map_append, List.map_cons, List.map_nil, List.mem_append,
        List.mem_singleton]
      constructor
      · rintro (h1 | h1)
        · obtain ⟨i, it, hi, hik⟩ := (hag.present k1).1 h1
          by_cases hij : i = j
          · subst hij
            rw [hj] at hi
            simp only [Option.some.injEq] at hi
            subst hi
            exact ⟨i, (⟨it0.Key, ⟨if v < it0.Stats.Min then v else it0.Stats.Min,
              if v > it0.Stats.Max then v else it0.Stats.Max,
              wrap32 (it0.Stats.Sum + v), wrap64 (it0.Stats.Count + 1)⟩⟩ : hashItem), by simp, hik⟩
          · exact ⟨i, it, by simp only [if_neg hij]; exact hi, hik⟩
        · exact ⟨j, (⟨it0.Key, ⟨if v < it0.Stats.Min then v else it0.Stats.Min,
              if v > it0.Stats.Max then v else it0.Stats.Max,
              wrap32 (it0.Stats.Sum + v), wrap64 (it0.Stats.Count + 1)⟩⟩ : hashItem), by simp,
            by rw [hk0, h1]⟩
      · rintro ⟨i, it, hi, hik⟩
        by_cases hij : i = j
        · rw [if_pos hij] at hi
          simp only [Option.some.injEq] at hi
          subst hi
          simp only at hik
          left; rw [← hik, hk0]; exact hkin
        · rw [if_neg hij] at hi
          left; exact (hag.present k1).2 ⟨i, it, hi, hik⟩
    · simp only
      rw [r08.distinctKeys_append_single, if_pos hkin, hag.size]

theorem Agrees_NewTable : Agrees NewTable [] := by
  refine ⟨?_, ?_, ?_⟩
  · intro i it h; simp [NewTable] at h
  · intro k; simp [NewTable]
  · simp [NewTable, distinctKeys]

theorem insertAll_agrees (fuel : Nat) (hfuel : numBuckets ≤ fuel) :
    ∀ (rest prev : List (List Nat × Int)) (ht : Table), WF ht → Agrees ht prev →
      distinctKeys (prev ++ rest) ≤ numBuckets →
      ∃ ht1, insertAll fuel rest ht = .ok ht1 ∧ WF ht1 ∧ Agrees ht1 (prev ++ rest) := by
  intro rest
  induction rest with
  | nil =>
    intro prev ht hwf hag _
    exact ⟨ht, rfl, hwf, by simpa using hag⟩
  | cons c rest ih =>
    intro prev ht hwf hag hd
    obtain ⟨k, v⟩ := c
    have hd1 : distinctKeys (prev ++ [(k, v)]) ≤ numBuckets := by
      have := r08.distinctKeys_mono (prev ++ [(k, v)]) rest
      simp only [List.append_assoc, List.singleton_append] at this
      omega
    have hcond : k ∈ prev.map (fun c => c.1) ∨ distinctKeys prev < numBuckets := by
      by_cases hk : k ∈ prev.map (fun c => c.1)
      · exact Or.inl hk
      · right
        rw [r08.distinctKeys_append_single, if_neg hk] at hd1
        omega
    obtain ⟨ht1, h1, hwf1, h2⟩ := InsertOrUpdate_step ht prev k v fuel hfuel hwf hag hcond
    obtain ⟨ht2, e1, e2, e3⟩ := ih (prev ++ [(k, v)]) ht1 hwf1 h2 (by simpa using hd)
    refine ⟨ht2, ?_, e2, by simpa using e3⟩
    simp only [insertAll, h1]
    exact e1

/-- Probing a table whose slots are all occupied, for a key that none of them
holds, never stops. -/
theorem probe_full (items : Nat → Option r08.item) (k : List Nat)
    (hfull : ∀ i, i < r08.numBuckets → ∃ it, items i = some it ∧ it.key ≠ k) (fuel : Nat) :
    ∀ idx, idx < r08.numBuckets → r08.probe items k fuel idx = none := by
  induction fuel with
  | zero => intro idx _; rfl
  | succ f ih =>
    intro idx hidx
    obtain ⟨it, hi, hne⟩ := hfull idx hidx
    simp only [r08.probe, hi, if_neg hne]
    exact ih _ (r08.nextIndex_lt idx)

/-- On a table that holds `numBuckets` keys, a call of `InsertOrUpdate` with
a key that is not stored does not return, whatever the fuel. -/
theorem InsertOrUpdate_full (ht : Table) (prev : List (List Nat × Int)) (k : List Nat)
    (v : Int) (hwf : WF ht) (hag : Agrees ht prev) (hk : k ∉ prev.map (fun c => c.1))
    (hfull : distinctKeys prev = numBuckets) (fuel : Nat) :
    InsertOrUpdate ht k v fuel = .running := by
  have hall : ∀ i, i < numBuckets → ∃ it, ht.items i = some it := by
    intro i hi
    by_contra hne
    have hnone : ht.items i = none := by
      cases hx : ht.items i with
      | none => rfl
      | some it => exact absurd ⟨it, hx⟩ hne
    have hsub : occupied ht ⊆ (Finset.range numBuckets).erase i := by
      intro x hx
      simp only [occupied, Finset.mem_filter, Finset.mem_range] at hx
      rw [Finset.mem_erase, Finset.mem_range]
      refine ⟨?_, hx.1⟩
      intro e
      rw [e, hnone] at hx
      simp at hx
    have hc := Finset.card_le_card hsub
    rw [Finset.card_erase_of_mem (Finset.mem_range.2 hi), Finset.card_range, hwf.card,
      hag.size, hfull] at hc
    omega
  unfold InsertOrUpdate
  rw [insertLoop_probe]
  rw [probe_full (keyView ht.items) k ?_ fuel _ (hashIndexOf_lt_numBuckets k)]
  intro i hi
  obtain ⟨it, hit⟩ := hall i hi
  refine ⟨_, keyView_some _ _ _ hit, ?_⟩
  simp only
  intro e
  exact hk ((hag.present k).2 ⟨i, it, hit, e⟩)

end lphash

/-! ## Width of the record fields -/

theorem valuesOf_replicate (n : Nat) (k : List Nat) (v : Int) :
    valuesOf (List.replicate n (k, v)) k = List.replicate n v := by
  induction n with
  | zero => rfl
  | succ n ih =>
    rw [List.replicate_succ, List.replicate_succ]
    unfold valuesOf at ih ⊢
    rw [List.filter_cons_of_pos (by simp), List.map_cons, ih]

theorem keys_replicate (n : Nat) (k : List Nat) (v : Int) :
    (List.replicate n (k, v)).map (fun c => c.1) = List.replicate n k := by
  rw [List.map_replicate]

theorem distinctKeys_replicate_le (n : Nat) (k : List Nat) (v : Int) :
    distinctKeys (List.replicate n (k, v)) ≤ 1 := by
  unfold distinctKeys
  rw [keys_replicate]
  have hsub : (List.replicate n k).toFinset ⊆ {k} := by
    intro x hx
    rw [List.mem_toFinset] at hx
    rw [Finset.mem_singleton]
    exact List.eq_of_mem_replicate hx
  have := Finset.card_le_card hsub
  rwa [Finset.card_singleton] at this

theorem mem_keys_replicate (n : Nat) (hn : 1 ≤ n) (k : List Nat) (v : Int) :
    k ∈ (List.replicate n (k, v)).map (fun c => c.1) := by
  rw [keys_replicate, List.mem_replicate]
  exact ⟨by omega, rfl⟩

theorem sum_replicate_int (n : Nat) (v : Int) : (List.replicate n v).sum = (n : Int) * v := by
  induction n with
  | zero => simp
  | succ n ih =>
    rw [List.replicate_succ, List.sum_cons, ih]
    push_cast
    ring

namespace r08

theorem foldl_foldStep_count (vs : List Int) :
    ∀ (s : stats) (c : Int), s.count = wrap32 c →
      ∃ r, vs.foldl foldStep (some s) = some r ∧ r.count = wrap32 (c + vs.length) := by
  induction vs with
  | nil =>
    intro s c hc
    exact ⟨s, rfl, by simpa using hc⟩
  | cons v vs ih =>
    intro s c hc
    obtain ⟨r, hr, hrc⟩ := ih ⟨min s.min v, max s.max v, wrap32 (s.count + 1), wrap64 (s.sum + v)⟩
      (c + 1) (by simp only; rw [hc, wrap32_add_wrap32])
    refine ⟨r, ?_, ?_⟩
    · rw [List.foldl_cons]
      exact hr
    · rw [hrc, List.length_cons]
      push_cast
      congr 1
      ring

/-- The count of a record is the number of folded values, reduced to `int32`. -/
theorem foldStats_count (vs : List Int) (hne : vs ≠ []) :
    ∃ r, foldStats vs = some r ∧ r.count = wrap32 vs.length := by
  cases vs with
  | nil => exact absurd rfl hne
  | cons v vs =>
    have h1 : (1 : Int) = wrap32 1 := by decide
    obtain ⟨r, hr, hrc⟩ := foldl_foldStep_count vs ⟨v, v, 1, v⟩ 1 h1
    refine ⟨r, ?_, ?_⟩
    · unfold foldStats
      rw [List.foldl_cons]
      exact hr
    · rw [hrc, List.length_cons]
      push_cast
      congr 1
      ring

theorem foldl_foldStep_zero (n : Nat) :
    ∀ c : Int, (List.replicate n (0 : Int)).foldl foldStep (some ⟨0, 0, wrap32 c, 0⟩)
      = some ⟨0, 0, wrap32 (c + n), 0⟩ := by
  induction n with
  | zero => intro c; simp
  | succ n ih =>
    intro c
    rw [List.replicate_succ, List.foldl_cons]
    have h : foldStep (some ⟨0, 0, wrap32 c, 0⟩) 0 = some ⟨0, 0, wrap32 (c + 1), 0⟩ := by
      simp only [foldStep, wrap32_add_wrap32]
      rfl
    rw [h, ih (c + 1)]
    push_cast
    congr 3
    ring

/-- Folding `n ≥ 1` values `0` gives the record with count `n` reduced to
`int32`. -/
theorem foldStats_replicate_zero (n : Nat) (hn : 1 ≤ n) :
    foldStats (List.replicate n (0 : Int)) = some ⟨0, 0, wrap32 n, 0⟩ := by
  obtain ⟨m, rfl⟩ : ∃ m, n = m + 1 := ⟨n - 1, by omega⟩
  unfold foldStats
  rw [List.replicate_succ, List.foldl_cons]
  have h : foldStep none 0 = some ⟨0, 0, wrap32 1, 0⟩ := rfl
  rw [h, foldl_foldStep_zero m 1]
  push_cast
  congr 3
  ring

end r08

/-- C18 fails at 2^31 calls with one key: every call returns, and the count
of the record is `-2147483648`, not the number `2147483648` of calls. -/
theorem C18_count_wraps_after_2_31_calls :
    (List.replicate 2147483648 (ascii "a", (0 : Int))).length = 2147483648 ∧
      ∃ ht, r08.insertAll r08.numBuckets (List.replicate 2147483648 (ascii "a", (0 : Int)))
          r08.newHashTable = .ok ht ∧
        r08.get ht (ascii "a") r08.numBuckets = .ok (some ⟨0, 0, -2147483648, 0⟩) := by
  refine ⟨List.length_replicate _ _, ?_⟩
  obtain ⟨ht, h1, hwf, hag⟩ := r08.insertAll_spec r08.numBuckets le_rfl
    (List.replicate 2147483648 (ascii "a", (0 : Int))) [] r08.newHashTable
    r08.WF_new r08.Agrees_new (by
      rw [r08.initialBucketSize_eq, List.nil_append]
      exact le_trans (distinctKeys_replicate_le _ _ _) (by omega))
  rw [List.nil_append] at hag
  refine ⟨ht, h1, ?_⟩
  rw [r08.get_spec ht _ (ascii "a") r08.numBuckets le_rfl hwf hag, valuesOf_replicate,
    r08.foldStats_replicate_zero 2147483648 (by omega)]
  rfl

/-- C18, amended: the count of an r08 record is an `int32`.  After any
sequence of calls on a fresh table that uses at most 65536 distinct keys,
every call has returned and the record of a key `k` that was passed has as
count the number of calls made with `k` reduced to `int32`; when `k` was
passed fewer than 2^31 times the count is that number, and at least 1. -/
theorem C18_count_is_int32 (calls : List (List Nat × Int)) (fuel : Nat)
    (hfuel : r08.numBuckets ≤ fuel) (hkeys : distinctKeys calls ≤ 65536) (k : List Nat)
    (hk : k ∈ calls.map (fun c => c.1)) :
    ∃ ht s, r08.insertAll fuel calls r08.newHashTable = .ok ht ∧
      r08.get ht k fuel = .ok (some s) ∧
      s.count = wrap32 (valuesOf calls k).length ∧
      ((valuesOf calls k).length < 2147483648 →
        s.count = (valuesOf calls k).length ∧ 1 ≤ s.count) := by
  obtain ⟨ht, h1, hwf, hag⟩ := r08.insertAll_spec fuel hfuel calls [] r08.newHashTable
    r08.WF_new r08.Agrees_new (by rw [r08.initialBucketSize_eq]; simpa using hkeys)
  simp only [List.nil_append] at hag
  have hne := r08.valuesOf_ne_nil calls k hk
  obtain ⟨s, hs, hc⟩ := r08.foldStats_count (valuesOf calls k) hne
  refine ⟨ht, s, h1, by rw [r08.get_spec ht calls k fuel hfuel hwf hag, hs], hc, ?_⟩
  intro hlt
  have hpos : 1 ≤ (valuesOf calls k).length := by
    cases hv : valuesOf calls k with
    | nil => exact absurd hv hne
    | cons a l => simp
  have hid : wrap32 ((valuesOf calls k).length : Int) = (valuesOf calls k).length :=
    r08.wrap32_id _ (by omega) (by omega)
  rw [hc, hid]
  exact ⟨rfl, by omega⟩

/-- C18 (amended) at the calls `a:10, b:-5, a:7` and the key `a`. -/
theorem C18_count_is_int32_witness :
    ∃ ht s, r08.insertAll r08.numBuckets exampleCalls r08.newHashTable = .ok ht ∧
      r08.get ht (ascii "a") r08.numBuckets = .ok (some s) ∧
      s.count = wrap32 (valuesOf exampleCalls (ascii "a")).length ∧
      ((valuesOf exampleCalls (ascii "a")).length < 2147483648 →
        s.count = (valuesOf exampleCalls (ascii "a")).length ∧ 1 ≤ s.count) :=
  C18_count_is_int32 exampleCalls r08.numBuckets le_rfl (by decide) (ascii "a") (by decide)

namespace lphash

theorem mem_Iterate (ht : Table) (k : List Nat) (st : Stats) :
    (k, st) ∈ Iterate ht ↔
      ∃ i it, i < numBuckets ∧ ht.items i = some it ∧ it.Key = k ∧ it.Stats = st := by
  unfold Iterate
  rw [List.mem_filterMap]
  constructor
  · rintro ⟨i, hi, h⟩
    cases hx : ht.items i with
    | none => rw [hx] at h; cases h
    | some it =>
      rw [hx] at h
      simp only [Option.map_some', Option.some.injEq, Prod.mk.injEq] at h
      exact ⟨i, it, List.mem_range.1 hi, hx, h.1, h.2⟩
  · rintro ⟨i, it, hi, hx, h1, h2⟩
    refine ⟨i, List.mem_range.2 hi, ?_⟩
    rw [hx, ← h1, ← h2]
    rfl

theorem foldl_foldStep_sum (vs : List Int) :
    ∀ (s : Stats) (c : Int), s.Sum = wrap32 c →
      ∃ r, vs.foldl foldStep (some s) = some r ∧ r.Sum = wrap32 (c + vs.sum) := by
  induction vs with
  | nil =>
    intro s c hc
    exact ⟨s, rfl, by simpa using hc⟩
  | cons v vs ih =>
    intro s c hc
    obtain ⟨r, hr, hrc⟩ := ih ⟨if v < s.Min then v else s.Min, if v > s.Max then v else s.Max,
      wrap32 (s.Sum + v), wrap64 (s.Count + 1)⟩ (c + v)
      (by simp only; rw [hc, r08.wrap32_add_wrap32])
    refine ⟨r, ?_, ?_⟩
    · rw [List.foldl_cons]
      exact hr
    · rw [hrc, List.sum_cons]
      congr 1
      ring

/-- The `Sum` of a record is the sum of the folded `int32` values, reduced to
`int32`. -/
theorem foldStats_sum (vs : List Int) (hne : vs ≠ [])
    (hv : ∀ v ∈ vs, -2147483648 ≤ v ∧ v < 2147483648) :
    ∃ r, foldStats vs = some r ∧ r.Sum = wrap32 vs.sum := by
  cases vs with
  | nil => exact absurd rfl hne
  | cons v vs =>
    obtain ⟨hv1, hv2⟩ := hv v (by simp)
    have h1 : v = wrap32 (0 + v) := by rw [zero_add, r08.wrap32_id v hv1 hv2]
    obtain ⟨r, hr, hrc⟩ := foldl_foldStep_sum vs ⟨v, v, v, 1⟩ (0 + v) h1
    refine ⟨r, ?_, ?_⟩
    · unfold foldStats
      rw [List.foldl_cons]
      exact hr
    · rw [hrc, List.sum_cons, zero_add]

end lphash

theorem keys_fullCalls :
    fullCalls.map (fun c => c.1) = (List.range 131072).map (fun i => List.replicate i 0) := by
  simp [fullCalls, List.map_map, Function.comp_def]

theorem distinctKeys_fullCalls : distinctKeys fullCalls = 131072 := by
  unfold distinctKeys
  rw [keys_fullCalls, List.toFinset_card_of_nodup, List.length_map, List.length_range]
  apply List.Nodup.map _ (List.nodup_range _)
  intro i j h
  have := congrArg List.length h
  simpa using this

theorem new_key_not_in_fullCalls :
    List.replicate 131072 0 ∉ fullCalls.map (fun c => c.1) := by
  rw [keys_fullCalls]
  intro h
  obtain ⟨i, hi, e⟩ := List.mem_map.1 h
  have := congrArg List.length e
  simp only [List.length_replicate] at this
  have hlt := List.mem_range.1 hi
  omega

theorem distinctKeys_manyCalls_succ :
    distinctKeys (manyCalls ++ [(List.replicate 65536 0, (1 : Int))]) = 65537 := by
  rw [r08.distinctKeys_append_single, if_neg r08.new_key_not_in_manyCalls,
    r08.distinctKeys_manyCalls]

/-- C19 fails at 2149634 calls with one key and the value 999: every call
returns, the exact sum of the values is 2147484366, the `Sum` of the record
that `Iterate` returns for the key is `-2147482930`, and the r08 table, whose
`sum` is an `int64`, holds the exact sum after the same calls. -/
theorem C19_lphash_sum_wraps :
    (valuesOf (List.replicate 2149634 (ascii "a", (999 : Int))) (ascii "a")).sum = 2147484366 ∧
      (∃ ht, lphash.insertAll lphash.numBuckets (List.replicate 2149634 (ascii "a", (999 : Int)))
          lphash.NewTable = .ok ht ∧
        (∃ st, (ascii "a", st) ∈ lphash.Iterate ht) ∧
        ∀ st, (ascii "a", st) ∈ lphash.Iterate ht → st.Sum = -2147482930) ∧
      ∃ ht8 s, r08.insertAll r08.numBuckets (List.replicate 2149634 (ascii "a", (999 : Int)))
          r08.newHashTable = .ok ht8 ∧
        r08.get ht8 (ascii "a") r08.numBuckets = .ok (some s) ∧ s.sum = 2147484366 := by
  have hsum : (List.replicate 2149634 (999 : Int)).sum = 2147484366 := by
    rw [sum_replicate_int]; rfl
  have hne : List.replicate 2149634 (999 : Int) ≠ [] := by
    intro e
    have := congrArg List.length e
    rw [List.length_replicate] at this
    exact absurd this (by decide)
  have hvals : ∀ v ∈ List.replicate 2149634 (999 : Int), -2147483648 ≤ v ∧ v < 2147483648 := by
    intro v hv
    rw [List.eq_of_mem_replicate hv]
    decide
  refine ⟨by rw [valuesOf_replicate, hsum], ?_, ?_⟩
  · obtain ⟨ht, h1, hwf, hag⟩ := lphash.insertAll_agrees lphash.numBuckets le_rfl
      (List.replicate 2149634 (ascii "a", (999 : Int))) [] lphash.NewTable
      lphash.WF_NewTable lphash.Agrees_NewTable (by
        rw [lphash.numBuckets_val, List.nil_append]
        exact le_trans (distinctKeys_replicate_le _ _ _) (by omega))
    rw [List.nil_append] at hag
    refine ⟨ht, h1, ?_, ?_⟩
    · obtain ⟨i, it, hi, hik⟩ := (hag.present (ascii "a")).1
        (mem_keys_replicate 2149634 (by omega) (ascii "a") 999)
      exact ⟨it.Stats, (lphash.mem_Iterate ht _ _).2 ⟨i, it, hwf.inRange i it hi, hi, hik, rfl⟩⟩
    · intro st hst
      obtain ⟨i, it, _, hi, hik, hst1⟩ := (lphash.mem_Iterate ht _ _).1 hst
      have h2 := hag.stat i it hi
      rw [hik, valuesOf_replicate] at h2
      obtain ⟨r, hr, hrs⟩ := lphash.foldStats_sum _ hne hvals
      rw [hr] at h2
      rw [← hst1, ← Option.some.inj h2, hrs, hsum]
      rfl
  · obtain ⟨ht, h1, hwf, hag⟩ := r08.insertAll_spec r08.numBuckets le_rfl
      (List.replicate 2149634 (ascii "a", (999 : Int))) [] r08.newHashTable
      r08.WF_new r08.Agrees_new (by
        rw [r08.initialBucketSize_eq, List.nil_append]
        exact le_trans (distinctKeys_replicate_le _ _ _) (by omega))
    rw [List.nil_append] at hag
    obtain ⟨s, hs, _, _, _, _, hs5, _⟩ := r08.foldStats_exact _ hne
      (by rw [List.length_replicate]; omega) hvals
    refine ⟨ht, s, h1, ?_, by rw [hs5, hsum]⟩
    rw [r08.get_spec ht _ (ascii "a") r08.numBuckets le_rfl hwf hag, valuesOf_replicate, hs]

/-- C20 fails: `InsertOrUpdate` never raises a condition; 65537 distinct keys
are all accepted; and on the table filled by 131072 distinct keys a call with
one more key does not return, however many probes it is given. -/
theorem C20_lphash_accepts_and_probes_without_bound :
    (∀ ht k v fuel msg, lphash.InsertOrUpdate ht k v fuel ≠ .fatal msg) ∧
      (∃ ht, lphash.insertAll lphash.numBuckets (manyCalls ++ [(List.replicate 65536 0, 1)])
          lphash.NewTable = .ok ht ∧ ht.size = 65537) ∧
      ∃ ht, lphash.insertAll lphash.numBuckets fullCalls lphash.NewTable = .ok ht ∧
        ∀ fuel, lphash.InsertOrUpdate ht (List.replicate 131072 0) 0 fuel = .running := by
  refine ⟨lphash.InsertOrUpdate_ne_fatal, ?_, ?_⟩
  · obtain ⟨ht, h1, _, hag⟩ := lphash.insertAll_agrees lphash.numBuckets le_rfl
      (manyCalls ++ [(List.replicate 65536 0, 1)]) [] lphash.NewTable
      lphash.WF_NewTable lphash.Agrees_NewTable (by
        rw [lphash.numBuckets_val, List.nil_append, distinctKeys_manyCalls_succ]
        omega)
    rw [List.nil_append] at hag
    exact ⟨ht, h1, by rw [hag.size, distinctKeys_manyCalls_succ]⟩
  · obtain ⟨ht, h1, hwf, hag⟩ := lphash.insertAll_agrees lphash.numBuckets le_rfl
      fullCalls [] lphash.NewTable lphash.WF_NewTable lphash.Agrees_NewTable (by
        rw [lphash.numBuckets_val, List.nil_append, distinctKeys_fullCalls])
    rw [List.nil_append] at hag
    refine ⟨ht, h1, fun fuel => ?_⟩
    exact lphash.InsertOrUpdate_full ht fullCalls _ 0 hwf hag new_key_not_in_fullCalls
      (by rw [distinctKeys_fullCalls, lphash.numBuckets_val]) fuel

/-- C20, amended: `InsertOrUpdate` has no capacity condition.  After any
sequence of calls on a fresh table, a call whose key is already stored, or
that finds fewer than 131072 keys stored (at most 131072 distinct keys
counting its own), stops within 131072 probes and returns with its key
stored; no call raises a condition. -/
theorem C20_probing_stops_while_a_slot_is_free (calls : List (List Nat × Int)) (k : List Nat)
    (v : Int) (fuel : Nat) (hfuel : lphash.numBuckets ≤ fuel)
    (hkeys : distinctKeys (calls ++ [(k, v)]) ≤ 131072) :
    ∃ ht ht1, lphash.insertAll fuel calls lphash.NewTable = .ok ht ∧
      lphash.InsertOrUpdate ht k v lphash.numBuckets = .ok ht1 ∧
      lphash.InsertOrUpdate ht k v fuel = .ok ht1 ∧
      (∃ st, (k, st) ∈ lphash.Iterate ht1) ∧
      ht1.size = distinctKeys (calls ++ [(k, v)]) ∧
      ∀ msg, lphash.InsertOrUpdate ht k v fuel ≠ .fatal msg := by
  have hd := r08.distinctKeys_mono calls [(k, v)]
  obtain ⟨ht, h1, hwf, hag⟩ := lphash.insertAll_agrees fuel hfuel calls [] lphash.NewTable
    lphash.WF_NewTable lphash.Agrees_NewTable (by
      rw [lphash.numBuckets_val, List.nil_append]; omega)
  rw [List.nil_append] at hag
  have hcond : k ∈ calls.map (fun c => c.1) ∨ distinctKeys calls < lphash.numBuckets := by
    by_cases hk : k ∈ calls.map (fun c => c.1)
    · exact Or.inl hk
    · right
      rw [r08.distinctKeys_append_single, if_neg hk] at hkeys
      rw [lphash.numBuckets_val]
      omega
  obtain ⟨j, hp⟩ := hwf.probe_stops calls hag k hcond
  obtain ⟨ht1, e1, hwf1, hag1⟩ := lphash.InsertOrUpdate_step ht calls k v fuel hfuel hwf hag hcond
  have e2 := lphash.InsertOrUpdate_eq_insertAt ht k v lphash.numBuckets j le_rfl hp
  have e3 := lphash.InsertOrUpdate_eq_insertAt ht k v fuel j hfuel hp
  rw [e3] at e1
  rw [Run.ok.injEq] at e1
  rw [e1] at e2 e3
  refine ⟨ht, ht1, h1, e2, e3, ?_, hag1.size, lphash.InsertOrUpdate_ne_fatal ht k v fuel⟩
  obtain ⟨i, it, hi, hik⟩ := (hag1.present k).1 (by simp)
  exact ⟨it.Stats, (lphash.mem_Iterate ht1 _ _).2 ⟨i, it, hwf1.inRange i it hi, hi, hik, rfl⟩⟩

/-- C20 (amended) at the 65536 calls of `manyCalls` followed by a call with
one more key. -/
theorem C20_probing_stops_while_a_slot_is_free_witness :
    ∃ ht ht1, lphash.insertAll lphash.numBuckets manyCalls lphash.NewTable = .ok ht ∧
      lphash.InsertOrUpdate ht (List.replicate 65536 0) 1 lphash.numBuckets = .ok ht1 ∧
      lphash.InsertOrUpdate ht (List.replicate 65536 0) 1 lphash.numBuckets = .ok ht1 ∧
      (∃ st, (List.replicate 65536 0, st) ∈ lphash.Iterate ht1) ∧
      ht1.size = distinctKeys (manyCalls ++ [(List.replicate 65536 0, 1)]) ∧
      ∀ msg, lphash.InsertOrUpdate ht (List.replicate 65536 0) 1 lphash.numBuckets
        ≠ .fatal msg :=
  C20_probing_stops_while_a_slot_is_free manyCalls (List.replicate 65536 0) 1 lphash.numBuckets
    le_rfl (le_trans (le_of_eq distinctKeys_manyCalls_succ) (by decide))

/-! ## Traversal, termination and frame of the r08 table -/

namespace r08

theorem insertOrUpdate_probe (ht ht1 : hashTable) (k : List Nat) (v : Int) (fuel : Nat)
    (hins : insertOrUpdate ht k v fuel = .ok ht1) :
    ∃ j, probe ht.items k fuel (hashIndexOf k) = some j ∧ insertAt ht k v j = .ok ht1 := by
  unfold insertOrUpdate at hins
  rw [insertLoop_eq_probe] at hins
  cases hp : probe ht.items k fuel (hashIndexOf k) with
  | none => rw [hp] at hins; cases hins
  | some j => rw [hp] at hins; exact ⟨j, rfl, hins⟩

/-- A call that returns with some fuel returns the same table with more. -/
theorem insertOrUpdate_fuel_mono (ht ht1 : hashTable) (k : List Nat) (v : Int) (fuel fuel1 : Nat)
    (hins : insertOrUpdate ht k v fuel = .ok ht1) (hle : fuel ≤ fuel1) :
    insertOrUpdate ht k v fuel1 = .ok ht1 := by
  obtain ⟨j, hp, hat⟩ := insertOrUpdate_probe ht ht1 k v fuel hins
  unfold insertOrUpdate
  rw [insertLoop_eq_probe, probe_mono _ _ _ _ _ hp fuel1 hle]
  exact hat

theorem insertAt_ok (ht ht1 : hashTable) (k : List Nat) (v : Int) (j : Nat)
    (h : insertAt ht k v j = .ok ht1) :
    (ht.items j = none ∧ ht1.size = ht.size + 1 ∧ ht1.items j = some ⟨k, ⟨v, v, 1, v⟩⟩ ∧
        ∀ i, i ≠ j → ht1.items i = ht.items i) ∨
      (∃ it0, ht.items j = some it0 ∧ ht1.size = ht.size ∧
        ht1.items j = some ⟨it0.key, ⟨min it0.stat.min v, max it0.stat.max v,
          wrap32 (it0.stat.count + 1), wrap64 (it0.stat.sum + v)⟩⟩ ∧
        ∀ i, i ≠ j → ht1.items i = ht.items i) := by
  unfold insertAt at h
  cases hj : ht.items j with
  | none =>
    rw [hj] at h
    simp only at h
    by_cases hsz : ht.size + 1 > initialBucketSize
    · rw [if_pos hsz] at h; cases h
    · rw [if_neg hsz, Run.ok.injEq] at h
      subst h
      exact Or.inl ⟨rfl, rfl, by simp, fun i hi => by simp [hi]⟩
  | some it0 =>
    rw [hj] at h
    simp only [Run.ok.injEq] at h
    subst h
    exact Or.inr ⟨it0, rfl, rfl, by simp, fun i hi => by simp [hi]⟩

theorem insertAt_ne_running (ht : hashTable) (k : List Nat) (v : Int) (j : Nat) :
    insertAt ht k v j ≠ .running := by
  intro h
  unfold insertAt at h
  cases hj : ht.items j with
  | none =>
    rw [hj] at h
    simp only at h
    by_cases hsz : ht.size + 1 > initialBucketSize
    · rw [if_pos hsz] at h; cases h
    · rw [if_neg hsz] at h; cases h
  | some it0 =>
    rw [hj] at h
    cases h

/-- In a well-formed table `get` returns the record of a stored key. -/
theorem get_stored (ht : hashTable) (hwf : WF ht) (fuel : Nat) (hfuel : numBuckets ≤ fuel)
    (i : Nat) (it : item) (hi : ht.items i = some it) :
    get ht it.key fuel = .ok (some it.stat) := by
  rw [get_eq_of_probe ht it.key fuel i hfuel (hwf.found i it hi), hi]
  rfl

/-- In a well-formed table `get` returns nil for a key that no slot holds. -/
theorem get_absent (ht : hashTable) (hwf : WF ht) (fuel : Nat) (hfuel : numBuckets ≤ fuel)
    (k : List Nat) (hk : ∀ i it, ht.items i = some it → it.key ≠ k) :
    get ht k fuel = .ok none := by
  obtain ⟨j, hp⟩ := hwf.probe_some k
  rw [get_eq_of_probe ht k fuel j hfuel hp]
  rcases probe_stop _ _ _ _ _ hp with h0 | ⟨it, h0, h1⟩
  · rw [h0]; rfl
  · exact absurd h1 (hk j it h0)

theorem get_some_iff (ht : hashTable) (hwf : WF ht) (fuel : Nat) (hfuel : numBuckets ≤ fuel)
    (k : List Nat) (s : stats) :
    get ht k fuel = .ok (some s) ↔ ∃ i, ht.items i = some ⟨k, s⟩ := by
  constructor
  · intro h
    obtain ⟨j, hp⟩ := hwf.probe_some k
    rw [get_eq_of_probe ht k fuel j hfuel hp] at h
    rcases probe_stop _ _ _ _ _ hp with h0 | ⟨it, h0, h1⟩
    · rw [h0] at h; cases h
    · rw [h0] at h
      simp only [Option.map_some', Run.ok.injEq, Option.some.injEq] at h
      refine ⟨j, ?_⟩
      rw [h0, ← h1, ← h]
  · rintro ⟨i, hi⟩
    exact get_stored ht hwf fuel hfuel i ⟨k, s⟩ hi

/-- The frame of an insertion: `get` for another key is unchanged. -/
theorem get_frame (ht ht1 : hashTable) (k : List Nat) (v : Int) (fuel : Nat) (hwf : WF ht)
    (hins : insertOrUpdate ht k v fuel = .ok ht1) (k1 : List Nat) (hne : k1 ≠ k) (fuel1 : Nat)
    (hfuel : numBuckets ≤ fuel1) : get ht1 k1 fuel1 = get ht k1 fuel1 := by
  have hwf1 := WF_insertOrUpdate ht ht1 k v fuel hwf hins
  obtain ⟨j, hp, hat⟩ := insertOrUpdate_probe ht ht1 k v fuel hins
  have hkj : ∀ it, ht.items j = some it → it.key = k := by
    intro it hit
    rcases probe_stop _ _ _ _ _ hp with h0 | ⟨it1, h0, h1⟩
    · rw [h0] at hit; cases hit
    · rw [h0] at hit
      rw [← Option.some.inj hit]; exact h1
  have hframe : (∀ i, i ≠ j → ht1.items i = ht.items i) ∧
      ∃ it1, ht1.items j = some it1 ∧ it1.key = k := by
    rcases insertAt_ok ht ht1 k v j hat with ⟨_, _, h3, h4⟩ | ⟨it0, h1, _, h3, h4⟩
    · exact ⟨h4, _, h3, rfl⟩
    · exact ⟨h4, _, h3, hkj it0 h1⟩
  obtain ⟨hother, it1, hj1, hk1⟩ := hframe
  by_cases hex : ∃ i it, ht.items i = some it ∧ it.key = k1
  · obtain ⟨i, it, hi, hik⟩ := hex
    have hij : i ≠ j := by
      intro e
      rw [e] at hi
      exact hne (by rw [← hik, hkj it hi])
    have h1 := get_stored ht hwf fuel1 hfuel i it hi
    have h2 := get_stored ht1 hwf1 fuel1 hfuel i it (by rw [hother i hij]; exact hi)
    rw [hik] at h1 h2
    rw [h1, h2]
  · have habs : ∀ i it, ht.items i = some it → it.key ≠ k1 :=
      fun i it hi e => hex ⟨i, it, hi, e⟩
    have habs1 : ∀ i it, ht1.items i = some it → it.key ≠ k1 := by
      intro i it hi e
      by_cases hij : i = j
      · rw [hij, hj1] at hi
        rw [← Option.some.inj hi, hk1] at e
        exact hne e.symm
      · rw [hother i hij] at hi
        exact habs i it hi e
    rw [get_absent ht hwf fuel1 hfuel k1 habs, get_absent ht1 hwf1 fuel1 hfuel k1 habs1]

/-- The tables that a sequence of calls which all return builds agree with
the calls, whatever the fuel the calls were given. -/
theorem agrees_of_insertAll (fuel : Nat) :
    ∀ (calls prev : List (List Nat × Int)) (ht ht1 : hashTable), WF ht → Agrees ht prev →
      insertAll fuel calls ht = .ok ht1 → WF ht1 ∧ Agrees ht1 (prev ++ calls) := by
  intro calls
  induction calls with
  | nil =>
    intro prev ht ht1 hwf hag e
    simp only [insertAll, Run.ok.injEq] at e
    subst e
    exact ⟨hwf, by simpa using hag⟩
  | cons c rest ih =>
    intro prev ht ht1 hwf hag e
    obtain ⟨k, v⟩ := c
    simp only [insertAll] at e
    cases h1 : insertOrUpdate ht k v fuel with
    | fatal msg => rw [h1] at e; cases e
    | running => rw [h1] at e; cases e
    | ok ht2 =>
      rw [h1] at e
      simp only at e
      have hwf2 := WF_insertOrUpdate ht ht2 k v fuel hwf h1
      have h2 := insertOrUpdate_fuel_mono ht ht2 k v fuel (max fuel numBuckets) h1
        (le_max_left _ _)
      have hag2 : Agrees ht2 (prev ++ [(k, v)]) := by
        rcases insert_step ht prev k v (max fuel numBuckets) (le_max_right _ _) hwf hag with
          ⟨_, _, h3⟩ | ⟨_, ht3, h3, h4⟩
        · rw [h2] at h3; cases h3
        · rw [h2, Run.ok.injEq] at h3
          rw [h3]; exact h4
      obtain ⟨e1, e2⟩ := ih (prev ++ [(k, v)]) ht2 ht1 hwf2 hag2 e
      exact ⟨e1, by simpa using e2⟩

theorem length_filterMap_range {β : Type} (f : Nat → Option β) (n : Nat) :
    ((List.range n).filterMap f).length
      = ((Finset.range n).filter (fun i => (f i).isSome = true)).card := by
  induction n with
  | zero => simp
  | succ n ih =>
    rw [List.range_succ, List.filterMap_append, List.length_append, ih, Finset.range_succ,
      Finset.filter_insert]
    cases hf : f n with
    | none => simp [hf]
    | some b =>
      have h1 : (List.filterMap f [n]).length = 1 := by simp [hf]
      simp only [hf, Option.isSome_some, if_true]
      rw [Finset.card_insert_of_not_mem (by simp), h1]

theorem mem_All (ht : hashTable) (k : List Nat) (s : stats) :
    (k, s) ∈ All ht ↔ ∃ i, i < numBuckets ∧ ht.items i = some ⟨k, s⟩ := by
  unfold All
  rw [List.mem_filterMap]
  constructor
  · rintro ⟨i, hi, h⟩
    cases hx : ht.items i with
    | none => rw [hx] at h; cases h
    | some it =>
      rw [hx] at h
      simp only [Option.map_some', Option.some.injEq, Prod.mk.injEq] at h
      refine ⟨i, List.mem_range.1 hi, ?_⟩
      rw [← h.1, ← h.2]
      exact hx
  · rintro ⟨i, hi, hx⟩
    exact ⟨i, List.mem_range.2 hi, by rw [hx]; rfl⟩

theorem Keys_eq_map_All (ht : hashTable) : Keys ht = (All ht).map (fun p => p.1) := by
  unfold Keys All
  rw [List.map_filterMap]
  congr 1
  funext i
  cases ht.items i <;> rfl

theorem Keys_nodup (ht : hashTable) (hwf : WF ht) : (Keys ht).Nodup := by
  unfold Keys
  apply List.Nodup.filterMap _ (List.nodup_range _)
  intro i j b hi hj
  simp only [Option.mem_def] at hi hj
  cases hx : ht.items i with
  | none => rw [hx] at hi; cases hi
  | some it1 =>
    cases hy : ht.items j with
    | none => rw [hy] at hj; cases hj
    | some it2 =>
      rw [hx] at hi
      rw [hy] at hj
      simp only [Option.map_some', Option.some.injEq] at hi hj
      exact hwf.unique i j it1 it2 hx hy (by rw [hi, hj])

end r08

/-- C21: for every table built from a fresh one by `insertOrUpdate` calls that
all returned, `All` yields as many pairs as the `size` field says, which is
the number of distinct keys inserted; the yielded keys are pairwise distinct
(so no pair is yielded twice); each yielded record is the one `get` returns
for its key; every record that `get` returns is yielded; the yielded keys are
the inserted keys; and `Keys` yields the keys of `All` in the same order. -/
theorem C21_All_yields_each_pair_once (calls : List (List Nat × Int)) (fuel : Nat)
    (ht : r08.hashTable) (hins : r08.insertAll fuel calls r08.newHashTable = .ok ht) :
    (r08.All ht).length = ht.size ∧ ht.size = distinctKeys calls ∧
      ((r08.All ht).map (fun p => p.1)).Nodup ∧ (r08.All ht).Nodup ∧
      (∀ p ∈ r08.All ht, r08.get ht p.1 r08.numBuckets = .ok (some p.2)) ∧
      (∀ k s, r08.get ht k r08.numBuckets = .ok (some s) → (k, s) ∈ r08.All ht) ∧
      (∀ k, k ∈ (r08.All ht).map (fun p => p.1) ↔ k ∈ calls.map (fun c => c.1)) ∧
      r08.Keys ht = (r08.All ht).map (fun p => p.1) := by
  obtain ⟨hwf, hag⟩ := r08.agrees_of_insertAll fuel calls [] r08.newHashTable ht r08.WF_new
    r08.Agrees_new hins
  rw [List.nil_append] at hag
  have hkeys := r08.Keys_eq_map_All ht
  have hnodup : ((r08.All ht).map (fun p => p.1)).Nodup := by
    rw [← hkeys]; exact r08.Keys_nodup ht hwf
  refine ⟨?_, hag.size, hnodup, List.Nodup.of_map _ hnodup, ?_, ?_, ?_, hkeys⟩
  · have h := r08.length_filterMap_range
      (fun i => (ht.items i).map (fun it => (it.key, it.stat))) r08.numBuckets
    have hocc : (Finset.range r08.numBuckets).filter
        (fun i => ((ht.items i).map (fun it => (it.key, it.stat))).isSome = true)
          = r08.occupied ht := by
      unfold r08.occupied
      apply Finset.filter_congr
      intro i _
      cases ht.items i <;> simp
    rw [hocc, hwf.card] at h
    exact h
  · intro p hp
    obtain ⟨k, s⟩ := p
    obtain ⟨i, _, hi⟩ := (r08.mem_All ht k s).1 hp
    exact r08.get_stored ht hwf r08.numBuckets le_rfl i ⟨k, s⟩ hi
  · intro k s h
    obtain ⟨i, hi⟩ := (r08.get_some_iff ht hwf r08.numBuckets le_rfl k s).1 h
    exact (r08.mem_All ht k s).2 ⟨i, hwf.inRange i _ hi, hi⟩
  · intro k
    rw [hag.present k, List.mem_map]
    constructor
    · rintro ⟨p, hp, hpk⟩
      obtain ⟨k1, s⟩ := p
      obtain ⟨i, _, hi⟩ := (r08.mem_All ht k1 s).1 hp
      exact ⟨i, ⟨k1, s⟩, hi, hpk⟩
    · rintro ⟨i, it, hi, hik⟩
      exact ⟨(it.key, it.stat), (r08.mem_All ht _ _).2 ⟨i, hwf.inRange i it hi, hi⟩, hik⟩

/-- C21 at the table built by the calls `a:10, b:-5, a:7`. -/
theorem C21_All_yields_each_pair_once_witness :
    (r08.All exampleTable).length = exampleTable.size ∧
      exampleTable.size = distinctKeys exampleCalls ∧
      ((r08.All exampleTable).map (fun p => p.1)).Nodup ∧ (r08.All exampleTable).Nodup ∧
      (∀ p ∈ r08.All exampleTable, r08.get exampleTable p.1 r08.numBuckets = .ok (some p.2)) ∧
      (∀ k s, r08.get exampleTable k r08.numBuckets = .ok (some s) →
        (k, s) ∈ r08.All exampleTable) ∧
      (∀ k, k ∈ (r08.All exampleTable).map (fun p => p.1) ↔
        k ∈ exampleCalls.map (fun c => c.1)) ∧
      r08.Keys exampleTable = (r08.All exampleTable).map (fun p => p.1) :=
  C21_All_yields_each_pair_once exampleCalls r08.numBuckets exampleTable r08.exampleTable_eq

/-- C28: in every table reachable from `newHashTable` through `insertOrUpdate`
calls that returned, the `size` field is the number of occupied slots and is
at most 65536, so some slot is empty; every index probed for a key stays
below 131072; and for every key the probing loops of `get` and
`insertOrUpdate` stop within 131072 probes: with fuel for 131072 probes
neither is still running, and more fuel does not change their result. -/
theorem C28_probing_terminates (ht : r08.hashTable) (hreach : r08.Reachable ht)
    (k : List Nat) (v : Int) :
    (r08.occupied ht).card = ht.size ∧ ht.size ≤ 65536 ∧
      (∃ e, e < 131072 ∧ ht.items e = none) ∧
      (∀ n, Nat.iterate r08.nextIndex n (r08.hashIndexOf k) < 131072) ∧
      (∃ j, j < 131072 ∧ r08.probe ht.items k 131072 (r08.hashIndexOf k) = some j) ∧
      (∃ r, r08.get ht k 131072 = .ok r) ∧
      r08.insertOrUpdate ht k v 131072 ≠ .running ∧
      (∀ fuel, 131072 ≤ fuel → r08.get ht k fuel = r08.get ht k 131072 ∧
        r08.insertOrUpdate ht k v fuel = r08.insertOrUpdate ht k v 131072) := by
  have hwf := r08.WF_of_reachable ht hreach
  have hnb := r08.numBuckets_eq
  obtain ⟨e, he, hempty⟩ := hwf.exists_empty
  obtain ⟨j, hp⟩ := hwf.probe_some k
  have hjlt := r08.probe_lt _ _ _ _ _ (r08.hashIndexOf_lt k) hp
  have hb := hwf.bound
  rw [r08.initialBucketSize_eq] at hb
  rw [hnb] at he hp hjlt
  refine ⟨hwf.card, hb, ⟨e, he, hempty⟩, ?_, ⟨j, hjlt, hp⟩, ?_, ?_, ?_⟩
  · intro n
    cases n with
    | zero =>
      have := r08.hashIndexOf_lt k
      rw [hnb] at this
      exact this
    | succ n =>
      rw [Function.iterate_succ_apply']
      have := r08.nextIndex_lt (Nat.iterate r08.nextIndex n (r08.hashIndexOf k))
      rw [hnb] at this
      exact this
  · refine ⟨(ht.items j).map (fun it => it.stat), ?_⟩
    unfold r08.get
    rw [r08.getLoop_eq_probe, hp]
  · unfold r08.insertOrUpdate
    rw [r08.insertLoop_eq_probe, hp]
    exact r08.insertAt_ne_running ht k v j
  · intro fuel hfuel
    have hp1 := r08.probe_mono _ _ _ _ _ hp fuel hfuel
    unfold r08.get r08.insertOrUpdate
    rw [r08.getLoop_eq_probe, r08.getLoop_eq_probe, r08.insertLoop_eq_probe,
      r08.insertLoop_eq_probe, hp, hp1]
    exact ⟨rfl, rfl⟩

/-- C28 at the table built by the calls `a:10, b:-5, a:7` and the key `c`. -/
theorem C28_probing_terminates_witness :
    (r08.occupied exampleTable).card = exampleTable.size ∧ exampleTable.size ≤ 65536 ∧
      (∃ e, e < 131072 ∧ exampleTable.items e = none) ∧
      (∀ n, Nat.iterate r08.nextIndex n (r08.hashIndexOf (ascii "c")) < 131072) ∧
      (∃ j, j < 131072 ∧
        r08.probe exampleTable.items (ascii "c") 131072 (r08.hashIndexOf (ascii "c")) = some j) ∧
      (∃ r, r08.get exampleTable (ascii "c") 131072 = .ok r) ∧
      r08.insertOrUpdate exampleTable (ascii "c") 3 131072 ≠ .running ∧
      (∀ fuel, 131072 ≤ fuel →
        r08.get exampleTable (ascii "c") fuel = r08.get exampleTable (ascii "c") 131072 ∧
        r08.insertOrUpdate exampleTable (ascii "c") 3 fuel
          = r08.insertOrUpdate exampleTable (ascii "c") 3 131072) :=
  C28_probing_terminates exampleTable r08.exampleTable_reachable (ascii "c") 3

/-- C29: a call `insertOrUpdate(k, v)` that returns, on a table reachable
from `newHashTable`, leaves the result of `get` unchanged for every key other
than `k`; the `size` field grows by exactly 1 when `get` found no record for
`k` before the call and is unchanged when it found one; and one of the two is
the case. -/
theorem C29_insert_changes_only_its_key (ht ht1 : r08.hashTable) (k : List Nat) (v : Int)
    (fuel : Nat) (hreach : r08.Reachable ht)
    (hins : r08.insertOrUpdate ht k v fuel = .ok ht1) :
    (∀ k1, k1 ≠ k → ∀ fuel1, r08.numBuckets ≤ fuel1 →
        r08.get ht1 k1 fuel1 = r08.get ht k1 fuel1) ∧
      (r08.get ht k r08.numBuckets = .ok none → ht1.size = ht.size + 1) ∧
      (∀ s, r08.get ht k r08.numBuckets = .ok (some s) → ht1.size = ht.size) ∧
      (r08.get ht k r08.numBuckets = .ok none ∨
        ∃ s, r08.get ht k r08.numBuckets = .ok (some s)) := by
  have hwf := r08.WF_of_reachable ht hreach
  obtain ⟨j, hp, hat⟩ := r08.insertOrUpdate_probe ht ht1 k v fuel hins
  have hp1 := hwf.probe_fuel k fuel j hp
  have hget := r08.get_eq_of_probe ht k r08.numBuckets j le_rfl hp1
  refine ⟨fun k1 hne fuel1 hfuel => r08.get_frame ht ht1 k v fuel hwf hins k1 hne fuel1 hfuel,
    ?_, ?_, ?_⟩
  · intro h
    rcases r08.insertAt_ok ht ht1 k v j hat with ⟨_, h2, _, _⟩ | ⟨it0, h1, _, _, _⟩
    · exact h2
    · rw [hget, h1] at h
      simp at h
  · intro s h
    rcases r08.insertAt_ok ht ht1 k v j hat with ⟨h1, _, _, _⟩ | ⟨it0, _, h2, _, _⟩
    · rw [hget, h1] at h
      simp at h
    · exact h2
  · rw [hget]
    cases ht.items j with
    | none => exact Or.inl rfl
    | some it => exact Or.inr ⟨it.stat, rfl⟩

/-- C29 at the table built by the calls `a:10, b:-5, a:7`: the call
`insertOrUpdate("a", 3)`, whose key has a record, leaves the record of `b`
and the size as they were; the call `insertOrUpdate("c", 3)`, whose key has
none, leaves the records of `a` and `b` as they were and makes the size grow
by 1. -/
theorem C29_insert_changes_only_its_key_witness :
    (r08.get exampleTable (ascii "a") r08.numBuckets = .ok (some ⟨7, 10, 2, 17⟩) ∧
        r08.get exampleTable (ascii "b") r08.numBuckets = .ok (some ⟨-5, -5, 1, -5⟩) ∧
        r08.get exampleTable (ascii "c") r08.numBuckets = .ok none ∧ exampleTable.size = 2) ∧
      (r08.insertOrUpdate exampleTable (ascii "a") 3 r08.numBuckets = .ok updatedTable ∧
        r08.get updatedTable (ascii "b") r08.numBuckets = .ok (some ⟨-5, -5, 1, -5⟩) ∧
        r08.get updatedTable (ascii "c") r08.numBuckets = .ok none ∧
        updatedTable.size = exampleTable.size) ∧
      (r08.insertOrUpdate exampleTable (ascii "c") 3 r08.numBuckets = .ok grownTable ∧
        r08.get grownTable (ascii "a") r08.numBuckets = .ok (some ⟨7, 10, 2, 17⟩) ∧
        r08.get grownTable (ascii "b") r08.numBuckets = .ok (some ⟨-5, -5, 1, -5⟩) ∧
        grownTable.size = exampleTable.size + 1) ∧
      ((∀ k1, k1 ≠ ascii "a" → ∀ fuel1, r08.numBuckets ≤ fuel1 →
          r08.get updatedTable k1 fuel1 = r08.get exampleTable k1 fuel1) ∧
        (r08.get exampleTable (ascii "a") r08.numBuckets = .ok none →
          updatedTable.size = exampleTable.size + 1) ∧
        (∀ s, r08.get exampleTable (ascii "a") r08.numBuckets = .ok (some s) →
          updatedTable.size = exampleTable.size) ∧
        (r08.get exampleTable (ascii "a") r08.numBuckets = .ok none ∨
          ∃ s, r08.get exampleTable (ascii "a") r08.numBuckets = .ok (some s))) :=
  ⟨⟨rfl, rfl, rfl, rfl⟩,
    ⟨rfl,
      ((C29_insert_changes_only_its_key exampleTable updatedTable (ascii "a") 3 r08.numBuckets
        r08.exampleTable_reachable rfl).1 (ascii "b") (by decide) r08.numBuckets le_rfl).trans rfl,
      ((C29_insert_changes_only_its_key exampleTable updatedTable (ascii "a") 3 r08.numBuckets
        r08.exampleTable_reachable rfl).1 (ascii "c") (by decide) r08.numBuckets le_rfl).trans rfl,
      (C29_insert_changes_only_its_key exampleTable updatedTable (ascii "a") 3 r08.numBuckets
        r08.exampleTable_reachable rfl).2.2.1 _ rfl⟩,
    ⟨rfl,
      ((C29_insert_changes_only_its_key exampleTable grownTable (ascii "c") 3 r08.numBuckets
        r08.exampleTable_reachable rfl).1 (ascii "a") (by decide) r08.numBuckets le_rfl).trans rfl,
      ((C29_insert_changes_only_its_key exampleTable grownTable (ascii "c") 3 r08.numBuckets
        r08.exampleTable_reachable rfl).1 (ascii "b") (by decide) r08.numBuckets le_rfl).trans rfl,
      (C29_insert_changes_only_its_key exampleTable grownTable (ascii "c") 3 r08.numBuckets
        r08.exampleTable_reachable rfl).2.1 rfl⟩,
    C29_insert_changes_only_its_key exampleTable updatedTable (ascii "a") 3 r08.numBuckets
      r08.exampleTable_reachable rfl⟩

/-! ## Hash function, `parseLine` and the chunk offsets -/

theorem r08_hashFnv1a_eq_spec (key : List Nat) : r08.hashFnv1a key = fnv1a64Spec key := rfl

theorem lphash_hashFnv1a_eq_spec (key : List Nat) : lphash.hashFnv1a key = fnv1a64Spec key := rfl

theorem fnv1a64Spec_lt (key : List Nat) : fnv1a64Spec key < 2 ^ 64 := by
  unfold fnv1a64Spec
  have h : ∀ (l : List Nat) (x : Nat), x < 2 ^ 64 →
      l.foldl (fun h b => ((h ^^^ b) * 1099511628211) % 2 ^ 64) x < 2 ^ 64 := by
    intro l
    induction l with
    | nil => intro x hx; exact hx
    | cons b l ih =>
      intro x _
      rw [List.foldl_cons]
      exact ih _ (Nat.mod_lt _ (by norm_num))
  exact h key _ (by norm_num)

/-- C22: `hashFnv1a` of r08 and of lphash are, on every byte string, the left
fold from the offset basis 14695981039346656037 of
`h ↦ ((h xor b) * 1099511628211) mod 2^64`, hence equal to each other and
below 2^64; the empty key hashes to `0xcbf29ce484222325`, the key `a` to
`0xaf63dc4c8601ec8c` and the key `foobar` to `0x85944171f73967e8`, the
published FNV-1a vectors. -/
theorem C22_hashFnv1a_is_fnv1a64 :
    (∀ key, r08.hashFnv1a key =
        key.foldl (fun h b => ((h ^^^ b) * 1099511628211) % 2 ^ 64) 14695981039346656037) ∧
      (∀ key, lphash.hashFnv1a key = r08.hashFnv1a key) ∧
      (∀ key, r08.hashFnv1a key = fnv1a64Spec key ∧ r08.hashFnv1a key < 2 ^ 64) ∧
      (∀ key b, r08.hashFnv1a (key ++ [b])
        = ((r08.hashFnv1a key ^^^ b) * 1099511628211) % 2 ^ 64) ∧
      r08.hashFnv1a [] = 0xcbf29ce484222325 ∧
      r08.hashFnv1a (ascii "a") = 0xaf63dc4c8601ec8c ∧
      lphash.hashFnv1a (ascii "a") = 0xaf63dc4c8601ec8c ∧
      r08.hashFnv1a (ascii "foobar") = 0x85944171f73967e8 := by
  refine ⟨fun _ => rfl, fun _ => rfl, fun key => ⟨rfl, ?_⟩, ?_, by decide, by decide,
    by decide, by decide⟩
  · rw [r08_hashFnv1a_eq_spec]; exact fnv1a64Spec_lt key
  · intro key b
    unfold r08.hashFnv1a
    rw [List.foldl_append]
    rfl

namespace lphash

theorem parseValue_minus (rest : List Nat) (v d : Int) :
    parseValue (45 :: rest) v d = parseValue rest (wrap32 (-v)) d := by
  simp [parseValue]

theorem parseValue_dot (rest : List Nat) (v d : Int) :
    parseValue (46 :: rest) v d = parseValue rest v 10 := by
  simp [parseValue]

theorem parseValue_digit (x : Nat) (hx : x ≤ 9) (rest : List Nat) (v d : Int)
    (h1 : -214748364 ≤ v) (h2 : v ≤ 214748363) :
    parseValue ((48 + x) :: rest) v d
      = parseValue rest (v * 10 + x) (if d > 1 then wrap32 (d * 10) else d) := by
  have c1 : ¬ (48 + x = 45) := by omega
  have c2 : ¬ (48 + x = 46) := by omega
  rw [parseValue, if_neg c1, if_neg c2, byteSub_digit x hx,
    r08.wrap32_id (v * 10) (by omega) (by omega),
    r08.wrap32_id (v * 10 + x) (by omega) (by omega)]

/-- On every line `key;value` of the grammar, `parseLine` returns the key and
the magnitude of the value: the minus sign negates the value while it is
still 0. -/
theorem parseLine_magnitude (key : List Nat) (neg : Bool) (hundreds : Option Nat)
    (tens frac : Nat) (hkey : 59 ∉ key) (hh : hundreds.getD 0 ≤ 9) (ht : tens ≤ 9)
    (hf : frac ≤ 9) :
    parseLine (key ++ 59 :: valueText neg hundreds tens frac)
      = (key, ((hundreds.getD 0 * 100 + tens * 10 + frac : Nat) : Int)) := by
  unfold parseLine
  rw [indexByte_append_cons key _ 59 hkey]
  simp only
  rw [List.take_left' rfl]
  have hd : List.drop (key.length + 1) (key ++ 59 :: valueText neg hundreds tens frac)
      = valueText neg hundreds tens frac := by
    rw [List.drop_append_eq_append_drop]
    simp
  rw [hd]
  have hz : wrap32 (-0) = 0 := by decide
  congr 1
  rcases neg with _ | _ <;> rcases hundreds with _ | h
  · simp only [valueText, List.nil_append, Bool.false_eq_true, if_false, Option.getD_none]
    rw [parseValue_digit tens ht _ _ _ (by omega) (by omega), parseValue_dot,
      parseValue_digit frac hf _ _ _ (by omega) (by omega), parseValue]
    push_cast; ring
  · have h9 : h ≤ 9 := hh
    simp only [valueText, List.nil_append, List.cons_append, Bool.false_eq_true, if_false,
      Option.getD_some]
    rw [parseValue_digit h h9 _ _ _ (by omega) (by omega),
      parseValue_digit tens ht _ _ _ (by omega) (by omega), parseValue_dot,
      parseValue_digit frac hf _ _ _ (by omega) (by omega), parseValue]
    push_cast; ring
  · simp only [valueText, List.nil_append, List.cons_append, if_true, Option.getD_none]
    rw [parseValue_minus, hz, parseValue_digit tens ht _ _ _ (by omega) (by omega),
      parseValue_dot, parseValue_digit frac hf _ _ _ (by omega) (by omega), parseValue]
    push_cast; ring
  · have h9 : h ≤ 9 := hh
    simp only [valueText, List.nil_append, List.cons_append, if_true, Option.getD_some]
    rw [parseValue_minus, hz, parseValue_digit h h9 _ _ _ (by omega) (by omega),
      parseValue_digit tens ht _ _ _ (by omega) (by omega), parseValue_dot,
      parseValue_digit frac hf _ _ _ (by omega) (by omega), parseValue]
    push_cast; ring

end lphash

/-- C25 (the code departs from the claim): on the line `Ulaanbaatar;-1.3`,
`parseLine` returns the value 13, not -13: it negates `value` when it meets
the minus sign, while `value` is still 0, so the sign is lost; `parseRow` of
r08 returns -13 on the same line, and both return 369 on `Bamako;36.9`. -/
theorem C25_parseLine_drops_sign :
    lphash.parseLine (ascii "Ulaanbaatar;-1.3") = (ascii "Ulaanbaatar", 13) ∧
      r08.parseRow (ascii "Ulaanbaatar;-1.3") = some (ascii "Ulaanbaatar", -13) ∧
      lphash.parseLine (ascii "Bamako;36.9") = (ascii "Bamako", 369) ∧
      r08.parseRow (ascii "Bamako;36.9") = some (ascii "Bamako", 369) := by
  decide

namespace r08

/-- The offsets produced by the partitioning loop from a `start` inside the
data: the first chunk starts at `start`, each later chunk starts where the
one before it ends, every chunk ends after its start, and at most `n` chunks
are produced. -/
theorem chunkLoop_continuous (data : List Nat) (cs n : Nat) :
    ∀ start, start < data.length →
      (∀ c ∈ (chunkLoop data cs n start).head?, c.1 = start) ∧
      List.Chain' (fun a b => b.1 = a.2) (chunkLoop data cs n start) ∧
      (∀ c ∈ chunkLoop data cs n start, start ≤ c.1 ∧ c.1 < c.2 ∧ c.1 < data.length) ∧
      (chunkLoop data cs n start).length ≤ n ∧
      List.Pairwise (fun a b => a.2 ≤ b.1) (chunkLoop data cs n start) := by
  induction n with
  | zero => intro start _; simp [chunkLoop]
  | succ n ih =>
    intro start hstart
    simp only [chunkLoop]
    generalize hend : (if start + cs < data.length then
      advanceToNewline data (data.length - (start + cs)) (start + cs) + 1
      else start + cs) = end1
    have hgt : start < end1 := by
      rw [← hend]
      by_cases h : start + cs < data.length
      · rw [if_pos h]
        have := (advanceToNewline_spec data (data.length - (start + cs)) (start + cs) le_rfl).1
        omega
      · rw [if_neg h]; omega
    by_cases hlast : end1 ≥ data.length
    · rw [if_pos hlast]
      refine ⟨by simp, by simp, ?_, by simp, by simp⟩
      intro c hc
      rw [List.mem_singleton] at hc
      subst hc
      exact ⟨le_rfl, hgt, hstart⟩
    · rw [if_neg hlast]
      obtain ⟨h1, h2, h3, h4, h5⟩ := ih end1 (by omega)
      refine ⟨by simp, ?_, ?_, by simp; omega, ?_⟩
      · rw [List.chain'_cons']
        exact ⟨fun c hc => h1 c hc, h2⟩
      · intro c hc
        rcases List.mem_cons.1 hc with e | e
        · subst e; exact ⟨le_rfl, hgt, hstart⟩
        · obtain ⟨a, b, d⟩ := h3 c e
          exact ⟨by omega, b, d⟩
      · rw [List.pairwise_cons]
        exact ⟨fun c hc => (h3 c hc).1, h5⟩

theorem chunkLoop_ne_nil (data : List Nat) (cs n start : Nat) :
    chunkLoop data cs (n + 1) start ≠ [] := by
  simp [chunkLoop]

end r08

/-- C26: for every non-empty mapped input and every worker count `W ≥ 1`, the
partitioning loop of `Calculate` produces at least one and at most `W`
chunks; the first starts at offset 0; each later one starts at the end offset
of the one before it; every chunk starts inside the input and ends after its
start (it is not empty); and a chunk ends no later than any later chunk
starts, so no offset lies in two chunks. -/
theorem C26_chunks_continuous (data : List Nat) (numCores : Nat) (hdata : data ≠ [])
    (hcores : 1 ≤ numCores) :
    r08.chunks data numCores ≠ [] ∧
      (∀ c ∈ (r08.chunks data numCores).head?, c.1 = 0) ∧
      List.Chain' (fun a b => b.1 = a.2) (r08.chunks data numCores) ∧
      (∀ c ∈ r08.chunks data numCores, c.1 < c.2 ∧ c.1 < data.length) ∧
      (r08.chunks data numCores).length ≤ numCores ∧
      List.Pairwise (fun a b => a.2 ≤ b.1) (r08.chunks data numCores) ∧
      (∀ i a b, a ∈ r08.chunks data numCores → b ∈ r08.chunks data numCores →
        a.1 ≤ i → i < a.2 → b.1 ≤ i → i < b.2 → a = b) := by
  have hlen : 0 < data.length := List.length_pos.2 hdata
  obtain ⟨h1, h2, h3, h4, h5⟩ :=
    r08.chunkLoop_continuous data (data.length / 100) numCores 0 hlen
  obtain ⟨n, rfl⟩ : ∃ n, numCores = n + 1 := ⟨numCores - 1, by omega⟩
  refine ⟨r08.chunkLoop_ne_nil data _ n 0, h1, h2, fun c hc => (h3 c hc).2, h4, h5, ?_⟩
  intro i a b ha hb ha1 ha2 hb1 hb2
  have hsym : ∀ x y : Nat × Nat, x.2 ≤ y.1 → y.1 ≤ i → i < x.2 → False := by
    intro x y hxy hy hx; omega
  by_contra hab
  have hp := h5
  have ha0 : a ∈ r08.chunkLoop data (data.length / 100) (n + 1) 0 := ha
  have hb0 : b ∈ r08.chunkLoop data (data.length / 100) (n + 1) 0 := hb
  rcases List.mem_iff_getElem.1 ha0 with ⟨ia, hia, ea⟩
  rcases List.mem_iff_getElem.1 hb0 with ⟨ib, hib, eb⟩
  rw [List.pairwise_iff_getElem] at hp
  rcases Nat.lt_trichotomy ia ib with hlt | heq | hgt
  · have := hp ia ib hia hib hlt
    rw [ea, eb] at this
    exact hsym a b this hb1 ha2
  · subst heq
    exact hab (by rw [← ea, ← eb])
  · have := hp ib ia hib hia hgt
    rw [ea, eb] at this
    exact hsym b a this ha1 hb2

/-- C26 at a three-line input with three workers, where the chunks are the
three lines. -/
theorem C26_chunks_continuous_witness :
    r08.chunks (ascii "a;1.0\nb;2.0\nc;3.0\n") 3 ≠ [] ∧
      (∀ c ∈ (r08.chunks (ascii "a;1.0\nb;2.0\nc;3.0\n") 3).head?, c.1 = 0) ∧
      List.Chain' (fun a b => b.1 = a.2) (r08.chunks (ascii "a;1.0\nb;2.0\nc;3.0\n") 3) ∧
      (∀ c ∈ r08.chunks (ascii "a;1.0\nb;2.0\nc;3.0\n") 3,
        c.1 < c.2 ∧ c.1 < (ascii "a;1.0\nb;2.0\nc;3.0\n").length) ∧
      (r08.chunks (ascii "a;1.0\nb;2.0\nc;3.0\n") 3).length ≤ 3 ∧
      List.Pairwise (fun a b => a.2 ≤ b.1) (r08.chunks (ascii "a;1.0\nb;2.0\nc;3.0\n") 3) ∧
      (∀ i a b, a ∈ r08.chunks (ascii "a;1.0\nb;2.0\nc;3.0\n") 3 →
        b ∈ r08.chunks (ascii "a;1.0\nb;2.0\nc;3.0\n") 3 →
        a.1 ≤ i → i < a.2 → b.1 ≤ i → i < b.2 → a = b) :=
  C26_chunks_continuous (ascii "a;1.0\nb;2.0\nc;3.0\n") 3 (by decide) (by decide)

/-- C27 (the code departs from the claim): on the 5-byte input `a;1.0`, which
has no trailing newline, one worker gets the chunk `[0, 6)`, whose end
exceeds the size 5, and the slice expression panics; on the 702-byte input of
117 lines `a;1.0`, which ends with a newline, 59 workers get among their
chunks `[696, 703)`, whose end exceeds the size 702, and its slice expression
panics as well. -/
theorem C27_chunk_end_exceeds_input (n : Nat) :
    (ascii "a;1.0").length = 5 ∧ r08.chunks (ascii "a;1.0") 1 = [(0, 6)] ∧
      r08.sliceChunk (ascii "a;1.0") (0, 6) = none ∧
      r08.Calculate n (ascii "a;1.0") 1 = .fatal "slice bounds out of range" ∧
      manyLines.length = 702 ∧ manyLines.getLast? = some 10 ∧
      (696, 703) ∈ r08.chunks manyLines 59 ∧
      r08.sliceChunk manyLines (696, 703) = none := by
  have hc : r08.chunks (ascii "a;1.0") 1 = [(0, 6)] := by decide
  have hs : r08.sliceChunk (ascii "a;1.0") (0, 6) = none := by decide
  have hlen : manyLines.length = 702 := by
    set_option maxRecDepth 100000 in decide
  refine ⟨by decide, hc, hs, ?_, hlen, ?_, ?_, ?_⟩
  · unfold r08.Calculate r08.mergedResult
    rw [hc]
    simp only [r08.runWorkers, hs]
  · set_option maxRecDepth 100000 in decide
  · set_option maxRecDepth 100000 in decide
  · unfold r08.sliceChunk
    rw [hlen]
    decide

/-! ## The rendered average against the floating-point baseline -/

theorem bitLength_eq (b : Nat) :
    ∀ fuel n, 2 ^ b ≤ n → n < 2 ^ (b + 1) → b + 1 ≤ fuel → bitLength fuel n = b + 1 := by
  induction b with
  | zero =>
    intro fuel n h1 h2 hf
    obtain ⟨f, rfl⟩ : ∃ f, fuel = f + 1 := ⟨fuel - 1, by omega⟩
    have hn : n = 1 := by omega
    subst hn
    cases f with
    | zero => simp [bitLength]
    | succ g => simp [bitLength]
  | succ b ih =>
    intro fuel n h1 h2 hf
    obtain ⟨f, rfl⟩ : ∃ f, fuel = f + 1 := ⟨fuel - 1, by omega⟩
    have hpos : 0 < 2 ^ (b + 1) := pow_pos (by norm_num) _
    have hn0 : n ≠ 0 := by omega
    have e1 : 2 ^ (b + 1) = 2 * 2 ^ b := by rw [pow_succ]; ring
    have e2 : 2 ^ (b + 1 + 1) = 2 * 2 ^ (b + 1) := by rw [pow_succ]; ring
    rw [bitLength, if_neg hn0, ih f (n / 2) (by omega) (by omega) (by omega)]
    ring

theorem bitLength_self (b n : Nat) (h1 : 2 ^ b ≤ n) (h2 : n < 2 ^ (b + 1)) :
    bitLength n n = b + 1 := by
  have hb : b < 2 ^ b := Nat.lt_two_pow b
  exact bitLength_eq b n n h1 h2 (by omega)

theorem roundRatio_norm (n d : Nat) (hn1 : 2 ^ 52 ≤ n) (hn2 : n < 2 ^ 53) (hd1 : 2 ^ 52 ≤ d)
    (hd2 : d < 2 ^ 53) : roundRatio n d = roundRatioNorm n d := by
  unfold roundRatio roundRatioNorm
  rw [bitLength_self 52 n hn1 hn2, bitLength_self 52 d hd1 hd2]
  have h53 : Int.toNat 53 = 53 := rfl
  norm_num [h53]

theorem F64.div_eq_divNorm (x y : F64) (hx : F64.isNorm x = true) (hy : F64.isNorm y = true) :
    F64.div x y = F64.divNorm x y := by
  cases x with
  | finite s1 m1 e1 =>
    cases y with
    | finite s2 m2 e2 =>
      simp only [F64.isNorm, Bool.and_eq_true, decide_eq_true_eq] at hx hy
      have h1 : m1 ≠ 0 := fun e => by rw [e] at hx; exact absurd hx.1 (by norm_num)
      have h2 : m2 ≠ 0 := fun e => by rw [e] at hy; exact absurd hy.1 (by norm_num)
      simp only [F64.div, F64.divNorm, if_neg h1, if_neg h2]
      rw [roundRatio_norm m1 m2 hx.1 hx.2 hy.1 hy.2]
    | inf _ => simp [F64.isNorm] at hy
    | nan => simp [F64.isNorm] at hy
  | inf _ => simp [F64.isNorm] at hx
  | nan => simp [F64.isNorm] at hx

theorem F64.isNorm_sign (s1 s2 : Bool) (m : Nat) (e : Int) :
    F64.isNorm (.finite s1 m e) = F64.isNorm (.finite s2 m e) := rfl

theorem F64.divNorm_sign (s : Bool) (m1 : Nat) (e1 : Int) (m2 : Nat) (e2 : Int) :
    F64.divNorm (.finite s m1 e1) (.finite false m2 e2)
      = .finite s (roundRatioNorm m1 m2).1 ((roundRatioNorm m1 m2).2 + e1 - e2) := by
  cases s <;> rfl

theorem fmt1_finite (neg : Bool) (m : Nat) (e : Int) :
    fmt1 (.finite neg m e) = tenthsText neg (fmtTenths m e) := rfl

theorem ofInt_one : F64.ofInt 1 = .finite false (2 ^ 52) (-52) := by decide

theorem ofInt_ten : F64.ofInt 10 = .finite false (10 * 2 ^ 49) (-49) := by decide

theorem singleValueCheckUpTo_spec (n : Nat) (h : singleValueCheckUpTo n = true) :
    ∀ m, 1 ≤ m → m ≤ n → singleValueCheck m = true := by
  induction n with
  | zero => intro m h1 h2; omega
  | succ n ih =>
    intro m h1 h2
    simp only [singleValueCheckUpTo, Bool.and_eq_true] at h
    rcases Nat.lt_or_eq_of_le h2 with hlt | heq
    · exact ih h.2 m h1 (by omega)
    · rw [heq]; exact h.1

set_option maxRecDepth 1000000 in
set_option maxHeartbeats 4000000 in
theorem singleValueCheck_all : singleValueCheckUpTo 999 = true := by decide

/-- For a magnitude from 1 to 999 tenths and either sign, the average that
r08 renders for the record of that single value and the average that the
baseline renders for the record of the single parsed value are the text of
the value. -/
theorem singleValue_texts (neg : Bool) (m : Nat) (h1 : 1 ≤ m) (h2 : m ≤ 999) :
    r08.averageText ⟨if neg then -(m : Int) else m, if neg then -(m : Int) else m, 1,
        if neg then -(m : Int) else m⟩ = tenthsText neg m ∧
      baseline.averageText ⟨.finite neg (roundRatio m 10).1 (roundRatio m 10).2,
        .finite neg (roundRatio m 10).1 (roundRatio m 10).2,
        .finite neg (roundRatio m 10).1 (roundRatio m 10).2, 1⟩ = tenthsText neg m := by
  have hc := singleValueCheckUpTo_spec 999 singleValueCheck_all m h1 h2
  simp only [singleValueCheck, Bool.and_eq_true, decide_eq_true_eq] at hc
  obtain ⟨⟨⟨⟨ht, hx⟩, hy⟩, hr⟩, hb⟩ := hc
  have hone : F64.isNorm (.finite false (2 ^ 52) (-52)) = true := by decide
  have hten : F64.isNorm (.finite false (10 * 2 ^ 49) (-49)) = true := by decide
  have hof : F64.ofInt (if neg then -(m : Int) else m)
      = .finite neg (roundRatio m 1).1 (roundRatio m 1).2 := by
    cases neg
    · have hne : ((m : Int)) ≠ 0 := by omega
      have hlt : ¬ ((m : Int) < 0) := by omega
      simp only [F64.ofInt, Bool.false_eq_true, if_false, if_neg hne, Int.natAbs_ofNat,
        decide_eq_false hlt]
    · have hne : (-(m : Int)) ≠ 0 := by omega
      have hlt : (-(m : Int) < 0) := by omega
      simp only [F64.ofInt, if_true, if_neg hne, Int.natAbs_neg, Int.natAbs_ofNat,
        decide_eq_true hlt]
  constructor
  · unfold r08.averageText
    simp only
    rw [hof, ofInt_one, ofInt_ten,
      F64.div_eq_divNorm _ _ (by rw [F64.isNorm_sign neg false]; exact ht) hone,
      F64.divNorm_sign, F64.div_eq_divNorm _ _ (by
        rw [F64.isNorm_sign neg false, ← F64.divNorm_sign false]; exact hy) hten,
      F64.divNorm_sign, fmt1_finite]
    rw [F64.divNorm_sign, F64.divNorm_sign] at hr
    simp only [F64.tenths] at hr
    rw [hr]
  · unfold baseline.averageText
    simp only
    rw [ofInt_one, F64.div_eq_divNorm _ _ (by rw [F64.isNorm_sign neg false]; exact hx) hone,
      F64.divNorm_sign, fmt1_finite]
    rw [F64.divNorm_sign] at hb
    simp only [F64.tenths] at hb
    rw [hb]

theorem parseDecimal_digit (d : Nat) (hd : d ≤ 9) (rest : List Nat) (mant frac : Nat)
    (dot any : Bool) :
    parseDecimal ((48 + d) :: rest) mant frac dot any
      = parseDecimal rest (mant * 10 + d) (if dot then frac + 1 else frac) dot true := by
  have c1 : ¬ (48 + d = 46) := by omega
  have c2 : 48 ≤ 48 + d ∧ 48 + d ≤ 57 := by omega
  rw [parseDecimal, if_neg c1, if_pos c2, Nat.add_sub_cancel_left]

theorem parseDecimal_dot (rest : List Nat) (mant frac : Nat) (any : Bool) :
    parseDecimal (46 :: rest) mant frac false any = parseDecimal rest mant frac true any := by
  simp [parseDecimal]

theorem parseDecimal_valueText (hundreds : Option Nat) (tens frac : Nat)
    (hh : hundreds.getD 0 ≤ 9) (ht : tens ≤ 9) (hf : frac ≤ 9) :
    parseDecimal (valueText false hundreds tens frac) 0 0 false false
      = some (hundreds.getD 0 * 100 + tens * 10 + frac, 1) := by
  rcases hundreds with _ | h
  · simp only [valueText, Bool.false_eq_true, if_false, List.nil_append, Option.getD_none]
    rw [parseDecimal_digit tens ht, parseDecimal_dot, parseDecimal_digit frac hf, parseDecimal]
    simp
  · have h9 : h ≤ 9 := hh
    simp only [valueText, Bool.false_eq_true, if_false, List.nil_append, List.cons_append,
      Option.getD_some]
    rw [parseDecimal_digit h h9, parseDecimal_digit tens ht, parseDecimal_dot,
      parseDecimal_digit frac hf, parseDecimal]
    simp only [if_true, Bool.false_eq_true, if_false, zero_add, Option.some.injEq,
      Prod.mk.injEq, and_true]
    ring

theorem valueText_true (hundreds : Option Nat) (tens frac : Nat) :
    valueText true hundreds tens frac = 45 :: valueText false hundreds tens frac := by
  simp [valueText]

theorem valueText_false_ne_nil (hundreds : Option Nat) (tens frac : Nat) :
    ∃ c rest, valueText false hundreds tens frac = c :: rest ∧ 48 ≤ c := by
  rcases hundreds with _ | h
  · exact ⟨48 + tens, [46, 48 + frac], by simp [valueText], by omega⟩
  · exact ⟨48 + h, [48 + tens, 46, 48 + frac], by simp [valueText], by omega⟩

/-- The value text of the grammar parses to the `float64` nearest to its
value, with the sign of the text. -/
theorem parseFloat_valueText (neg : Bool) (hundreds : Option Nat) (tens frac : Nat)
    (hh : hundreds.getD 0 ≤ 9) (ht : tens ≤ 9) (hf : frac ≤ 9) :
    parseFloat (valueText neg hundreds tens frac) =
      if hundreds.getD 0 * 100 + tens * 10 + frac = 0 then some (.finite neg 0 0)
      else some (.finite neg (roundRatio (hundreds.getD 0 * 100 + tens * 10 + frac) 10).1
        (roundRatio (hundreds.getD 0 * 100 + tens * 10 + frac) 10).2) := by
  have hp := parseDecimal_valueText hundreds tens frac hh ht hf
  obtain ⟨c, rest, hc, hc48⟩ := valueText_false_ne_nil hundreds tens frac
  cases neg
  · unfold parseFloat
    rw [hc]
    have n1 : ¬ (c = 45) := by omega
    have n2 : ¬ (c = 43) := by omega
    simp only [if_neg n1, if_neg n2]
    rw [← hc, hp]
    simp only [pow_one]
  · unfold parseFloat
    rw [valueText_true]
    simp only [if_true]
    rw [hp]
    simp only [pow_one]

theorem not_mem_valueText (neg : Bool) (hundreds : Option Nat) (tens frac : Nat)
    (hh : hundreds.getD 0 ≤ 9) (ht : tens ≤ 9) (hf : frac ≤ 9) :
    59 ∉ valueText neg hundreds tens frac := by
  rcases neg with _ | _ <;> rcases hundreds with _ | h
  · simp [valueText]; omega
  · have h9 : h ≤ 9 := hh
    simp [valueText]; omega
  · simp [valueText]; omega
  · have h9 : h ≤ 9 := hh
    simp [valueText]; omega

theorem baseline_splitLine (key text : List Nat) (hkey : 59 ∉ key) (htext : 59 ∉ text) :
    baseline.splitLine (key ++ 59 :: text) = some (key, text) := by
  unfold baseline.splitLine
  rw [indexByte_append_cons key _ 59 hkey]
  have hd : List.drop (key.length + 1) (key ++ 59 :: text) = text := by
    rw [List.drop_append_eq_append_drop]
    simp
  simp only [hd, if_neg htext]
  rw [List.take_left' rfl]

theorem valueTenths_eq (neg : Bool) (hundreds : Option Nat) (tens frac : Nat) :
    valueTenths neg hundreds tens frac =
      if neg then -((hundreds.getD 0 * 100 + tens * 10 + frac : Nat) : Int)
      else ((hundreds.getD 0 * 100 + tens * 10 + frac : Nat) : Int) := by
  cases neg <;> simp [valueTenths]

/-- The outputs of r08 and of the baseline on `a;0.1\na;0.2\n` and on
`a;-0.0\n`, for every fuel of at least 2. -/
theorem average_differs_run (n : Nat) :
    r08.Calculate (n + 2) (ascii "a;0.1\na;0.2\n") 2 = .ok r08TwoValuesOutput ∧
      baseline.Calculate (ascii "a;0.1\na;0.2\n") = some baselineTwoValuesOutput ∧
      r08.mergedResult (n + 2) (ascii "a;0.1\na;0.2\n") 2 = .ok [(ascii "a", ⟨1, 2, 2, 3⟩)] ∧
      r08.averageText ⟨1, 2, 2, 3⟩ = ascii "0.1" ∧
      (∃ s, baseline.aggregate [ascii "a;0.1", ascii "a;0.2"] [] = some [(ascii "a", s)] ∧
        baseline.averageText s = ascii "0.2") ∧
      r08.Calculate (n + 2) (ascii "a;-0.0\n") 1 = .ok r08NegativeZeroOutput ∧
      baseline.Calculate (ascii "a;-0.0\n") = some baselineNegativeZeroOutput := by
  have hc : r08.chunks (ascii "a;0.1\na;0.2\n") 2 = [(0, 6), (6, 12)] := by decide
  have hs1 : r08.sliceChunk (ascii "a;0.1\na;0.2\n") (0, 6) = some (ascii "a;0.1\n") := by decide
  have hs2 : r08.sliceChunk (ascii "a;0.1\na;0.2\n") (6, 12) = some (ascii "a;0.2\n") := by
    decide
  have hp1 := r08.processChunk_single n (ascii "a;0.1\n") (ascii "a") 1 rfl
  have hp2 := r08.processChunk_single n (ascii "a;0.2\n") (ascii "a") 2 rfl
  have hr := r08.runWorkers_cons_ok (n + 2) (ascii "a;0.1\na;0.2\n") (ascii "a;0.1\n") (0, 6)
    [(6, 12)] _ _ hs1 hp1
    (r08.runWorkers_cons_ok (n + 2) (ascii "a;0.1\na;0.2\n") (ascii "a;0.2\n") (6, 12) []
      _ _ hs2 hp2 (r08.runWorkers_nil _ _))
  rw [← hc] at hr
  have hm := r08.mergedResult_ok _ _ _ _ hr
  have hc0 : r08.chunks (ascii "a;-0.0\n") 1 = [(0, 7)] := by decide
  have hs0 : r08.sliceChunk (ascii "a;-0.0\n") (0, 7) = some (ascii "a;-0.0\n") := by decide
  have hp0 := r08.processChunk_single n (ascii "a;-0.0\n") (ascii "a") 0 rfl
  have hr0 := r08.runWorkers_cons_ok (n + 2) (ascii "a;-0.0\n") (ascii "a;-0.0\n") (0, 7)
    [] _ _ hs0 hp0 (r08.runWorkers_nil _ _)
  rw [← hc0] at hr0
  refine ⟨?_, by rfl, ?_, by rfl, ⟨_, rfl, by rfl⟩, ?_, by rfl⟩
  · rw [r08.Calculate_ok _ _ _ _ hm]
    rfl
  · rw [hm]
    rfl
  · rw [r08.Calculate_ok _ _ _ _ (r08.mergedResult_ok _ _ _ _ hr0)]
    rfl

/-- C23 fails on the input `a;0.1\na;0.2\n`: r08, with two workers so that
both lines are read, merges the record with sum 3 and count 2 and renders
the average `0.1` (1.5/10 is the `float64` just below 0.15), while the
baseline adds the `float64` values 0.1 and 0.2 and renders `0.2`.  It also
fails on the single line `a;-0.0`, where r08 renders `0.0` and the baseline
`-0.0`. -/
theorem C23_average_differs_from_baseline :
    r08.Calculate 131072 (ascii "a;0.1\na;0.2\n") 2 = .ok r08TwoValuesOutput ∧
      baseline.Calculate (ascii "a;0.1\na;0.2\n") = some baselineTwoValuesOutput ∧
      r08.mergedResult 131072 (ascii "a;0.1\na;0.2\n") 2 = .ok [(ascii "a", ⟨1, 2, 2, 3⟩)] ∧
      r08.averageText ⟨1, 2, 2, 3⟩ = ascii "0.1" ∧
      (∃ s, baseline.aggregate [ascii "a;0.1", ascii "a;0.2"] [] = some [(ascii "a", s)] ∧
        baseline.averageText s = ascii "0.2") ∧
      r08.Calculate 131072 (ascii "a;-0.0\n") 1 = .ok r08NegativeZeroOutput ∧
      baseline.Calculate (ascii "a;-0.0\n") = some baselineNegativeZeroOutput :=
  average_differs_run 131070

/-- C23, amended: for every line `key;value` of the grammar whose value is
not a negative zero, r08 parses the value `t` in tenths and the baseline the
`float64` nearest to it, and for the records made of that single value
(count 1) the average that r08 renders and the average that the baseline
renders are the same text, the value itself with one decimal. -/
theorem C23_single_value_average_agrees (key : List Nat) (neg : Bool) (hundreds : Option Nat)
    (tens frac : Nat) (hkey : 59 ∉ key) (hh : hundreds.getD 0 ≤ 9) (ht : tens ≤ 9)
    (hf : frac ≤ 9) (hnz : neg = true → valueTenths neg hundreds tens frac ≠ 0) :
    ∃ x, r08.parseRow (key ++ 59 :: valueText neg hundreds tens frac)
          = some (key, valueTenths neg hundreds tens frac) ∧
      r08.foldStats [valueTenths neg hundreds tens frac]
        = some ⟨valueTenths neg hundreds tens frac, valueTenths neg hundreds tens frac, 1,
          valueTenths neg hundreds tens frac⟩ ∧
      baseline.aggregate [key ++ 59 :: valueText neg hundreds tens frac] []
        = some [(key, ⟨x, x, x, 1⟩)] ∧
      r08.averageText ⟨valueTenths neg hundreds tens frac, valueTenths neg hundreds tens frac, 1,
          valueTenths neg hundreds tens frac⟩ = baseline.averageText ⟨x, x, x, 1⟩ ∧
      baseline.averageText ⟨x, x, x, 1⟩
        = tenthsText neg (valueTenths neg hundreds tens frac).natAbs := by
  have hsplit := baseline_splitLine key (valueText neg hundreds tens frac) hkey
    (not_mem_valueText neg hundreds tens frac hh ht hf)
  have hparse := parseFloat_valueText neg hundreds tens frac hh ht hf
  have hval := valueTenths_eq neg hundreds tens frac
  have hrow := r08_parseRow_value key neg hundreds tens frac hh ht hf
  have hm999 : hundreds.getD 0 * 100 + tens * 10 + frac ≤ 999 := by omega
  generalize hmdef : hundreds.getD 0 * 100 + tens * 10 + frac = m at hparse hval hm999
  have habs : (valueTenths neg hundreds tens frac).natAbs = m := by
    rw [hval]; cases neg <;> simp
  by_cases hm0 : m = 0
  · have hneg : neg = false := by
      cases neg
      · rfl
      · exact absurd (by rw [hval, hm0]; simp) (hnz rfl)
    subst hneg
    rw [if_pos hm0] at hparse
    have ht0 : valueTenths false hundreds tens frac = 0 := by rw [hval, hm0]; simp
    refine ⟨.finite false 0 0, hrow, rfl, ?_, ?_, ?_⟩
    · simp only [baseline.aggregate, hsplit, hparse, baseline.addLine]
    · rw [ht0]; decide
    · rw [habs, hm0]; decide
  · rw [if_neg hm0] at hparse
    obtain ⟨h1, h2⟩ := singleValue_texts neg m (by omega) hm999
    rw [← hval] at h1
    refine ⟨.finite neg (roundRatio m 10).1 (roundRatio m 10).2, hrow, rfl, ?_, ?_, ?_⟩
    · simp only [baseline.aggregate, hsplit, hparse, baseline.addLine]
    · rw [h1, h2]
    · rw [h2, habs]

/-- C23 (amended) at the line `Bamako;36.9`. -/
theorem C23_single_value_average_agrees_witness :
    ∃ x, r08.parseRow (ascii "Bamako" ++ 59 :: valueText false (some 3) 6 9)
          = some (ascii "Bamako", valueTenths false (some 3) 6 9) ∧
      r08.foldStats [valueTenths false (some 3) 6 9]
        = some ⟨valueTenths false (some 3) 6 9, valueTenths false (some 3) 6 9, 1,
          valueTenths false (some 3) 6 9⟩ ∧
      baseline.aggregate [ascii "Bamako" ++ 59 :: valueText false (some 3) 6 9] []
        = some [(ascii "Bamako", ⟨x, x, x, 1⟩)] ∧
      r08.averageText ⟨valueTenths false (some 3) 6 9, valueTenths false (some 3) 6 9, 1,
          valueTenths false (some 3) 6 9⟩ = baseline.averageText ⟨x, x, x, 1⟩ ∧
      baseline.averageText ⟨x, x, x, 1⟩
        = tenthsText false (valueTenths false (some 3) 6 9).natAbs :=
  C23_single_value_average_agrees (ascii "Bamako") false (some 3) 6 9 (by decide) (by decide)
    (by decide) (by decide) (by decide)

/-! ## The goroutines of `Calculate` -/

namespace r08

theorem sentBy_append_other (log : List (Nat × (List Nat × stats))) (i j : Nat)
    (p : List Nat × stats) (h : i ≠ j) : sentBy (log ++ [(i, p)]) j = sentBy log j := by
  simp [sentBy, List.filter_append, List.filter_cons, h]

theorem sentBy_append_self (log : List (Nat × (List Nat × stats))) (i : Nat)
    (p : List Nat × stats) : sentBy (log ++ [(i, p)]) i = sentBy log i ++ [p] := by
  simp [sentBy, List.filter_append, List.filter_cons]

theorem mem_sentBy (log : List (Nat × (List Nat × stats))) (e : Nat × (List Nat × stats))
    (h : e ∈ log) : e.2 ∈ sentBy log e.1 := by
  unfold sentBy
  exact List.mem_map.2 ⟨e, List.mem_filter.2 ⟨h, by simp⟩, rfl⟩

theorem mergeAll_append_single (consumed : List (List Nat × stats)) (p : List Nat × stats) :
    mergeAll (consumed ++ [p]) = mergeOne (mergeAll consumed) p := by
  simp [mergeAll, List.foldl_append]

/-- A step of a worker keeps its invariant, the pair it sends being added to
what it has sent. -/
theorem Phase.next_inv (fuel : Nat) (room : Bool) (p0 p q : Phase)
    (o : Option (List Nat × stats)) (sent : List (List Nat × stats))
    (hn : p.next fuel room = some (q, o)) (h : WorkerInv fuel p0 p sent) :
    WorkerInv fuel p0 q (sent ++ o.toList) := by
  cases p with
  | scanning rest ending ht =>
    obtain ⟨hsent, lines, hp0, hagg⟩ := h
    cases rest with
    | nil =>
      cases ending with
      | done =>
        simp only [Phase.next, Option.some.injEq, Prod.mk.injEq] at hn
        obtain ⟨hq, ho⟩ := hn
        subst hq; subst ho
        refine ⟨lines, ht, hp0, ?_, by simp [hsent]⟩
        rw [← hagg]; rfl
      | fatal =>
        simp only [Phase.next, Option.some.injEq, Prod.mk.injEq] at hn
        obtain ⟨hq, ho⟩ := hn
        subst hq; subst ho
        show sent ++ [] = []
        rw [hsent]; rfl
      | running => simp [Phase.next] at hn
    | cons line rest =>
      simp only [Phase.next] at hn
      cases hrow : parseRow line with
      | none =>
        rw [hrow] at hn
        simp only [Option.some.injEq, Prod.mk.injEq] at hn
        obtain ⟨hq, ho⟩ := hn
        subst hq; subst ho
        show sent ++ [] = []
        rw [hsent]; rfl
      | some kv =>
        obtain ⟨station, value⟩ := kv
        rw [hrow] at hn
        simp only at hn
        cases hins : insertOrUpdate ht station value fuel with
        | ok ht1 =>
          rw [hins] at hn
          simp only [Option.some.injEq, Prod.mk.injEq] at hn
          obtain ⟨hq, ho⟩ := hn
          subst hq; subst ho
          refine ⟨by rw [hsent]; rfl, lines, hp0, ?_⟩
          rw [← hagg]
          simp only [aggregate, hrow, hins]
        | fatal msg =>
          rw [hins] at hn
          simp only [Option.some.injEq, Prod.mk.injEq] at hn
          obtain ⟨hq, ho⟩ := hn
          subst hq; subst ho
          show sent ++ [] = []
          rw [hsent]; rfl
        | running => rw [hins] at hn; cases hn
  | draining rest =>
    obtain ⟨lines, ht, hp0, hagg, hall⟩ := h
    cases rest with
    | nil =>
      simp only [Phase.next, Option.some.injEq, Prod.mk.injEq] at hn
      obtain ⟨hq, ho⟩ := hn
      subst hq; subst ho
      exact ⟨lines, ht, hp0, hagg, by simpa using hall⟩
    | cons pr rest =>
      simp only [Phase.next] at hn
      cases room with
      | false => simp at hn
      | true =>
        simp only [if_true, Option.some.injEq, Prod.mk.injEq] at hn
        obtain ⟨hq, ho⟩ := hn
        subst hq; subst ho
        exact ⟨lines, ht, hp0, hagg, by rw [← hall]; simp⟩
  | finished => simp [Phase.next] at hn
  | panicked msg => simp [Phase.next] at hn

theorem Inv_step (fuel cap : Nat) (w0 : List Phase) (a : Action) (s s1 : State)
    (h : Inv fuel w0 s) (hs : step fuel cap a s = some s1) : Inv fuel w0 s1 := by
  cases a with
  | work i =>
    simp only [step] at hs
    by_cases hpanic : s.workers.any Phase.isPanicked = true
    · rw [if_pos hpanic] at hs; cases hs
    rw [if_neg hpanic] at hs
    cases hw : s.workers[i]? with
    | none => rw [hw] at hs; cases hs
    | some p =>
      rw [hw] at hs
      simp only at hs
      have hlt : i < s.workers.length := by
        by_contra hge
        rw [List.getElem?_eq_none (by omega)] at hw
        cases hw
      cases hn : p.next fuel (decide (s.chan.length < cap)) with
      | none => rw [hn] at hs; cases hs
      | some qo =>
        obtain ⟨q, o⟩ := qo
        rw [hn] at hs
        have hcl : s.closed = false := by
          cases hc : s.closed with
          | false => rfl
          | true =>
            have hfin := h.closedInv hc p (List.getElem?_mem hw)
            cases p <;> simp [Phase.isFinished, Phase.next] at hfin hn
        have hdn : s.reducerDone = false := by
          cases hd : s.reducerDone with
          | false => rfl
          | true => rw [(h.doneInv hd).1] at hcl; cases hcl
        have hworker : ∀ (log1 : List (Nat × (List Nat × stats))),
            (∀ j, sentBy log1 j = if i = j then sentBy s.log j ++ o.toList else sentBy s.log j) →
            ∀ j p0 x, w0[j]? = some p0 → (s.workers.set i q)[j]? = some x →
              WorkerInv fuel p0 x (sentBy log1 j) := by
          intro log1 hlog j p0 x hp0 hx
          rw [List.getElem?_set] at hx
          rw [hlog j]
          by_cases hij : i = j
          · subst hij
            rw [if_pos rfl, if_pos hlt] at hx
            rw [if_pos rfl, ← Option.some.inj hx]
            exact Phase.next_inv fuel _ p0 p q o _ hn (h.worker i p0 p hp0 hw)
          · rw [if_neg hij] at hx
            rw [if_neg hij]
            exact h.worker j p0 x hp0 hx
        cases o with
        | none =>
          simp only [Option.some.injEq] at hs
          rw [← hs]
          refine ⟨by simp [h.len], ?_, by simpa using h.logIdx, h.consumed,
            fun hc => by simp [hcl] at hc, fun hd => by simp [hdn] at hd⟩
          exact hworker s.log (fun j => by split_ifs <;> simp)
        | some pr =>
          simp only [Option.some.injEq] at hs
          rw [← hs]
          refine ⟨by simp [h.len], ?_, ?_, ?_, fun hc => by simp [hcl] at hc,
            fun hd => by simp [hdn] at hd⟩
          · refine hworker (s.log ++ [(i, pr)]) (fun j => ?_)
            by_cases hij : i = j
            · subst hij
              rw [if_pos rfl, sentBy_append_self]
              rfl
            · rw [if_neg hij, sentBy_append_other _ _ _ _ hij]
          · intro e he
            simp only [List.length_set]
            rcases List.mem_append.1 he with h1 | h1
            · exact h.logIdx e h1
            · rw [List.mem_singleton] at h1
              rw [h1]; exact hlt
          · obtain ⟨consumed, hc1, hc2⟩ := h.consumed
            refine ⟨consumed, ?_, hc2⟩
            simp only [List.map_append, List.map_cons, List.map_nil]
            rw [hc1, List.append_assoc]
  | close =>
    simp only [step] at hs
    split_ifs at hs with h1 h2
    rw [← Option.some.inj hs]
    refine ⟨h.len, h.worker, h.logIdx, h.consumed, fun _ p hp => ?_, fun hd => ?_⟩
    · exact List.all_eq_true.1 h2.1 p hp
    · exact ⟨rfl, (h.doneInv hd).2⟩
  | recv =>
    simp only [step] at hs
    split_ifs at hs
    cases hch : s.chan with
    | nil => rw [hch] at hs; cases hs
    | cons p rest =>
      rw [hch] at hs
      simp only [Option.some.injEq] at hs
      rw [← hs]
      rename_i hcond
      have hdn : s.reducerDone = false := by
        cases hd : s.reducerDone with
        | false => rfl
        | true => exact absurd (Or.inr hd) hcond
      refine ⟨h.len, h.worker, h.logIdx, ?_, h.closedInv, fun hd => by simp [hdn] at hd⟩
      obtain ⟨consumed, hc1, hc2⟩ := h.consumed
      refine ⟨consumed ++ [p], ?_, ?_⟩
      · simp only
        rw [hc1, hch]
        simp
      · simp only
        rw [mergeAll_append_single, hc2]
  | stop =>
    simp only [step] at hs
    split_ifs at hs with h1 h2
    rw [← Option.some.inj hs]
    exact ⟨h.len, h.worker, h.logIdx, h.consumed, h.closedInv, fun _ => ⟨h2.2, h2.1⟩⟩

theorem Inv_exec (fuel cap : Nat) (w0 : List Phase) :
    ∀ (schedule : List Action) (s s1 : State), Inv fuel w0 s →
      exec fuel cap schedule s = some s1 → Inv fuel w0 s1 := by
  intro schedule
  induction schedule with
  | nil =>
    intro s s1 h e
    simp only [exec, Option.some.injEq] at e
    rw [← e]; exact h
  | cons a rest ih =>
    intro s s1 h e
    simp only [exec] at e
    cases hs : step fuel cap a s with
    | none => rw [hs] at e; cases e
    | some s2 =>
      rw [hs] at e
      exact ih s2 s1 (Inv_step fuel cap w0 a s s2 h hs) e

theorem initWorkers_initial (fuel : Nat) (data : List Nat) (cs : List (Nat × Nat)) :
    ∀ p ∈ initWorkers fuel data cs,
      (∃ lines ending, p = .scanning lines ending newHashTable) ∨ ∃ msg, p = .panicked msg := by
  induction cs with
  | nil => intro p hp; simp [initWorkers] at hp
  | cons c cs ih =>
    intro p hp
    simp only [initWorkers, List.mem_cons] at hp
    rcases hp with e | e
    · cases hsl : sliceChunk data c with
      | none => rw [hsl] at e; exact Or.inr ⟨_, e⟩
      | some chunk => rw [hsl] at e; exact Or.inl ⟨_, _, e⟩
    · exact ih p e

theorem Inv_init (fuel : Nat) (data : List Nat) (numCores : Nat) :
    Inv fuel (initState fuel data numCores).workers (initState fuel data numCores) := by
  refine ⟨rfl, ?_, ?_, ⟨[], rfl, rfl⟩, fun hc => by simp [initState] at hc,
    fun hd => by simp [initState] at hd⟩
  · intro i p0 p hp0 hp
    rw [hp0] at hp
    rw [← Option.some.inj hp]
    have hmem : p0 ∈ (initState fuel data numCores).workers := List.getElem?_mem hp0
    rcases initWorkers_initial fuel data _ p0 hmem with ⟨lines, ending, e⟩ | ⟨msg, e⟩
    · rw [e]
      exact ⟨rfl, lines, rfl, rfl⟩
    · rw [e]
      rfl
  · intro e he
    simp [initState] at he

end r08

namespace r08

theorem exec_append (fuel cap : Nat) (l1 l2 : List Action) :
    ∀ s s1, exec fuel cap l1 s = some s1 → exec fuel cap (l1 ++ l2) s = exec fuel cap l2 s1 := by
  induction l1 with
  | nil =>
    intro s s1 h
    simp only [exec, Option.some.injEq] at h
    rw [h]; rfl
  | cons a l1 ih =>
    intro s s1 h
    simp only [exec, List.cons_append] at h ⊢
    cases hs : step fuel cap a s with
    | none => rw [hs] at h; cases h
    | some s2 =>
      rw [hs] at h
      exact ih s2 s1 h

theorem All_firstTable : All firstTable = [(ascii "a", ⟨10, 10, 1, 10⟩)] :=
  All_single ⟨ascii "a", ⟨10, 10, 1, 10⟩⟩ (hashIndexOf (ascii "a")) 1 (hashIndexOf_lt _)

/-- On the input `a;1.0\nb;2.0\n` with two workers: after worker 0 has scanned
its line and ended its scan, it is about to send the pairs of its table. -/
theorem exampleRun_scan (n : Nat) :
    exec (n + 2) 2 [.work 0, .work 0] (initState (n + 2) (ascii "a;1.0\nb;2.0\n") 2)
      = some ⟨[.draining (All firstTable), .scanning [ascii "b;2.0"] .done newHashTable], [],
        false, [], false, []⟩ := rfl

/-- The run of `exampleSchedule`: the pair of worker 0 is merged while worker
1 has not processed its line. -/
theorem exampleRun (n : Nat) :
    exec (n + 2) 2 exampleSchedule (initState (n + 2) (ascii "a;1.0\nb;2.0\n") 2)
      = some exampleState := by
  have h := exec_append (n + 2) 2 [.work 0, .work 0] [.work 0, .recv] _ _ (exampleRun_scan n)
  have e : exampleSchedule = [.work 0, .work 0] ++ [.work 0, .recv] := rfl
  rw [e, h, All_firstTable]
  rfl

theorem All_secondTable : All secondTable = [(ascii "b", ⟨20, 20, 1, 20⟩)] :=
  All_single ⟨ascii "b", ⟨20, 20, 1, 20⟩⟩ (hashIndexOf (ascii "b")) 1 (hashIndexOf_lt _)

/-- The run of `fullSchedule`: both pairs are merged and the merge loop has
ended. -/
theorem fullRun (n : Nat) :
    exec (n + 2) 2 fullSchedule (initState (n + 2) (ascii "a;1.0\nb;2.0\n") 2)
      = some finalState := by
  have h1 := exec_append (n + 2) 2 [.work 0, .work 0]
    [.work 0, .work 0, .work 1, .work 1, .work 1, .work 1, .close, .recv, .recv, .stop] _ _
    (exampleRun_scan n)
  have e1 : fullSchedule = [.work 0, .work 0] ++
      [.work 0, .work 0, .work 1, .work 1, .work 1, .work 1, .close, .recv, .recv, .stop] := rfl
  rw [e1, h1, All_firstTable]
  have h2 : exec (n + 2) 2 [.work 0, .work 0, .work 1, .work 1]
      ⟨[.draining [(ascii "a", ⟨10, 10, 1, 10⟩)],
        .scanning [ascii "b;2.0"] .done newHashTable], [], false, [], false, []⟩
      = some ⟨[.finished, .draining (All secondTable)], [(ascii "a", ⟨10, 10, 1, 10⟩)], false,
        [], false, [(0, (ascii "a", ⟨10, 10, 1, 10⟩))]⟩ := rfl
  have h3 := exec_append (n + 2) 2 [.work 0, .work 0, .work 1, .work 1]
    [.work 1, .work 1, .close, .recv, .recv, .stop] _ _ h2
  have e2 : [Action.work 0, .work 0, .work 1, .work 1, .work 1, .work 1, .close, .recv, .recv,
      .stop] = [.work 0, .work 0, .work 1, .work 1] ++
        [.work 1, .work 1, .close, .recv, .recv, .stop] := rfl
  rw [e2, h3, All_secondTable]
  rfl

theorem length_initWorkers (fuel : Nat) (data : List Nat) (cs : List (Nat × Nat)) :
    (initWorkers fuel data cs).length = cs.length := by
  induction cs with
  | nil => rfl
  | cons c cs ih => simp [initWorkers, ih]

theorem filter_lt_succ_perm (log : List (Nat × (List Nat × stats))) (n : Nat) :
    List.Perm (log.filter (fun e => decide (e.1 < n + 1)))
      (log.filter (fun e => decide (e.1 < n)) ++ log.filter (fun e => decide (e.1 = n))) := by
  induction log with
  | nil => simp
  | cons e log ih =>
    rcases Nat.lt_trichotomy e.1 n with h | h | h
    · have h1 : e.1 < n + 1 := by omega
      have h2 : ¬ e.1 = n := by omega
      simp only [List.filter_cons, h, h1, h2, decide_True, decide_False, if_true,
        Bool.false_eq_true, if_false, List.cons_append]
      exact List.Perm.cons e ih
    · have h1 : e.1 < n + 1 := by omega
      have h2 : ¬ e.1 < n := by omega
      simp only [List.filter_cons, h1, h2, decide_True, decide_False, if_true,
        Bool.false_eq_true, if_false]
      rw [if_pos (by simp [h])]
      exact (List.Perm.cons e ih).trans List.perm_middle.symm
    · have h1 : ¬ e.1 < n + 1 := by omega
      have h2 : ¬ e.1 < n := by omega
      have h3 : ¬ e.1 = n := by omega
      simp only [List.filter_cons, h1, h2, h3, decide_False, Bool.false_eq_true, if_false]
      exact ih

/-- The pairs sent are, up to their order, the pairs sent by worker 0, then
those sent by worker 1, and so on. -/
theorem perm_log (log : List (Nat × (List Nat × stats))) (n : Nat)
    (h : ∀ e ∈ log, e.1 < n) :
    List.Perm (log.map (fun e => e.2)) ((List.range n).flatMap (sentBy log)) := by
  have hgen : ∀ m, List.Perm ((log.filter (fun e => decide (e.1 < m))).map (fun e => e.2))
      ((List.range m).flatMap (sentBy log)) := by
    intro m
    induction m with
    | zero => simp
    | succ m ih =>
      rw [List.range_succ, List.flatMap_append]
      have h1 := (filter_lt_succ_perm log m).map (fun e => e.2)
      rw [List.map_append] at h1
      refine h1.trans (List.Perm.append ih ?_)
      simp [sentBy, List.flatMap]
  have hall : log.filter (fun e => decide (e.1 < n)) = log := by
    rw [List.filter_eq_self]
    intro e he
    simpa using h e he
  have := hgen n
  rwa [hall] at this

/-- When every worker started scanning and its complete scan gives a table,
the workers taken one after the other deliver the pairs of these tables. -/
theorem runWorkers_of_tables (fuel : Nat) (data : List Nat) :
    ∀ (cs : List (Nat × Nat)) (f : Nat → List (List Nat × stats)),
      (∀ i, i < cs.length → ∃ lines ht,
        (initWorkers fuel data cs)[i]? = some (.scanning lines .done newHashTable) ∧
        aggregate fuel lines newHashTable = .ok ht ∧ f i = All ht) →
      runWorkers fuel data cs = .ok ((List.range cs.length).flatMap f) := by
  intro cs
  induction cs with
  | nil => intro f _; rfl
  | cons c cs ih =>
    intro f h
    obtain ⟨lines, ht, h0, hagg, hf0⟩ := h 0 (by simp)
    simp only [initWorkers, List.getElem?_cons_zero, Option.some.injEq] at h0
    have hrest := ih (fun i => f (i + 1)) (fun i hi => by
      obtain ⟨lines1, ht1, h1, h2, h3⟩ := h (i + 1) (by simp; omega)
      simp only [initWorkers, List.getElem?_cons_succ] at h1
      exact ⟨lines1, ht1, h1, h2, h3⟩)
    cases hsl : sliceChunk data c with
    | none => rw [hsl] at h0; cases h0
    | some chunk =>
      rw [hsl] at h0
      simp only [Phase.scanning.injEq] at h0
      obtain ⟨hl, he, _⟩ := h0
      have hpc : processChunk fuel chunk = .ok (All ht) := by
        unfold processChunk
        simp only [hl, hagg, he]
      rw [runWorkers_cons_ok fuel data chunk c cs _ _ hsl hpc hrest, List.length_cons,
        List.range_succ_eq_map, List.flatMap_cons, List.flatMap_map, hf0]

theorem lookup_mergeAll_perm (l1 l2 : List (List Nat × stats)) (hp : List.Perm l1 l2)
    (k : List Nat) : lookup (mergeAll l1) k = lookup (mergeAll l2) k := by
  rw [lookup_mergeAll, lookup_mergeAll]
  have hp1 : List.Perm (recordsOf l1 k) (recordsOf l2 k) := (hp.filter _).map _
  exact List.Perm.foldl_eq' hp1 (fun x _ y _ z => mergeStep_comm z x y) none

end r08

/-- C24 fails on the input `a;1.0\nb;2.0\n` with two workers: in the schedule
where worker 0 scans its chunk and sends its pair and the merge loop receives
it, the pair of key `a` is merged while worker 1 is still inside its scan,
its line not yet processed, and the channel is not closed. -/
theorem C24_merge_starts_while_worker_scans :
    r08.exec 131072 2 exampleSchedule (r08.initState 131072 (ascii "a;1.0\nb;2.0\n") 2)
        = some exampleState ∧
      exampleState.measurements = [(ascii "a", ⟨10, 10, 1, 10⟩)] ∧
      exampleState.workers.map r08.Phase.isScanning = [false, true] ∧
      exampleState.closed = false ∧ exampleState.reducerDone = false :=
  ⟨r08.exampleRun 131070, rfl, rfl, rfl, rfl⟩

/-- C24, amended: in every state that a schedule of the goroutines of
`Calculate` reaches, every pair sent so far was sent by a worker whose own
scan is complete and is a pair of the table of that complete scan; a worker
that is still scanning has sent nothing; what was sent has been merged, in
the order of the sends, or is still in the channel; and once the merge loop
has ended, the map holds for every key the record of the merge made after a
join of all workers. -/
theorem C24_pairs_come_from_completed_scans (fuel : Nat) (data : List Nat) (numCores : Nat)
    (schedule : List r08.Action) (s : r08.State)
    (hrun : r08.exec fuel numCores schedule (r08.initState fuel data numCores) = some s) :
    (∀ e ∈ s.log, ∃ lines ht p,
        (r08.initState fuel data numCores).workers[e.1]?
          = some (.scanning lines .done r08.newHashTable) ∧
        r08.aggregate fuel lines r08.newHashTable = .ok ht ∧ e.2 ∈ r08.All ht ∧
        s.workers[e.1]? = some p ∧ r08.Phase.scanComplete p = true) ∧
      (∀ i p, s.workers[i]? = some p → r08.Phase.isScanning p = true →
        r08.sentBy s.log i = []) ∧
      (∃ consumed, s.log.map (fun e => e.2) = consumed ++ s.chan ∧
        s.measurements = r08.mergeAll consumed) ∧
      (s.reducerDone = true → ∃ m, r08.mergedResult fuel data numCores = .ok m ∧
        ∀ k, r08.lookup s.measurements k = r08.lookup m k) := by
  have hinv := r08.Inv_exec fuel numCores _ schedule _ s (r08.Inv_init fuel data numCores) hrun
  have hw0 : ∀ i, i < s.workers.length →
      ∃ p0 p, (r08.initState fuel data numCores).workers[i]? = some p0 ∧
        s.workers[i]? = some p ∧ r08.WorkerInv fuel p0 p (r08.sentBy s.log i) := by
    intro i hi
    have hi0 : i < (r08.initState fuel data numCores).workers.length := by
      rw [← hinv.len]; exact hi
    exact ⟨_, _, List.getElem?_eq_getElem hi0, List.getElem?_eq_getElem hi,
      hinv.worker i _ _ (List.getElem?_eq_getElem hi0) (List.getElem?_eq_getElem hi)⟩
  refine ⟨?_, ?_, hinv.consumed, ?_⟩
  · intro e he
    obtain ⟨p0, p, hp0, hp, hwi⟩ := hw0 e.1 (hinv.logIdx e he)
    have hmem := r08.mem_sentBy s.log e he
    cases p with
    | scanning rest ending ht =>
      rw [hwi.1] at hmem; cases hmem
    | draining rest =>
      obtain ⟨lines, ht, e0, hagg, hall⟩ := hwi
      refine ⟨lines, ht, _, by rw [hp0, e0], hagg, ?_, hp, rfl⟩
      rw [← hall]
      exact List.mem_append_left _ hmem
    | finished =>
      obtain ⟨lines, ht, e0, hagg, hall⟩ := hwi
      refine ⟨lines, ht, _, by rw [hp0, e0], hagg, ?_, hp, rfl⟩
      rw [← hall]
      exact hmem
    | panicked msg =>
      have : r08.sentBy s.log e.1 = [] := hwi
      rw [this] at hmem; cases hmem
  · intro i p hp hsc
    have hi : i < s.workers.length := by
      by_contra hge
      rw [List.getElem?_eq_none (by omega)] at hp
      cases hp
    obtain ⟨p0, p1, _, hp1, hwi⟩ := hw0 i hi
    rw [hp] at hp1
    rw [← Option.some.inj hp1] at hwi
    cases p with
    | scanning rest ending ht => exact hwi.1
    | draining rest => cases hsc
    | finished => cases hsc
    | panicked msg => cases hsc
  · intro hdone
    obtain ⟨hclosed, hchan⟩ := hinv.doneInv hdone
    have hfin := hinv.closedInv hclosed
    have hlen : s.workers.length = (r08.chunks data numCores).length := by
      rw [hinv.len]
      exact r08.length_initWorkers fuel data _
    have hrw := r08.runWorkers_of_tables fuel data (r08.chunks data numCores)
      (r08.sentBy s.log) (fun i hi => by
        obtain ⟨p0, p, hp0, hp, hwi⟩ := hw0 i (by rw [hlen]; exact hi)
        have hpf := hfin p (List.getElem?_mem hp)
        cases p with
        | finished =>
          obtain ⟨lines, ht, e0, hagg, hall⟩ := hwi
          exact ⟨lines, ht, by rw [← e0]; exact hp0, hagg, hall⟩
        | scanning rest ending ht => cases hpf
        | draining rest => cases hpf
        | panicked msg => cases hpf)
    refine ⟨_, r08.mergedResult_ok _ _ _ _ hrw, fun k => ?_⟩
    obtain ⟨consumed, hc1, hc2⟩ := hinv.consumed
    rw [hchan, List.append_nil] at hc1
    rw [hc2, ← hc1]
    exact r08.lookup_mergeAll_perm _ _
      (r08.perm_log s.log _ (fun e he => by rw [← hlen]; exact hinv.logIdx e he)) k

/-- C24 (amended) at the complete schedule `fullSchedule` on the input
`a;1.0\nb;2.0\n` with two workers, where the merge loop has ended. -/
theorem C24_pairs_come_from_completed_scans_witness :
    r08.exec 2 2 fullSchedule (r08.initState 2 (ascii "a;1.0\nb;2.0\n") 2) = some finalState ∧
      finalState.reducerDone = true ∧
      (∀ e ∈ finalState.log, ∃ lines ht p,
        (r08.initState 2 (ascii "a;1.0\nb;2.0\n") 2).workers[e.1]?
          = some (.scanning lines .done r08.newHashTable) ∧
        r08.aggregate 2 lines r08.newHashTable = .ok ht ∧ e.2 ∈ r08.All ht ∧
        finalState.workers[e.1]? = some p ∧ r08.Phase.scanComplete p = true) ∧
      (∀ i p, finalState.workers[i]? = some p → r08.Phase.isScanning p = true →
        r08.sentBy finalState.log i = []) ∧
      (∃ consumed, finalState.log.map (fun e => e.2) = consumed ++ finalState.chan ∧
        finalState.measurements = r08.mergeAll consumed) ∧
      (finalState.reducerDone = true →
        ∃ m, r08.mergedResult 2 (ascii "a;1.0\nb;2.0\n") 2 = .ok m ∧
          ∀ k, r08.lookup finalState.measurements k = r08.lookup m k) :=
  ⟨r08.fullRun 0, rfl,
    C24_pairs_come_from_completed_scans 2 (ascii "a;1.0\nb;2.0\n") 2 fullSchedule finalState
      (r08.fullRun 0)⟩

end OneBRC
